import Mathlib

/-!
Buffer cache (kernel/bio.c) and physical page allocator (kernel/kalloc.c)

A shallow embedding of the two kernel modules and proofs about them.

Conventions of the embedding:

* A `struct buf *` is the index of the buffer in the array `bcache.buf`; a
  NULL-terminated chain `bucket_head[i].next -> ... -> NULL` is the Lean list of
  the buffers on it, head first.
* A `struct run *` is the physical address of the page; a free list is the
  Lean list of the pages on it, head first, and the empty list is the null
  pointer.
* The embedding is sequential: every call runs to completion before the next
  one starts, so spin locks (`acquire`/`release`, `push_off`/`pop_off`) have no
  effect on the data and are not part of the state.
* The sizes `NBUF`, `BUCKETSZ` and `NCPU` are the lengths of the arrays in
  the state, so that the same definitions cover every configuration.
-/

namespace Bio

/-- Modelled from the spec: `struct buf` is declared in buf.h, which is not among the
sources. The fields are the ones bio.c uses: `valid`, `dev`, `blockno`, the sleep
lock `lock` (here the pid of its holder, if any), `refcnt`, `lastuse` and the
content `data`. The link `next` is represented by the bucket lists of `BCache`.
`refcnt` is a natural number (the spec's number of live references), without a
machine width. -/
structure Buf where
  valid : Nat
  dev : Nat
  blockno : Nat
  lock : Option Nat
  refcnt : Nat
  lastuse : Nat
  data : List Nat
  deriving DecidableEq

/-- A buffer of the zero-initialised static storage, with `BSIZE` content bytes. -/
def Buf.zero (BSIZE : Nat) : Buf :=
  { valid := 0, dev := 0, blockno := 0, lock := none, refcnt := 0, lastuse := 0,
    data := List.replicate BSIZE 0 }

instance : Inhabited Buf := ⟨Buf.zero 0⟩

/-- The global `bcache` together with the block device behind it.
`buf` is the array `bcache.buf[NBUF]`, `bucket_head[i]` is the chain hanging off
`bcache.bucket_head[i].next`. `disk` is the content of the block device and `io`
the calls of `virtio_disk_rw` made so far, most recent first, as
`(write, dev, blockno)`. -/
structure BCache where
  buf : List Buf
  bucket_head : List (List Nat)
  disk : Nat → Nat → List Nat
  io : List (Bool × Nat × Nat)

/-- The number of buffers, `NBUF` of param.h. -/
def BCache.NBUF (s : BCache) : Nat := s.buf.length

/-- The number of buckets, `BUCKETSZ`. -/
def BCache.BUCKETSZ (s : BCache) : Nat := s.bucket_head.length

/-- The buffer `bcache.buf[b]`. -/
def BCache.at (s : BCache) (b : Nat) : Buf := s.buf.getD b default

/-- The chain of bucket `i`. -/
def BCache.chain (s : BCache) (i : Nat) : List Nat := s.bucket_head.getD i []

/-- Store `v` in `bcache.buf[b]`. -/
def BCache.setBuf (s : BCache) (b : Nat) (v : Buf) : BCache :=
  { s with buf := s.buf.set b v }

/-- Replace the chain of bucket `i`. -/
def BCache.setChain (s : BCache) (i : Nat) (l : List Nat) : BCache :=
  { s with bucket_head := s.bucket_head.set i l }

/-- The macro `BCACHE_HASH(dev, blk) (((dev << 27) | blk) % BUCKETSZ)` on `uint` operands. -/
def BCACHE_HASH (BUCKETSZ dev blk : Nat) : Nat :=
  (((dev <<< 27) ||| blk) % 2 ^ 32) % BUCKETSZ

/-- The zero-initialised static storage before `binit`, over a given disk. -/
def bss (NBUF BUCKETSZ BSIZE : Nat) (disk : Nat → Nat → List Nat) : BCache :=
  { buf := List.replicate NBUF (Buf.zero BSIZE)
    bucket_head := List.replicate BUCKETSZ []
    disk := disk
    io := [] }

/-- One iteration of the second loop of `binit`, for the buffer `b`. -/
def binitStep (s : BCache) (b : Nat) : BCache :=
  (s.setBuf b { s.at b with lastuse := 0, refcnt := 0, lock := none }).setChain 0 (b :: s.chain 0)

/-- The function `binit`. -/
def binit (s : BCache) : BCache :=
  (List.range s.NBUF).foldl binitStep { s with bucket_head := s.bucket_head.map (fun _ => []) }

/-- Modelled from the spec: `acquiresleep` of sleeplock.c, which is not among the sources: the
blocking exclusive lock. All lock waits are treated as eventually completing, so
the call returns with the lock held by the caller `pid`. -/
def acquiresleep (s : BCache) (pid b : Nat) : BCache :=
  s.setBuf b { s.at b with lock := some pid }

/-- Modelled from the spec: `releasesleep` of sleeplock.c: the lock becomes free. -/
def releasesleep (s : BCache) (b : Nat) : BCache :=
  s.setBuf b { s.at b with lock := none }

/-- Modelled from the spec: `holdingsleep` of sleeplock.c, the query "currently held by me". -/
def holdingsleep (s : BCache) (pid b : Nat) : Bool :=
  (s.at b).lock == some pid

/-- Modelled from the spec: `virtio_disk_rw(b, write)`, the block device, which is not among the
sources: `read_block(device, block_number, buffer)` fills the content of `b` from
the device, `write_block` stores the content of `b` on the device. -/
def virtio_disk_rw (s : BCache) (b : Nat) ( write : Bool) : BCache :=
  let bf := s.at b
  if write then
    { s with
      disk := fun d n => if d = bf.dev ∧ n = bf.blockno then bf.data else s.disk d n
      io := (true, bf.dev, bf.blockno) :: s.io }
  else
    { (s.setBuf b { bf with data := s.disk bf.dev bf.blockno }) with
      io := (false, bf.dev, bf.blockno) :: s.io }

/-- The loops "Is the block already cached?" of `bget`: the first buffer of the
chain with the key `(dev, blockno)`. -/
def findCached (s : BCache) (idx dev blockno : Nat) : Option Nat :=
  (s.chain idx).find? (fun b => decide ((s.at b).dev = dev ∧ (s.at b).blockno = blockno))

/-- The hit path of `bget`: `b->refcnt++`, then `acquiresleep(&b->lock)`. -/
def bgetHit (s : BCache) (pid b : Nat) : BCache :=
  acquiresleep (s.setBuf b { s.at b with refcnt := (s.at b).refcnt + 1 }) pid b

/-- The test `!pre_lru || pre_lru->next->lastuse > b->next->lastuse` of the eviction
scan; `lru` is the candidate `pre_lru->next`, `none` while `pre_lru` is null. -/
def improves (s : BCache) : Option Nat → Nat → Bool
  | none, _ => true
  | some l, b => decide ((s.at l).lastuse > (s.at b).lastuse)

/-- The inner loop of the eviction scan over one chain. `lru` is the candidate
`pre_lru->next` (`none` while `pre_lru` is null) and the flag is `found_new`. -/
def scanBucket (s : BCache) : List Nat → Option Nat → Bool → Option Nat × Bool
  | [], lru, found_new => (lru, found_new)
  | b :: rest, lru, found_new =>
    if (s.at b).refcnt = 0 ∧ improves s lru b = true then
      scanBucket s rest (some b) true
    else
      scanBucket s rest lru found_new

/-- The outer loop of the eviction scan, over the buckets `i, i+1, ...`.
`lru_idx` is `none` for the initial `-1`. -/
def scanAll (s : BCache) : List (List Nat) → Nat → Option Nat → Option Nat → Option Nat × Option Nat
  | [], _, lru, lru_idx => (lru, lru_idx)
  | chain :: rest, i, lru, lru_idx =>
    match scanBucket s chain lru false with
    | (lru1, found_new) =>
      if found_new then scanAll s rest (i + 1) lru1 (some i)
      else scanAll s rest (i + 1) lru1 lru_idx

/-- The tail of `bget` after a successful eviction scan: unlink `lru` from the bucket
`lru_idx` and relink it at the head of bucket `idx` when the two differ, then
reset the buffer and take its sleep lock. A list holds a node at most once, so
unlinking the node after `pre_lru` is erasing `lru`. -/
def recycle (s : BCache) (pid dev blockno idx lru : Nat) (lru_idx : Option Nat) : BCache :=
  let s1 :=
    if lru_idx ≠ some idx then
      let s0 := s.setChain (lru_idx.getD 0) ((s.chain (lru_idx.getD 0)).erase lru)
      s0.setChain idx (lru :: s0.chain idx)
    else s
  let s2 := s1.setBuf lru { s1.at lru with dev := dev, blockno := blockno, valid := 0, refcnt := 1 }
  acquiresleep s2 pid lru

/-- The function `bget`, called by the process `pid`. The result is the returned buffer and
the new state, or the message of the panic. -/
def bget (s : BCache) (pid dev blockno : Nat) : Except String (Nat × BCache) :=
  let idx := BCACHE_HASH s.BUCKETSZ dev blockno
  match findCached s idx dev blockno with
  | some b => .ok (b, bgetHit s pid b)
  | none =>
    -- check again, under bcache.lock
    match findCached s idx dev blockno with
    | some b => .ok (b, bgetHit s pid b)
    | none =>
      match scanAll s s.bucket_head 0 none none with
      | (none, _) => .error "bget: no buffers"
      | (some lru, lru_idx) => .ok (lru, recycle s pid dev blockno idx lru lru_idx)

/-- The function `bread`. -/
def bread (s : BCache) (pid dev blockno : Nat) : Except String (Nat × BCache) :=
  match bget s pid dev blockno with
  | .error e => .error e
  | .ok (b, s1) =>
    if (s1.at b).valid = 0 then
      let s2 := virtio_disk_rw s1 b false
      .ok (b, s2.setBuf b { s2.at b with valid := 1 })
    else .ok (b, s1)

/-- The tail of `bread` after `bget` has returned `b` in the state `s1`: the statement
`if(!b->valid) { virtio_disk_rw(b, 0); b->valid = 1; }`. -/
def breadTail (s1 : BCache) (b : Nat) : BCache :=
  if (s1.at b).valid = 0 then
    (virtio_disk_rw s1 b false).setBuf b { (virtio_disk_rw s1 b false).at b with valid := 1 }
  else s1

/-- The function `bwrite`. -/
def bwrite (s : BCache) (pid b : Nat) : Except String BCache :=
  if !holdingsleep s pid b then .error "bwrite"
  else .ok (virtio_disk_rw s b true)

/-- The function `brelse`, called by the process `pid`; `ticks` is the value of the global
tick counter that the call reads. The index `BCACHE_HASH(b->dev, b->blockno)` selects the
bucket lock only. -/
def brelse (s : BCache) (pid b ticks : Nat) : Except String BCache :=
  if !holdingsleep s pid b then .error "brelse"
  else
    let s1 := releasesleep s b
    let s2 := s1.setBuf b { s1.at b with refcnt := (s1.at b).refcnt - 1 }
    if (s2.at b).refcnt = 0 then
      .ok (s2.setBuf b { s2.at b with lastuse := ticks })
    else .ok s2

/-- The function `bpin`; the bucket index selects the bucket lock only. -/
def bpin (s : BCache) (b : Nat) : BCache :=
  s.setBuf b { s.at b with refcnt := (s.at b).refcnt + 1 }

/-- The function `bunpin`; the bucket index selects the bucket lock only. -/
def bunpin (s : BCache) (b : Nat) : BCache :=
  s.setBuf b { s.at b with refcnt := (s.at b).refcnt - 1 }

/-- The holder of the sleep lock of `b` overwrites the content of the buffer with `d`. -/
def setData (s : BCache) (b : Nat) (d : List Nat) : BCache :=
  s.setBuf b { s.at b with data := d }

/-! ### Auxiliary definitions of the proofs -/

/-- The state in which a call that returns a buffer leaves the cache; `s` when it panics. -/
def stateOf (s : BCache) : Except String (Nat × BCache) → BCache
  | .ok (_, t) => t
  | .error _ => s

/-- A cache of 4 buffers and 2 buckets over an empty disk, right after `binit`. -/
def fresh42 : BCache := binit (bss 4 2 0 (fun _ _ => []))

/-- A call of the interface in a sequence of reads and releases. -/
inductive Call where
  | bread (pid dev blockno : Nat)
  | brelse (pid b ticks : Nat)

/-- The state after one call of a sequence, or the message of its panic. -/
def Call.apply (s : BCache) : Call → Except String BCache
  | .bread pid dev blockno =>
    match Bio.bread s pid dev blockno with
    | .ok (_, t) => .ok t
    | .error e => .error e
  | .brelse pid b ticks => Bio.brelse s pid b ticks

/-- The state after a sequence of calls, or the message of the first panic. -/
def run : BCache → List Call → Except String BCache
  | s, [] => .ok s
  | s, c :: cs =>
    match c.apply s with
    | .ok t => run t cs
    | .error e => .error e

/-- The call is a `bread` of the block `(dev, blockno)`. -/
def Call.readsBlock (dev blockno : Nat) : Call → Prop
  | .bread _ d n => d = dev ∧ n = blockno
  | .brelse _ _ _ => False

/-- The block `(dev, blockno)` has the content `D` on the device and in every valid buffer
that carries its key. -/
def Stored (s : BCache) (dev blockno : Nat) (D : List Nat) : Prop :=
  s.disk dev blockno = D ∧
  ∀ c, c < s.NBUF → (s.at c).dev = dev → (s.at c).blockno = blockno → (s.at c).valid ≠ 0 →
    (s.at c).data = D

/-- A read with an immediate release: `b = bread(dev, blockno); brelse(b);`, where the
`brelse` reads the tick counter at `ticks`. -/
def readRelease (s : BCache) (pid dev blockno ticks : Nat) : Except String (Nat × BCache) :=
  match bread s pid dev blockno with
  | .error e => .error e
  | .ok (b, s1) =>
    match brelse s1 pid b ticks with
    | .error e => .error e
    | .ok s2 => .ok (b, s2)

/-- The bucket that `BCACHE_HASH` assigns to the key of the buffer `b`. -/
def BCache.home (s : BCache) (b : Nat) : Nat :=
  BCACHE_HASH s.BUCKETSZ (s.at b).dev (s.at b).blockno

/-- The structural invariant of the cache: there is a bucket; every buffer is on the chain
of the bucket of its key and on no other; a chain holds a buffer once; a buffer that
is referenced or valid is the first one with its key on its chain; `valid` is 0 or 1. -/
structure Inv (s : BCache) : Prop where
  buckets : 0 < s.BUCKETSZ
  cover : ∀ b, b < s.NBUF → b ∈ s.chain (s.home b)
  hashed : ∀ i b, b ∈ s.chain i → b < s.NBUF ∧ s.home b = i
  nodup : ∀ i, (s.chain i).Nodup
  first : ∀ b, b < s.NBUF → (s.at b).refcnt ≠ 0 ∨ (s.at b).valid ≠ 0 →
    findCached s (s.home b) (s.at b).dev (s.at b).blockno = some b
  valid01 : ∀ b, b < s.NBUF → (s.at b).valid ≤ 1

/-- The states reachable from `binit` on zero-initialised storage by calls of the interface.
`brelse`, `bpin` and `bunpin` are applied to referenced buffers only, and the content
of a buffer is written by the holder of its sleep lock. -/
inductive Reachable : BCache → Prop
  | init (NBUF BUCKETSZ BSIZE : Nat) (disk : Nat → Nat → List Nat) (h : 0 < BUCKETSZ) :
      Reachable (binit (bss NBUF BUCKETSZ BSIZE disk))
  | bget {s s1 : BCache} {pid dev blockno b : Nat} :
      Reachable s → bget s pid dev blockno = .ok (b, s1) → Reachable s1
  | bread {s s1 : BCache} {pid dev blockno b : Nat} :
      Reachable s → bread s pid dev blockno = .ok (b, s1) → Reachable s1
  | bwrite {s s1 : BCache} {pid b : Nat} :
      Reachable s → bwrite s pid b = .ok s1 → Reachable s1
  | brelse {s s1 : BCache} {pid b ticks : Nat} :
      Reachable s → 0 < (s.at b).refcnt → brelse s pid b ticks = .ok s1 → Reachable s1
  | bpin {s : BCache} {b : Nat} :
      Reachable s → 0 < (s.at b).refcnt → Reachable (bpin s b)
  | bunpin {s : BCache} {b : Nat} :
      Reachable s → 0 < (s.at b).refcnt → Reachable (bunpin s b)
  | setData {s : BCache} {pid b : Nat} {d : List Nat} :
      Reachable s → holdingsleep s pid b = true → Reachable (setData s b d)

/-- The order in which the eviction scan of `bget` visits the buffers: the buckets in the
order of their index, each chain from head to tail. -/
def scanOrder (s : BCache) : List Nat := s.bucket_head.flatten

/-- The buffers with `refcnt = 0` whose `lastuse` is the minimum over the buffers with
`refcnt = 0`, in the order in which the eviction scan visits them. -/
def lruTies (s : BCache) : List Nat :=
  (scanOrder s).filter (fun b =>
    decide ((s.at b).refcnt = 0) &&
      (scanOrder s).all (fun c => decide ((s.at c).refcnt = 0 → (s.at b).lastuse ≤ (s.at c).lastuse)))

/-- The linking invariant of the cache: there is a bucket; every buffer is on the chain of
the bucket of its key and on no other; a chain holds a buffer once. -/
structure Linked (s : BCache) : Prop where
  buckets : 0 < s.BUCKETSZ
  cover : ∀ b, b < s.NBUF → b ∈ s.chain (s.home b)
  hashed : ∀ i b, b ∈ s.chain i → b < s.NBUF ∧ s.home b = i
  nodup : ∀ i, (s.chain i).Nodup

/-- The states reachable from `binit` on zero-initialised storage by calls of the interface
on any buffer, whatever its reference count and whoever holds its sleep lock. -/
inductive ReachableAny : BCache → Prop
  | init (NBUF BUCKETSZ BSIZE : Nat) (disk : Nat → Nat → List Nat) (h : 0 < BUCKETSZ) :
      ReachableAny (binit (bss NBUF BUCKETSZ BSIZE disk))
  | bget {s s1 : BCache} {pid dev blockno b : Nat} :
      ReachableAny s → bget s pid dev blockno = .ok (b, s1) → ReachableAny s1
  | bread {s s1 : BCache} {pid dev blockno b : Nat} :
      ReachableAny s → bread s pid dev blockno = .ok (b, s1) → ReachableAny s1
  | bwrite {s s1 : BCache} {pid b : Nat} :
      ReachableAny s → bwrite s pid b = .ok s1 → ReachableAny s1
  | brelse {s s1 : BCache} {pid b ticks : Nat} :
      ReachableAny s → brelse s pid b ticks = .ok s1 → ReachableAny s1
  | bpin {s : BCache} (b : Nat) : ReachableAny s → ReachableAny (bpin s b)
  | bunpin {s : BCache} (b : Nat) : ReachableAny s → ReachableAny (bunpin s b)
  | setData {s : BCache} (b : Nat) (d : List Nat) : ReachableAny s → ReachableAny (setData s b d)

/-- A call of a history of the cache. In a history every call comes with the value of the
tick counter at the moment of the call; only `brelse` reads it. -/
inductive Step where
  | bread (pid dev blockno : Nat)
  | brelse (pid b : Nat)
  | bpin (b : Nat)
  | bunpin (b : Nat)

/-- The state after a call of a history made at the tick `ticks`. There is no next state when
the call panics, or when `brelse`, `bpin` or `bunpin` is applied to a buffer with
`refcnt = 0`. -/
def Step.apply (s : BCache) (ticks : Nat) : Step → Option BCache
  | .bread pid dev blockno =>
    match Bio.bread s pid dev blockno with
    | .ok (_, t) => some t
    | .error _ => none
  | .brelse pid b =>
    if 0 < (s.at b).refcnt then
      match Bio.brelse s pid b ticks with
      | .ok t => some t
      | .error _ => none
    else none
  | .bpin b => if 0 < (s.at b).refcnt then some (Bio.bpin s b) else none
  | .bunpin b => if 0 < (s.at b).refcnt then some (Bio.bunpin s b) else none

/-- Written from the claim, not from the code: the ticks at which the reference counts most
recently dropped to 0, after one more call made at the tick `ticks` in the state `s`,
whichever of `brelse` and `bunpin` performs the decrement from 1 to 0. -/
def Step.dropTick (s : BCache) (ticks : Nat) (old : Nat → Nat) : Step → Nat → Nat
  | .brelse _ b => fun c => if c = b ∧ (s.at b).refcnt = 1 then ticks else old c
  | .bunpin b => fun c => if c = b ∧ (s.at b).refcnt = 1 then ticks else old c
  | _ => old

/-- The ticks at which a `brelse` most recently dropped the reference counts to 0, after one
more call made at the tick `ticks` in the state `s`. -/
def Step.releaseTick (s : BCache) (ticks : Nat) (old : Nat → Nat) : Step → Nat → Nat
  | .brelse _ b => fun c => if c = b ∧ (s.at b).refcnt = 1 then ticks else old c
  | _ => old

/-- A state of the cache together with two records of its history: for every buffer, the
tick at which its `refcnt` most recently dropped to 0 (`drop`, by `brelse` or `bunpin`)
and the tick at which a `brelse` most recently dropped it to 0 (`release`); 0 when that
has not happened. -/
structure Hist where
  s : BCache
  drop : Nat → Nat
  release : Nat → Nat

/-- The history that starts in the state `s`. -/
def Hist.start (s : BCache) : Hist := { s := s, drop := fun _ => 0, release := fun _ => 0 }

/-- The history after a sequence of calls, each with the tick at which it is made. -/
def Hist.run : Hist → List (Nat × Step) → Option Hist
  | h, [] => some h
  | h, (ticks, c) :: rest =>
    match c.apply h.s ticks with
    | none => none
    | some t =>
      Hist.run { s := t, drop := c.dropTick h.s ticks h.drop,
                 release := c.releaseTick h.s ticks h.release } rest

/-- On a fresh cache: `bread(0, 1)` at tick 1 returns buffer 3, which is pinned at tick 2,
released at tick 3 and unpinned at tick 4. -/
def pinnedHistory : List (Nat × Step) :=
  [(1, .bread 7 0 1), (2, .bpin 3), (3, .brelse 7 3), (4, .bunpin 3)]

/-! ### The embedding of `bget` that tracks the spin locks of the caller -/

/-- The spin locks of bio.c: `bcache.lock` and `bcache.bucket_lock[i]`. -/
inductive Lock where
  | global
  | bucket (i : Nat)
  deriving DecidableEq

/-- The lock is a bucket lock. -/
def Lock.isBucket : Lock → Bool
  | .global => false
  | .bucket _ => true

/-- A locking operation of `bget`: `acquire` and `release` of a spin lock, and the
`acquiresleep` on the buffer that is returned. -/
inductive LockOp where
  | acquire (l : Lock)
  | release (l : Lock)
  | sleep (b : Nat)
  deriving DecidableEq

/-- One locking operation of a call together with the spin locks that the caller holds right
before it. For an operation inside the loop `for (int i = 0; i < BUCKETSZ; i++)` of the
eviction scan, `scan` is `some (lru_idx, i)`, the values of the two variables at the
operation (`none` for `lru_idx = -1`); elsewhere it is `none`. -/
structure LockStep where
  op : LockOp
  held : List Lock
  scan : Option (Option Nat × Nat)

/-- The spin locks that the caller holds right after the operation. -/
def LockStep.after (e : LockStep) : List Lock :=
  match e.op with
  | .acquire l => l :: e.held
  | .release l => e.held.erase l
  | .sleep _ => e.held

/-- The spin locks that the caller holds and the log of its locking operations so far. -/
structure Locks where
  held : List Lock
  log : List LockStep

/-- The caller performs one locking operation. -/
def Locks.step (k : Locks) (op : LockOp) (scan : Option (Option Nat × Nat)) : Locks :=
  { held := LockStep.after { op := op, held := k.held, scan := scan }
    log := k.log ++ [{ op := op, held := k.held, scan := scan }] }

/-- The outer loop of the eviction scan with its locking operations: `scanAll` with
`acquire(&bcache.bucket_lock[i])` before the inner loop and, after it, the release of
bucket `i` when `found_new` is not set, else the release of bucket `lru_idx` unless
`lru_idx` is `-1`. -/
def scanAllL (s : BCache) : List (List Nat) → Nat → Option Nat → Option Nat → Locks →
    (Option Nat × Option Nat) × Locks
  | [], _, lru, lru_idx, k => ((lru, lru_idx), k)
  | chain :: rest, i, lru, lru_idx, k =>
    match scanBucket s chain lru false with
    | (lru1, found_new) =>
      if found_new then
        scanAllL s rest (i + 1) lru1 (some i)
          (match lru_idx with
           | some j =>
             (k.step (.acquire (.bucket i)) (some (lru_idx, i))).step (.release (.bucket j))
               (some (lru_idx, i))
           | none => k.step (.acquire (.bucket i)) (some (lru_idx, i)))
      else
        scanAllL s rest (i + 1) lru1 lru_idx
          ((k.step (.acquire (.bucket i)) (some (lru_idx, i))).step (.release (.bucket i))
            (some (lru_idx, i)))

/-- The function `bget` with its locking operations: the result of `bget` together with the
spin locks held at the end and the log of the operations. The caller starts without a
spin lock. -/
def bgetL (s : BCache) (pid dev blockno : Nat) : Except String (Nat × BCache) × Locks :=
  let idx := BCACHE_HASH s.BUCKETSZ dev blockno
  let k1 := Locks.step { held := [], log := [] } (.acquire (.bucket idx)) none
  match findCached s idx dev blockno with
  | some b =>
    (.ok (b, bgetHit s pid b), (k1.step (.release (.bucket idx)) none).step (.sleep b) none)
  | none =>
    let k2 := ((k1.step (.release (.bucket idx)) none).step (.acquire .global) none).step
      (.acquire (.bucket idx)) none
    match findCached s idx dev blockno with
    | some b =>
      (.ok (b, bgetHit s pid b),
        ((k2.step (.release (.bucket idx)) none).step (.release .global) none).step
          (.sleep b) none)
    | none =>
      match scanAllL s s.bucket_head 0 none none (k2.step (.release (.bucket idx)) none) with
      | ((none, _), k4) => (.error "bget: no buffers", k4)
      | ((some lru, lru_idx), k4) =>
        let k5 :=
          if lru_idx ≠ some idx then
            (k4.step (.release (.bucket (lru_idx.getD 0))) none).step (.acquire (.bucket idx)) none
          else k4
        (.ok (lru, recycle s pid dev blockno idx lru lru_idx),
          ((k5.step (.release (.bucket idx)) none).step (.release .global) none).step
            (.sleep lru) none)

/-- The discipline of one locking operation: a lock that is acquired is not held and a lock
that is released is held; `bcache.lock` is acquired while no bucket lock is held; inside
the loop of the eviction scan every bucket lock held before or after the operation is
the lock of bucket `i` or of bucket `lru_idx`, and at most two are held; a sleep lock is
taken while no spin lock is held. -/
structure LockStep.Disciplined (e : LockStep) : Prop where
  acquire_free : ∀ l, e.op = .acquire l → l ∉ e.held
  release_held : ∀ l, e.op = .release l → l ∈ e.held
  global_alone : e.op = .acquire .global → ∀ j, Lock.bucket j ∉ e.held
  scan_two : ∀ lru_idx i, e.scan = some (lru_idx, i) →
    (∀ j, Lock.bucket j ∈ e.held ∨ Lock.bucket j ∈ e.after → j = i ∨ lru_idx = some j) ∧
    (e.held.filter Lock.isBucket).length ≤ 2 ∧ (e.after.filter Lock.isBucket).length ≤ 2
  sleep_free : ∀ b, e.op = .sleep b → e.held = []

/-- The spin locks held between two iterations of the loop of the eviction scan:
`bcache.lock`, and the lock of bucket `lru_idx` unless `lru_idx` is `-1`. -/
def heldIn : Option Nat → List Lock
  | none => [.global]
  | some j => [.bucket j, .global]

end Bio

namespace Kalloc

/-- The global array `kmem[NCPU]` seen as lists: `freelist[i]` is the list of the pages on the
chain that starts at `kmem[i].freelist`, in a memory whose chains end with the null pointer
(`Mem` is that memory and `Mem.Lists` the relation between the two). `fill p` is the byte
that the last `memset(p, _, PGSIZE)` on the page `p` wrote. -/
structure Kmem where
  freelist : List (List Nat)
  fill : Nat → Nat

/-- The number of cores, `NCPU` of param.h. -/
def Kmem.NCPU (s : Kmem) : Nat := s.freelist.length

/-- The constants of memlayout.h, riscv.h and kernel.ld that kalloc.c uses; they are not
among the sources and are parameters. `endp` is the symbol `end`. -/
structure Layout where
  PGSIZE : Nat
  endp : Nat
  PHYSTOP : Nat

/-- The call `memset(pa, c, PGSIZE)`. -/
def memset (s : Kmem) (pa c : Nat) : Kmem :=
  { s with fill := fun p => if p = pa then c else s.fill p }

/-- The function `kfree` on the lists, called on the core `id` (the value of `cpuid()`), for a
page `pa` that is on no free list: the page becomes the head of the list of the core. What
`kfree` does to the memory, for every `pa`, is `Mem.kfree`; the two agree for a page that is
on no free list (`kfree_refines`). -/
def kfree (L : Layout) (s : Kmem) (id pa : Nat) : Except String Kmem :=
  if pa % L.PGSIZE ≠ 0 ∨ pa < L.endp ∨ pa ≥ L.PHYSTOP then .error "kfree"
  else
    let s1 := memset s pa 1
    .ok { s1 with freelist := s1.freelist.set id (pa :: s1.freelist.getD id []) }

/-- The loop `while (r && --steal_pages)` of `kalloc` over the free list of one other core.
The result is what is left of that list, the new `steal_freelist` and `steal_pages`. -/
def stealWhile : List Nat → List Nat → Int → List Nat × List Nat × Int
  | [], steal_freelist, steal_pages => ([], steal_freelist, steal_pages)
  | r :: rest, steal_freelist, steal_pages =>
    if steal_pages - 1 ≠ 0 then stealWhile rest (r :: steal_freelist) (steal_pages - 1)
    else (r :: rest, steal_freelist, steal_pages - 1)

/-- The loop `for (int i = 0; i < NCPU; i++)` of `kalloc`, from the core `i` on, with
`n` cores still to visit. -/
def stealFor (id : Nat) : Nat → Nat → List (List Nat) → List Nat → Int →
    List (List Nat) × List Nat × Int
  | 0, _, fl, steal_freelist, steal_pages => (fl, steal_freelist, steal_pages)
  | n + 1, i, fl, steal_freelist, steal_pages =>
    if i = id then stealFor id n (i + 1) fl steal_freelist steal_pages
    else
      match stealWhile (fl.getD i []) steal_freelist steal_pages with
      | (rest, steal1, pages1) =>
        if pages1 = 0 then (fl.set i rest, steal1, pages1)
        else stealFor id n (i + 1) (fl.set i rest) steal1 pages1

/-- The function `kalloc` on the lists, called on the core `id` (the value of `cpuid()`). The
result is the returned pointer, `none` for the null pointer, and the new state. On the slow
path the list of the calling core is empty when its lock is released and nothing adds to
it before `kmem[id].freelist = steal_freelist`. What `kalloc` does to the memory is
`Mem.kalloc`; the two agree on lists that are pairwise disjoint (`kalloc_refines`). -/
def kalloc (s : Kmem) (id : Nat) : Option Nat × Kmem :=
  match s.freelist.getD id [] with
  | r :: rest =>
    (some r, memset { s with freelist := s.freelist.set id rest } r 5)
  | [] =>
    match stealFor id s.NCPU 0 s.freelist [] 64 with
    | (fl, steal_freelist, _) =>
      match steal_freelist with
      | [] => (none, { s with freelist := fl.set id [] })
      | r :: rest => (some r, memset { s with freelist := fl.set id rest } r 5)

/-- The number of free pages over all cores. -/
def Kmem.total (s : Kmem) : Nat := (s.freelist.map List.length).sum

/-- The free lists are duplicate-free and pairwise disjoint. -/
def Kmem.Disjoint (s : Kmem) : Prop :=
  (∀ l ∈ s.freelist, l.Nodup) ∧ s.freelist.Pairwise List.Disjoint

/-- Two cores: the calling core 0 has no free page, core 1 has two. -/
def twoCores : Kmem := { freelist := [[], [2264924160, 2264928256]], fill := fun _ => 1 }

/-- Two cores: the calling core 0 has no free page, core 1 has the 64 pages
`0x87000000 + 4096 * i` for `i < 64`. -/
def sixtyFour : Kmem :=
  { freelist := [[], (List.range 64).map (fun i => 2264924160 + 4096 * i)], fill := fun _ => 1 }

/-- The memory layout of xv6 on RISC-V with a kernel image that ends at `0x80030000`. -/
def xv6Layout : Layout := { PGSIZE := 4096, endp := 2147680256, PHYSTOP := 2281701376 }

/-- The state in which `kfree` leaves the allocator; `s` when it panics. -/
def stateOfFree (s : Kmem) : Except String Kmem → Kmem
  | .ok t => t
  | .error _ => s

/-! ### The locking of the allocator

The calls `push_off()`, `cpuid()`, `acquire(&kmem[i].lock)`, `release(&kmem[i].lock)` and
`pop_off()` of kalloc.c, recorded in program order next to the data operations of `kalloc`
and `kfree`. -/

/-- A call of kalloc.c that concerns the locks or the interrupt state of the calling core. -/
inductive CpuOp where
  | push_off
  | cpuid
  | acquire (i : Nat)
  | release (i : Nat)
  | pop_off
  deriving DecidableEq, Repr

/-- One call, with the free-list locks that the caller holds and the number of its `push_off()`
calls not yet matched by a `pop_off()`, both right before the call. -/
structure CpuStep where
  op : CpuOp
  held : List Nat
  noff : Nat
  deriving DecidableEq, Repr

/-- The caller: the free-list locks it holds, its count of open `push_off()` calls (those of
kalloc.c itself; spinlock.c is not among the sources), and the calls made so far. -/
structure Cpu where
  held : List Nat
  noff : Nat
  log : List CpuStep
  deriving DecidableEq, Repr

/-- The caller on entry to `kalloc` or `kfree`. -/
def Cpu.entry : Cpu := { held := [], noff := 0, log := [] }

/-- Record one call and apply its effect on the held locks and the count. -/
def Cpu.step (c : Cpu) (op : CpuOp) : Cpu :=
  { held :=
      match op with
      | .acquire i => i :: c.held
      | .release i => c.held.erase i
      | _ => c.held
    noff :=
      match op with
      | .push_off => c.noff + 1
      | .pop_off => c.noff - 1
      | _ => c.noff
    log := c.log ++ [{ op := op, held := c.held, noff := c.noff }] }

/-- The loop `for (int i = 0; i < NCPU; i++)` of `kalloc` as in `stealFor`, with its
`acquire(&kmem[i].lock)` and `release(&kmem[i].lock)` recorded. -/
def stealForL (id : Nat) : Nat → Nat → List (List Nat) → List Nat → Int → Cpu →
    (List (List Nat) × List Nat × Int) × Cpu
  | 0, _, fl, steal_freelist, steal_pages, c => ((fl, steal_freelist, steal_pages), c)
  | n + 1, i, fl, steal_freelist, steal_pages, c =>
    if i = id then stealForL id n (i + 1) fl steal_freelist steal_pages c
    else
      let c1 := c.step (.acquire i)
      match stealWhile (fl.getD i []) steal_freelist steal_pages with
      | (rest, steal1, pages1) =>
        let c2 := c1.step (.release i)
        if pages1 = 0 then ((fl.set i rest, steal1, pages1), c2)
        else stealForL id n (i + 1) (fl.set i rest) steal1 pages1 c2

/-- The function `kalloc` as in `kalloc`, called on the core `id`, with its calls of
`push_off`, `cpuid`, `acquire`, `release` and `pop_off` recorded in program order. -/
def kallocL (s : Kmem) (id : Nat) : (Option Nat × Kmem) × Cpu :=
  let c1 := ((Cpu.entry.step .push_off).step .cpuid).step (.acquire id)
  match s.freelist.getD id [] with
  | r :: rest =>
    let c2 := (c1.step (.release id)).step .pop_off
    ((some r, memset { s with freelist := s.freelist.set id rest } r 5), c2)
  | [] =>
    let c2 := c1.step (.release id)
    match stealForL id s.NCPU 0 s.freelist [] 64 c2 with
    | ((fl, steal_freelist, _), c3) =>
      let c4 := ((c3.step (.acquire id)).step (.release id)).step .pop_off
      match steal_freelist with
      | [] => ((none, { s with freelist := fl.set id [] }), c4)
      | r :: rest => ((some r, memset { s with freelist := fl.set id rest } r 5), c4)

/-- The function `kfree` as in `kfree`, called on the core `id`, with its calls of `push_off`,
`cpuid`, `acquire`, `release` and `pop_off` recorded in program order. The panic comes
before the first of them. -/
def kfreeL (L : Layout) (s : Kmem) (id pa : Nat) : Except String Kmem × Cpu :=
  if pa % L.PGSIZE ≠ 0 ∨ pa < L.endp ∨ pa ≥ L.PHYSTOP then (.error "kfree", Cpu.entry)
  else
    let s1 := memset s pa 1
    let c1 := ((Cpu.entry.step .push_off).step .cpuid).step (.acquire id)
    let s2 := { s1 with freelist := s1.freelist.set id (pa :: s1.freelist.getD id []) }
    let c2 := (c1.step (.release id)).step .pop_off
    (.ok s2, c2)

/-- The discipline of one recorded call: a lock is acquired while no free-list lock is held,
a released lock is held, the core id is read and every lock is taken or released inside a
`push_off()`, and `pop_off()` matches an open `push_off()`. -/
structure CpuStep.Disciplined (e : CpuStep) : Prop where
  acquire_free : ∀ i, e.op = .acquire i → e.held = []
  release_held : ∀ i, e.op = .release i → i ∈ e.held
  cpuid_off : e.op = .cpuid → 0 < e.noff
  lock_off : ∀ i, e.op = .acquire i ∨ e.op = .release i → 0 < e.noff
  pop_open : e.op = .pop_off → 0 < e.noff

/-- Three cores: the calling core 1 has no free page, core 0 has one and core 2 has two. -/
def threeCores : Kmem :=
  { freelist := [[2264924160], [], [2264928256, 2264932352]], fill := fun _ => 1 }

/-- The caller after `push_off(); cpuid(); acquire(&kmem[id].lock); release(&kmem[id].lock)`. -/
def Cpu.opened (id : Nat) : Cpu :=
  (((Cpu.entry.step .push_off).step .cpuid).step (.acquire id)).step (.release id)

/-! ### The free lists in memory

In kalloc.c a free list is a chain through the pages themselves: `kmem[i].freelist` points to
the first page, the first word of a page on the list, `((struct run*)p)->next`, points to the
next page, and the null pointer ends the chain. `Mem` is the allocator in this form; the
lists of `Kmem` are what the chains of a `Mem` hold (`Mem.Lists`). -/

/-- The allocator with its free lists as they lie in memory. `head[i]` is the pointer
`kmem[i].freelist`, `next p` is the pointer `((struct run*)p)->next` read from the first
word of the page `p`, and 0 is the null pointer. `fill p` is the byte that the last
`memset(p, _, PGSIZE)` wrote to the page `p`. -/
structure Mem where
  head : List Nat
  next : Nat → Nat
  fill : Nat → Nat

/-- The number of cores, `NCPU` of param.h. -/
def Mem.NCPU (m : Mem) : Nat := m.head.length

/-- The pointer read from a word whose eight bytes are all `c`; `0x0101010101010101` for
`c = 1`. -/
def junk (c : Nat) : Nat := c * 72340172838076673

/-- The call `memset(pa, c, PGSIZE)` on the memory: every byte of the page is overwritten,
the first word with the link included. -/
def Mem.memset (m : Mem) (pa c : Nat) : Mem :=
  { m with
    next := fun p => if p = pa then junk c else m.next p
    fill := fun p => if p = pa then c else m.fill p }

/-- The function `kfree` on the memory, called on the core `id` (the value of `cpuid()`):
the check, `memset(pa, 1, PGSIZE)`, `r->next = kmem[id].freelist` and
`kmem[id].freelist = r`. -/
def Mem.kfree (L : Layout) (m : Mem) (id pa : Nat) : Except String Mem :=
  if pa % L.PGSIZE ≠ 0 ∨ pa < L.endp ∨ pa ≥ L.PHYSTOP then .error "kfree"
  else
    let m1 := m.memset pa 1
    let m2 : Mem := { m1 with next := fun p => if p = pa then m1.head.getD id 0 else m1.next p }
    .ok { m2 with head := m2.head.set id pa }

/-- The loop `while (r && --steal_pages)` of `kalloc` on the memory, with `r` the pointer
`kmem[i].freelist`. The body runs `kmem[i].freelist = r->next; r->next = steal_freelist;
steal_freelist = r; r = kmem[i].freelist`. The first argument bounds the number of
iterations; the loop makes fewer than `steal_pages` of them when `steal_pages ≥ 1`, and
`kalloc` enters it with `1 ≤ steal_pages ≤ 64` only. The result is the memory links, the
final `kmem[i].freelist`, `steal_freelist` and `steal_pages`. -/
def Mem.stealWhile : Nat → (Nat → Nat) → Nat → Nat → Int → (Nat → Nat) × Nat × Nat × Int
  | 0, next, r, steal_freelist, steal_pages => (next, r, steal_freelist, steal_pages)
  | n + 1, next, r, steal_freelist, steal_pages =>
    if r = 0 then (next, r, steal_freelist, steal_pages)
    else if steal_pages - 1 ≠ 0 then
      Mem.stealWhile n (fun p => if p = r then steal_freelist else next p) (next r) r
        (steal_pages - 1)
    else (next, r, steal_freelist, steal_pages - 1)

/-- The loop `for (int i = 0; i < NCPU; i++)` of `kalloc` on the memory, from the core `i` on,
with `n` cores still to visit. -/
def Mem.stealFor (id : Nat) : Nat → Nat → List Nat → (Nat → Nat) → Nat → Int →
    List Nat × (Nat → Nat) × Nat × Int
  | 0, _, head, next, steal_freelist, steal_pages => (head, next, steal_freelist, steal_pages)
  | n + 1, i, head, next, steal_freelist, steal_pages =>
    if i = id then Mem.stealFor id n (i + 1) head next steal_freelist steal_pages
    else
      match Mem.stealWhile steal_pages.toNat next (head.getD i 0) steal_freelist steal_pages with
      | (next1, r, steal1, pages1) =>
        if pages1 = 0 then (head.set i r, next1, steal1, pages1)
        else Mem.stealFor id n (i + 1) (head.set i r) next1 steal1 pages1

/-- The function `kalloc` on the memory, called on the core `id` (the value of `cpuid()`). The
result is the returned pointer, `none` for the null pointer, and the new memory. -/
def Mem.kalloc (m : Mem) (id : Nat) : Option Nat × Mem :=
  let r := m.head.getD id 0
  if r ≠ 0 then
    (some r, Mem.memset { m with head := m.head.set id (m.next r) } r 5)
  else
    match Mem.stealFor id m.NCPU 0 m.head m.next 0 64 with
    | (head, next, steal_freelist, _) =>
      if steal_freelist ≠ 0 then
        (some steal_freelist,
          Mem.memset { m with head := head.set id (next steal_freelist), next := next }
            steal_freelist 5)
      else (none, { m with head := head.set id steal_freelist, next := next })

/-- The chain of links that starts at the pointer `p` runs through exactly the pages `l`, in
this order, and ends with the null pointer. -/
def Chain (next : Nat → Nat) : Nat → List Nat → Prop
  | p, [] => p = 0
  | p, q :: l => p ≠ 0 ∧ p = q ∧ Chain next (next p) l

/-- Whether a chain runs through a given list of pages can be computed. -/
instance Chain.dec (next : Nat → Nat) : (p : Nat) → (l : List Nat) → Decidable (Chain next p l)
  | p, [] => if h : p = 0 then isTrue h else isFalse h
  | p, q :: l =>
    if h1 : p = 0 then isFalse (fun h => h.1 h1)
    else if h2 : p = q then
      match Chain.dec next (next p) l with
      | isTrue h3 => isTrue ⟨h1, h2, h3⟩
      | isFalse h3 => isFalse (fun h => h3 h.2.2)
    else isFalse (fun h => h2 h.2.1)

/-- The free lists of the memory `m` are the lists `fl`: there is one list for every core,
and the chain from `kmem[i].freelist` runs through the pages of the list `i`. -/
def Mem.Lists (m : Mem) (fl : List (List Nat)) : Prop :=
  m.head.length = fl.length ∧
    ∀ i, i < fl.length → Chain m.next (m.head.getD i 0) (fl.getD i [])

/-- Whether the free lists of a memory are given lists can be computed. -/
instance Mem.Lists.dec (m : Mem) (fl : List (List Nat)) : Decidable (m.Lists fl) := by
  unfold Mem.Lists
  infer_instance

/-- The memory after a `kfree`; `m` when it panics. -/
def Mem.afterFree (m : Mem) : Except String Mem → Mem
  | .ok t => t
  | .error _ => m

/-- The memory of `twoCores`: core 0 has no free page, the list of core 1 is the page
`0x87000000` followed by the page `0x87001000`. -/
def twoCoresMem : Mem :=
  { head := [0, 2264924160]
    next := fun p => if p = 2264924160 then 2264928256 else 0
    fill := fun _ => 1 }

/-- The state of the stealing loops of `kalloc` on the memory and on the lists: the chains of
the cores are the lists `fl`, the chain from `steal_freelist` is the list `lsf`, and no page
is on two of these lists. -/
structure Stealing (head : List Nat) (next : Nat → Nat) (steal_freelist : Nat)
    (fl : List (List Nat)) (lsf : List Nat) : Prop where
  length : head.length = fl.length
  chain : ∀ j, Chain next (head.getD j 0) (fl.getD j [])
  stolen : Chain next steal_freelist lsf
  apart : ∀ a b, a ≠ b → List.Disjoint (fl.getD a []) (fl.getD b [])
  fresh : ∀ a, List.Disjoint (fl.getD a []) lsf

end Kalloc

namespace Bio

/-! ## Reading and writing the arrays -/

@[simp] theorem setBuf_bucket_head (s : BCache) (b : Nat) (v : Buf) :
    (s.setBuf b v).bucket_head = s.bucket_head := rfl

@[simp] theorem setBuf_chain (s : BCache) (b : Nat) (v : Buf) (i : Nat) :
    (s.setBuf b v).chain i = s.chain i := rfl

@[simp] theorem setBuf_disk (s : BCache) (b : Nat) (v : Buf) : (s.setBuf b v).disk = s.disk := rfl

@[simp] theorem setBuf_io (s : BCache) (b : Nat) (v : Buf) : (s.setBuf b v).io = s.io := rfl

@[simp] theorem setBuf_NBUF (s : BCache) (b : Nat) (v : Buf) : (s.setBuf b v).NBUF = s.NBUF := by
  simp [BCache.setBuf, BCache.NBUF]

@[simp] theorem setBuf_BUCKETSZ (s : BCache) (b : Nat) (v : Buf) :
    (s.setBuf b v).BUCKETSZ = s.BUCKETSZ := rfl

theorem at_setBuf (s : BCache) (b c : Nat) (v : Buf) :
    (s.setBuf b v).at c = if c = b ∧ b < s.NBUF then v else s.at c := by
  unfold BCache.setBuf BCache.at BCache.NBUF
  simp only [List.getD_eq_getElem?_getD, List.getElem?_set]
  by_cases h : b = c
  · subst h
    by_cases hb : b < s.buf.length
    · simp [hb]
    · simp [hb, List.getElem?_eq_none (not_lt.mp hb)]
  · have h2 : ¬ c = b := fun e => h e.symm
    simp [h, h2]

@[simp] theorem at_setBuf_self (s : BCache) (b : Nat) (v : Buf) (h : b < s.NBUF) :
    (s.setBuf b v).at b = v := by
  simp [at_setBuf, h]

@[simp] theorem at_setBuf_ne (s : BCache) (b c : Nat) (v : Buf) (h : c ≠ b) :
    (s.setBuf b v).at c = s.at c := by
  simp [at_setBuf, h]

@[simp] theorem setChain_buf (s : BCache) (i : Nat) (l : List Nat) :
    (s.setChain i l).buf = s.buf := rfl

@[simp] theorem setChain_at (s : BCache) (i : Nat) (l : List Nat) (b : Nat) :
    (s.setChain i l).at b = s.at b := rfl

@[simp] theorem setChain_disk (s : BCache) (i : Nat) (l : List Nat) :
    (s.setChain i l).disk = s.disk := rfl

@[simp] theorem setChain_io (s : BCache) (i : Nat) (l : List Nat) :
    (s.setChain i l).io = s.io := rfl

@[simp] theorem setChain_NBUF (s : BCache) (i : Nat) (l : List Nat) :
    (s.setChain i l).NBUF = s.NBUF := rfl

@[simp] theorem setChain_BUCKETSZ (s : BCache) (i : Nat) (l : List Nat) :
    (s.setChain i l).BUCKETSZ = s.BUCKETSZ := by
  simp [BCache.setChain, BCache.BUCKETSZ]

theorem chain_setChain (s : BCache) (i j : Nat) (l : List Nat) :
    (s.setChain i l).chain j = if j = i ∧ i < s.BUCKETSZ then l else s.chain j := by
  unfold BCache.setChain BCache.chain BCache.BUCKETSZ
  simp only [List.getD_eq_getElem?_getD, List.getElem?_set]
  by_cases h : i = j
  · subst h
    by_cases hb : i < s.bucket_head.length
    · simp [hb]
    · simp [hb, List.getElem?_eq_none (not_lt.mp hb)]
  · have h2 : ¬ j = i := fun e => h e.symm
    simp [h, h2]

@[simp] theorem chain_setChain_self (s : BCache) (i : Nat) (l : List Nat) (h : i < s.BUCKETSZ) :
    (s.setChain i l).chain i = l := by
  simp [chain_setChain, h]

@[simp] theorem chain_setChain_ne (s : BCache) (i j : Nat) (l : List Nat) (h : j ≠ i) :
    (s.setChain i l).chain j = s.chain j := by
  simp [chain_setChain, h]

theorem chain_eq_nil_of_le (s : BCache) (i : Nat) (h : s.BUCKETSZ ≤ i) : s.chain i = [] := by
  unfold BCache.chain BCache.BUCKETSZ at *
  simp [List.getD_eq_getElem?_getD, List.getElem?_eq_none h]

theorem lt_BUCKETSZ_of_mem_chain {s : BCache} {i b : Nat} (h : b ∈ s.chain i) :
    i < s.BUCKETSZ := by
  by_contra hn
  rw [chain_eq_nil_of_le s i (not_lt.mp hn)] at h
  simp at h

theorem chain_mem_bucket_head {s : BCache} {i : Nat} (h : i < s.BUCKETSZ) :
    s.chain i ∈ s.bucket_head := by
  unfold BCache.chain BCache.BUCKETSZ at *
  rw [List.getD_eq_getElem _ _ h]
  exact List.getElem_mem h

theorem exists_chain_of_mem_bucket_head {s : BCache} {l : List Nat} (h : l ∈ s.bucket_head) :
    ∃ i, i < s.BUCKETSZ ∧ s.chain i = l := by
  obtain ⟨i, hi, rfl⟩ := List.getElem_of_mem h
  refine ⟨i, hi, ?_⟩
  unfold BCache.chain
  rw [List.getD_eq_getElem _ _ hi]

theorem BCACHE_HASH_lt {n : Nat} (h : 0 < n) (dev blk : Nat) : BCACHE_HASH n dev blk < n :=
  Nat.mod_lt _ h

end Bio

namespace Bio

/-! ## The lookup loop -/

theorem find?_erase_of_ne {p : Nat → Bool} {x b : Nat} :
    ∀ {l : List Nat}, l.find? p = some b → b ≠ x → (l.erase x).find? p = some b
  | [], h, _ => by simp at h
  | a :: l, h, hne => by
    by_cases hax : a = x
    · subst hax
      rw [List.erase_cons_head]
      rw [List.find?_cons] at h
      cases hp : p a with
      | true => rw [hp] at h; simp at h; exact absurd h.symm hne
      | false => rw [hp] at h; exact h
    · rw [List.erase_cons_tail (by simpa using hax)]
      rw [List.find?_cons] at h ⊢
      cases hp : p a with
      | true => rw [hp] at h; exact h
      | false => rw [hp] at h; exact find?_erase_of_ne h hne

theorem find?_eq_some_of_unique {p : Nat → Bool} {x : Nat} :
    ∀ {l : List Nat}, x ∈ l → p x = true → (∀ y ∈ l, p y = true → y = x) → l.find? p = some x
  | [], h, _, _ => by simp at h
  | a :: l, h, hp, hu => by
    rw [List.find?_cons]
    cases hpa : p a with
    | true =>
      have := hu a (List.mem_cons_self _ _) hpa
      simp [this]
    | false =>
      have hx : x ∈ l := by
        rcases List.mem_cons.mp h with e | e
        · subst e; rw [hp] at hpa; cases hpa
        · exact e
      exact find?_eq_some_of_unique hx hp (fun y hy => hu y (List.mem_cons_of_mem _ hy))

theorem find?_congr_except {p q : Nat → Bool} {x b : Nat} :
    ∀ {l : List Nat}, (∀ y ∈ l, y ≠ x → q y = p y) → q x = false →
      l.find? p = some b → b ≠ x → l.find? q = some b
  | [], _, _, h, _ => by simp at h
  | a :: l, hq, hx, h, hne => by
    rw [List.find?_cons] at h ⊢
    by_cases hax : a = x
    · subst hax
      rw [hx]
      cases hp : p a with
      | true => rw [hp] at h; simp at h; exact absurd h.symm hne
      | false =>
        rw [hp] at h
        exact find?_congr_except (fun y hy => hq y (List.mem_cons_of_mem _ hy)) hx h hne
    · rw [hq a (List.mem_cons_self _ _) hax]
      cases hp : p a with
      | true => rw [hp] at h; exact h
      | false =>
        rw [hp] at h
        exact find?_congr_except (fun y hy => hq y (List.mem_cons_of_mem _ hy)) hx h hne

theorem find?_congr_mem {p q : Nat → Bool} :
    ∀ {l : List Nat}, (∀ y ∈ l, q y = p y) → l.find? q = l.find? p
  | [], _ => rfl
  | a :: l, hq => by
    rw [List.find?_cons, List.find?_cons, hq a (List.mem_cons_self _ _)]
    rw [find?_congr_mem (fun y hy => hq y (List.mem_cons_of_mem _ hy))]

theorem findCached_some {s : BCache} {idx dev blockno b : Nat}
    (h : findCached s idx dev blockno = some b) :
    b ∈ s.chain idx ∧ (s.at b).dev = dev ∧ (s.at b).blockno = blockno := by
  unfold findCached at h
  refine ⟨List.mem_of_find?_eq_some h, ?_⟩
  simpa using List.find?_some h

theorem findCached_none {s : BCache} {idx dev blockno : Nat} :
    findCached s idx dev blockno = none ↔
      ∀ b ∈ s.chain idx, ¬ ((s.at b).dev = dev ∧ (s.at b).blockno = blockno) := by
  unfold findCached
  rw [List.find?_eq_none]
  simp

/-- The lookup depends on the chain and on the keys of the buffers on it only. -/
theorem findCached_congr {s t : BCache} {idx dev blockno : Nat}
    (hc : t.chain idx = s.chain idx)
    (hk : ∀ b ∈ s.chain idx, (t.at b).dev = (s.at b).dev ∧ (t.at b).blockno = (s.at b).blockno) :
    findCached t idx dev blockno = findCached s idx dev blockno := by
  unfold findCached
  rw [hc]
  apply find?_congr_mem
  intro y hy
  rw [(hk y hy).1, (hk y hy).2]

/-! ## The eviction scan -/

theorem scanBucket_cases (s : BCache) :
    ∀ (chain : List Nat) (lru : Option Nat) (found : Bool),
      ((scanBucket s chain lru found).1 = lru ∧ (scanBucket s chain lru found).2 = found) ∨
      ((scanBucket s chain lru found).2 = true ∧
        ∃ x ∈ chain, (scanBucket s chain lru found).1 = some x ∧ (s.at x).refcnt = 0)
  | [], lru, found => by simp [scanBucket]
  | b :: rest, lru, found => by
    unfold scanBucket
    split
    · rename_i hc
      rcases scanBucket_cases s rest (some b) true with h | ⟨h1, x, hx, h2, h3⟩
      · exact Or.inr ⟨h.2, b, List.mem_cons_self _ _, h.1, hc.1⟩
      · exact Or.inr ⟨h1, x, List.mem_cons_of_mem _ hx, h2, h3⟩
    · rcases scanBucket_cases s rest lru found with h | ⟨h1, x, hx, h2, h3⟩
      · exact Or.inl h
      · exact Or.inr ⟨h1, x, List.mem_cons_of_mem _ hx, h2, h3⟩

theorem scanBucket_min (s : BCache) :
    ∀ (chain : List Nat) (lru : Option Nat) (found : Bool) (x : Nat),
      (scanBucket s chain lru found).1 = some x →
      (∀ y, lru = some y → (s.at x).lastuse ≤ (s.at y).lastuse) ∧
      (∀ b ∈ chain, (s.at b).refcnt = 0 → (s.at x).lastuse ≤ (s.at b).lastuse)
  | [], lru, found, x, h => by
    simp only [scanBucket] at h
    subst h
    simp
  | b :: rest, lru, found, x, h => by
    unfold scanBucket at h
    split at h
    · rename_i hc
      obtain ⟨h1, h2⟩ := scanBucket_min s rest (some b) true x h
      have hb := h1 b rfl
      refine ⟨?_, ?_⟩
      · intro y hy
        subst hy
        have := hc.2
        simp only [improves, decide_eq_true_eq] at this
        omega
      · intro c hcmem hr
        rcases List.mem_cons.mp hcmem with e | e
        · subst e; exact hb
        · exact h2 c e hr
    · rename_i hc
      obtain ⟨h1, h2⟩ := scanBucket_min s rest lru found x h
      refine ⟨h1, ?_⟩
      intro c hcmem hr
      rcases List.mem_cons.mp hcmem with e | e
      · subst e
        cases lru with
        | none => exact absurd ⟨hr, rfl⟩ hc
        | some y =>
          have hy := h1 y rfl
          have : ¬ (s.at y).lastuse > (s.at c).lastuse := by
            intro hgt
            exact hc ⟨hr, by simp [improves, hgt]⟩
          omega
      · exact h2 c e hr

theorem scanBucket_none (s : BCache) :
    ∀ (chain : List Nat) (lru : Option Nat) (found : Bool),
      (scanBucket s chain lru found).1 = none →
      lru = none ∧ ∀ b ∈ chain, (s.at b).refcnt ≠ 0
  | [], lru, found, h => by
    simp only [scanBucket] at h
    simp [h]
  | b :: rest, lru, found, h => by
    unfold scanBucket at h
    split at h
    · have := (scanBucket_none s rest (some b) true h).1
      cases this
    · rename_i hc
      obtain ⟨h1, h2⟩ := scanBucket_none s rest lru found h
      subst h1
      refine ⟨rfl, ?_⟩
      intro c hcmem
      rcases List.mem_cons.mp hcmem with e | e
      · subst e
        intro hr
        exact hc ⟨hr, rfl⟩
      · exact h2 c e

theorem scanAll_cases (s : BCache) :
    ∀ (L : List (List Nat)) (i : Nat) (lru lru_idx : Option Nat),
      scanAll s L i lru lru_idx = (lru, lru_idx) ∨
      ∃ k x, k < L.length ∧ (scanAll s L i lru lru_idx).2 = some (i + k) ∧
        (scanAll s L i lru lru_idx).1 = some x ∧ x ∈ L.getD k [] ∧ (s.at x).refcnt = 0
  | [], i, lru, lru_idx => by simp [scanAll]
  | chain :: rest, i, lru, lru_idx => by
    unfold scanAll
    rcases hsb : scanBucket s chain lru false with ⟨lru1, found_new⟩
    have hcases := scanBucket_cases s chain lru false
    rw [hsb] at hcases
    simp only
    cases found_new with
    | true =>
      simp only [if_true]
      rcases hcases with ⟨_, h⟩ | ⟨_, x, hx, h2, h3⟩
      · cases h
      · simp only at h2
        subst h2
        rcases scanAll_cases s rest (i + 1) (some x) (some i) with h | ⟨k, y, hk, h4, h5, h6, h7⟩
        · right
          refine ⟨0, x, by simp, ?_, ?_, by simpa using hx, h3⟩
          · rw [h]; rfl
          · rw [h]
        · right
          refine ⟨k + 1, y, by simpa using hk, ?_, h5, by simpa using h6, h7⟩
          rw [h4]; congr 1; omega
    | false =>
      simp only [Bool.false_eq_true, if_false]
      rcases hcases with ⟨h, _⟩ | ⟨h, _⟩
      · simp only at h
        subst h
        rcases scanAll_cases s rest (i + 1) lru1 lru_idx with h | ⟨k, y, hk, h4, h5, h6, h7⟩
        · exact Or.inl h
        · right
          refine ⟨k + 1, y, by simpa using hk, ?_, h5, by simpa using h6, h7⟩
          rw [h4]; congr 1; omega
      · cases h

theorem scanAll_min (s : BCache) :
    ∀ (L : List (List Nat)) (i : Nat) (lru lru_idx : Option Nat) (x : Nat),
      (scanAll s L i lru lru_idx).1 = some x →
      (∀ y, lru = some y → (s.at x).lastuse ≤ (s.at y).lastuse) ∧
      (∀ l ∈ L, ∀ b ∈ l, (s.at b).refcnt = 0 → (s.at x).lastuse ≤ (s.at b).lastuse)
  | [], i, lru, lru_idx, x, h => by
    simp only [scanAll] at h
    subst h
    simp
  | chain :: rest, i, lru, lru_idx, x, h => by
    unfold scanAll at h
    rcases hsb : scanBucket s chain lru false with ⟨lru1, found_new⟩
    rw [hsb] at h
    simp only at h
    have key : ∀ j, (scanAll s rest (i + 1) lru1 j).1 = some x →
        (∀ y, lru = some y → (s.at x).lastuse ≤ (s.at y).lastuse) ∧
        (∀ l ∈ chain :: rest, ∀ b ∈ l, (s.at b).refcnt = 0 →
          (s.at x).lastuse ≤ (s.at b).lastuse) := by
      intro j hj
      obtain ⟨h1, h2⟩ := scanAll_min s rest (i + 1) lru1 j x hj
      cases lru1 with
      | none =>
        have hn := scanBucket_none s chain lru false (by rw [hsb])
        refine ⟨?_, ?_⟩
        · intro y hy; rw [hn.1] at hy; cases hy
        · intro l hl b hb hr
          rcases List.mem_cons.mp hl with e | e
          · subst e; exact absurd hr (hn.2 b hb)
          · exact h2 l e b hb hr
      | some z =>
        have hz := h1 z rfl
        obtain ⟨h3, h4⟩ := scanBucket_min s chain lru false z (by rw [hsb])
        refine ⟨?_, ?_⟩
        · intro y hy
          exact le_trans hz (h3 y hy)
        · intro l hl b hb hr
          rcases List.mem_cons.mp hl with e | e
          · subst e; exact le_trans hz (h4 b hb hr)
          · exact h2 l e b hb hr
    split at h
    · exact key _ h
    · exact key _ h

theorem scanAll_none (s : BCache) :
    ∀ (L : List (List Nat)) (i : Nat) (lru lru_idx : Option Nat),
      (scanAll s L i lru lru_idx).1 = none →
      lru = none ∧ ∀ l ∈ L, ∀ b ∈ l, (s.at b).refcnt ≠ 0
  | [], i, lru, lru_idx, h => by
    simp only [scanAll] at h
    simp [h]
  | chain :: rest, i, lru, lru_idx, h => by
    unfold scanAll at h
    rcases hsb : scanBucket s chain lru false with ⟨lru1, found_new⟩
    rw [hsb] at h
    simp only at h
    have key : ∀ j, (scanAll s rest (i + 1) lru1 j).1 = none →
        lru = none ∧ ∀ l ∈ chain :: rest, ∀ b ∈ l, (s.at b).refcnt ≠ 0 := by
      intro j hj
      obtain ⟨h1, h2⟩ := scanAll_none s rest (i + 1) lru1 j hj
      subst h1
      have hn := scanBucket_none s chain lru false (by rw [hsb])
      refine ⟨hn.1, ?_⟩
      intro l hl b hb
      rcases List.mem_cons.mp hl with e | e
      · subst e; exact hn.2 b hb
      · exact h2 l e b hb
    split at h
    · exact key _ h
    · exact key _ h

end Bio

namespace Bio

/-! ## Preservation of the invariant -/

theorem home_congr {s t : BCache} {b : Nat} (hz : t.BUCKETSZ = s.BUCKETSZ)
    (hd : (t.at b).dev = (s.at b).dev) (hb : (t.at b).blockno = (s.at b).blockno) :
    t.home b = s.home b := by
  unfold BCache.home
  rw [hz, hd, hb]

/-- A step that leaves the chains and the keys alone keeps the invariant, provided that
`valid` stays 0 or 1 and that every buffer that is referenced or valid afterwards is
the first one with its key on its chain. -/
theorem Inv.frame {s t : BCache} (h : Inv s)
    (hh : t.bucket_head = s.bucket_head) (hn : t.NBUF = s.NBUF)
    (hk : ∀ b, (t.at b).dev = (s.at b).dev ∧ (t.at b).blockno = (s.at b).blockno)
    (hv : ∀ b, b < s.NBUF → (t.at b).valid ≤ 1)
    (hf : ∀ b, b < s.NBUF → (t.at b).refcnt ≠ 0 ∨ (t.at b).valid ≠ 0 →
      findCached s (s.home b) (s.at b).dev (s.at b).blockno = some b) : Inv t := by
  have hz : t.BUCKETSZ = s.BUCKETSZ := by unfold BCache.BUCKETSZ; rw [hh]
  have hc : ∀ i, t.chain i = s.chain i := by intro i; unfold BCache.chain; rw [hh]
  have hhome : ∀ b, t.home b = s.home b := fun b => home_congr hz (hk b).1 (hk b).2
  refine ⟨?_, ?_, ?_, ?_, ?_, ?_⟩
  · rw [hz]; exact h.buckets
  · intro b hb
    rw [hn] at hb
    rw [hhome, hc]
    exact h.cover b hb
  · intro i b hb
    rw [hc] at hb
    rw [hn, hhome]
    exact h.hashed i b hb
  · intro i
    rw [hc]
    exact h.nodup i
  · intro b hb hr
    rw [hn] at hb
    rw [hhome, (hk b).1, (hk b).2]
    rw [findCached_congr (hc _) (fun c _ => hk c)]
    exact hf b hb hr
  · intro b hb
    rw [hn] at hb
    exact hv b hb

/-- Under the invariant a lookup that misses in the bucket of the key means that no buffer
of the cache has the key. -/
theorem Inv.no_key_of_miss {s : BCache} (h : Inv s) {dev blockno : Nat}
    (hm : findCached s (BCACHE_HASH s.BUCKETSZ dev blockno) dev blockno = none)
    {b : Nat} (hb : b < s.NBUF) : ¬ ((s.at b).dev = dev ∧ (s.at b).blockno = blockno) := by
  intro hk
  have hc := h.cover b hb
  have : s.home b = BCACHE_HASH s.BUCKETSZ dev blockno := by
    unfold BCache.home; rw [hk.1, hk.2]
  rw [this] at hc
  exact findCached_none.mp hm b hc hk

theorem bgetHit_at (s : BCache) (pid b c : Nat) :
    (bgetHit s pid b).at c =
      if c = b ∧ b < s.NBUF then
        { s.at b with refcnt := (s.at b).refcnt + 1, lock := some pid }
      else s.at c := by
  unfold bgetHit acquiresleep
  by_cases hc : c = b ∧ b < s.NBUF
  · obtain ⟨rfl, hb⟩ := hc
    simp [hb]
  · rw [if_neg hc]
    by_cases hcb : c = b
    · subst hcb
      have hb : ¬ c < s.NBUF := fun hb => hc ⟨rfl, hb⟩
      simp [at_setBuf, hb]
    · simp [hcb]

@[simp] theorem bgetHit_bucket_head (s : BCache) (pid b : Nat) :
    (bgetHit s pid b).bucket_head = s.bucket_head := rfl

@[simp] theorem bgetHit_NBUF (s : BCache) (pid b : Nat) : (bgetHit s pid b).NBUF = s.NBUF := by
  simp [bgetHit, acquiresleep]

@[simp] theorem bgetHit_disk (s : BCache) (pid b : Nat) : (bgetHit s pid b).disk = s.disk := rfl

@[simp] theorem bgetHit_io (s : BCache) (pid b : Nat) : (bgetHit s pid b).io = s.io := rfl

theorem Inv.bgetHit {s : BCache} (h : Inv s) {idx dev blockno b : Nat} (pid : Nat)
    (hf : findCached s idx dev blockno = some b) : Inv (Bio.bgetHit s pid b) := by
  obtain ⟨hmem, hd, hbk⟩ := findCached_some hf
  have hb := (h.hashed idx b hmem).1
  apply h.frame (bgetHit_bucket_head s pid b) (bgetHit_NBUF s pid b)
  · intro c
    rw [bgetHit_at]
    split <;> rename_i hc
    · rw [hc.1]; exact ⟨rfl, rfl⟩
    · exact ⟨rfl, rfl⟩
  · intro c hc
    rw [bgetHit_at]
    split <;> rename_i hcb
    · rw [← hcb.1]; exact h.valid01 c hc
    · exact h.valid01 c hc
  · intro c hc
    rw [bgetHit_at]
    split <;> rename_i hcb
    · intro _
      rw [hcb.1]
      have : s.home b = idx := (h.hashed idx b hmem).2
      rw [this, hd, hbk]
      exact hf
    · exact h.first c hc

end Bio

namespace Bio

theorem recycle_at (s : BCache) (pid dev blockno idx lru : Nat) (lru_idx : Option Nat)
    (c : Nat) :
    (recycle s pid dev blockno idx lru lru_idx).at c =
      if c = lru ∧ lru < s.NBUF then
        { s.at lru with dev := dev, blockno := blockno, valid := 0, refcnt := 1, lock := some pid }
      else s.at c := by
  unfold recycle acquiresleep
  by_cases hc : c = lru ∧ lru < s.NBUF
  · obtain ⟨rfl, hb⟩ := hc
    split <;> simp [hb]
  · rw [if_neg hc]
    by_cases hcb : c = lru
    · subst hcb
      have hb : ¬ c < s.NBUF := fun hb => hc ⟨rfl, hb⟩
      split <;> simp [at_setBuf, hb]
    · split <;> simp [hcb]

@[simp] theorem recycle_NBUF (s : BCache) (pid dev blockno idx lru : Nat) (lru_idx : Option Nat) :
    (recycle s pid dev blockno idx lru lru_idx).NBUF = s.NBUF := by
  unfold recycle acquiresleep
  split <;> simp

@[simp] theorem recycle_BUCKETSZ (s : BCache) (pid dev blockno idx lru : Nat)
    (lru_idx : Option Nat) :
    (recycle s pid dev blockno idx lru lru_idx).BUCKETSZ = s.BUCKETSZ := by
  unfold recycle acquiresleep
  split <;> simp

@[simp] theorem recycle_disk (s : BCache) (pid dev blockno idx lru : Nat) (lru_idx : Option Nat) :
    (recycle s pid dev blockno idx lru lru_idx).disk = s.disk := by
  unfold recycle acquiresleep
  split <;> simp

@[simp] theorem recycle_io (s : BCache) (pid dev blockno idx lru : Nat) (lru_idx : Option Nat) :
    (recycle s pid dev blockno idx lru lru_idx).io = s.io := by
  unfold recycle acquiresleep
  split <;> simp

theorem recycle_chain_same (s : BCache) (pid dev blockno idx lru : Nat) (j : Nat) :
    (recycle s pid dev blockno idx lru (some idx)).chain j = s.chain j := by
  unfold recycle acquiresleep
  simp

theorem recycle_chain_move (s : BCache) (pid dev blockno idx lru li : Nat) (hne : li ≠ idx)
    (hli : li < s.BUCKETSZ) (hidx : idx < s.BUCKETSZ) (j : Nat) :
    (recycle s pid dev blockno idx lru (some li)).chain j =
      if j = idx then lru :: s.chain idx
      else if j = li then (s.chain li).erase lru else s.chain j := by
  unfold recycle acquiresleep
  have h1 : (some li : Option Nat) ≠ some idx := by simpa using hne
  have h2 : idx ≠ li := fun e => hne e.symm
  simp only [h1, ne_eq, not_false_eq_true, if_true, Option.getD_some, setBuf_chain]
  by_cases hj : j = idx
  · subst hj
    simp [h2, hidx]
  · by_cases hj2 : j = li
    · subst hj2
      simp [hj, hli]
    · simp [hj, hj2]

/-- What the scan returns when it finds a victim: a buffer with `refcnt = 0` on the chain of
the bucket `lru_idx`. -/
theorem scanAll_some {s : BCache} {lru : Nat} {lru_idx : Option Nat}
    (h : scanAll s s.bucket_head 0 none none = (some lru, lru_idx)) :
    ∃ li, lru_idx = some li ∧ lru ∈ s.chain li ∧ (s.at lru).refcnt = 0 := by
  rcases scanAll_cases s s.bucket_head 0 none none with h1 | ⟨k, x, _, h2, h3, h4, h5⟩
  · rw [h] at h1; cases h1
  · rw [h] at h2 h3
    simp only [Option.some.injEq] at h3
    subst h3
    refine ⟨k, ?_, h4, h5⟩
    simpa using h2

/-- The chains after recycling `lru` from the bucket `li` into the bucket `idx`. -/
theorem recycle_mem {s : BCache} (h : Inv s) {pid dev blockno idx lru li : Nat}
    (hidx : idx < s.BUCKETSZ) (hl : lru ∈ s.chain li) (j y : Nat) :
    y ∈ (recycle s pid dev blockno idx lru (some li)).chain j ↔
      (y = lru ∧ j = idx) ∨ (y ≠ lru ∧ y ∈ s.chain j) := by
  have hli := lt_BUCKETSZ_of_mem_chain hl
  have hhome := (h.hashed li lru hl).2
  by_cases hne : li = idx
  · subst hne
    rw [recycle_chain_same]
    constructor
    · intro hy
      by_cases e : y = lru
      · subst e
        exact Or.inl ⟨rfl, ((h.hashed j y hy).2.symm.trans hhome)⟩
      · exact Or.inr ⟨e, hy⟩
    · rintro (⟨rfl, rfl⟩ | ⟨_, hy⟩)
      · exact hl
      · exact hy
  · rw [recycle_chain_move s pid dev blockno idx lru li hne hli hidx]
    by_cases hj : j = idx
    · subst hj
      simp only [if_true, List.mem_cons]
      constructor
      · rintro (e | hy)
        · exact Or.inl ⟨e, trivial⟩
        · refine Or.inr ⟨?_, hy⟩
          rintro rfl
          exact hne (hhome.symm.trans (h.hashed j y hy).2)
      · rintro (⟨e, _⟩ | ⟨_, hy⟩)
        · exact Or.inl e
        · exact Or.inr hy
    · rw [if_neg hj]
      by_cases hj2 : j = li
      · subst hj2
        rw [if_pos rfl, (h.nodup j).mem_erase_iff]
        constructor
        · rintro ⟨e, hy⟩; exact Or.inr ⟨e, hy⟩
        · rintro (⟨_, e⟩ | ⟨e, hy⟩)
          · exact absurd e hj
          · exact ⟨e, hy⟩
      · rw [if_neg hj2]
        constructor
        · intro hy
          refine Or.inr ⟨?_, hy⟩
          rintro rfl
          exact hj2 ((h.hashed j y hy).2.symm.trans hhome)
        · rintro (⟨_, e⟩ | ⟨_, hy⟩)
          · exact absurd e hj
          · exact hy

theorem recycle_nodup {s : BCache} (h : Inv s) {pid dev blockno idx lru li : Nat}
    (hidx : idx < s.BUCKETSZ) (hl : lru ∈ s.chain li) (j : Nat) :
    ((recycle s pid dev blockno idx lru (some li)).chain j).Nodup := by
  have hli := lt_BUCKETSZ_of_mem_chain hl
  have hhome := (h.hashed li lru hl).2
  by_cases hne : li = idx
  · subst hne
    rw [recycle_chain_same]
    exact h.nodup j
  · rw [recycle_chain_move s pid dev blockno idx lru li hne hli hidx]
    split
    · rw [List.nodup_cons]
      refine ⟨?_, h.nodup idx⟩
      intro hy
      exact hne (hhome.symm.trans (h.hashed idx lru hy).2)
    · split
      · exact (h.nodup li).erase lru
      · exact h.nodup j

/-- A lookup that found `b` still finds `b` after another buffer `lru` has been recycled
to a key that the lookup does not ask for. -/
theorem recycle_find {s : BCache} {pid dev blockno idx lru li : Nat}
    (hidx : idx < s.BUCKETSZ) (hl : lru ∈ s.chain li) {p q : Nat → Bool} {j b : Nat}
    (hq : ∀ y, y ≠ lru → q y = p y) (hx : q lru = false)
    (hf : (s.chain j).find? p = some b) (hb : b ≠ lru) :
    ((recycle s pid dev blockno idx lru (some li)).chain j).find? q = some b := by
  have hli := lt_BUCKETSZ_of_mem_chain hl
  by_cases hne : li = idx
  · subst hne
    rw [recycle_chain_same]
    exact find?_congr_except (fun y _ hy => hq y hy) hx hf hb
  · rw [recycle_chain_move s pid dev blockno idx lru li hne hli hidx]
    split
    · rename_i hj
      subst hj
      rw [List.find?_cons, hx]
      exact find?_congr_except (fun y _ hy => hq y hy) hx hf hb
    · split
      · rename_i hj
        subst hj
        exact find?_congr_except (fun y _ hy => hq y hy) hx (find?_erase_of_ne hf hb) hb
      · exact find?_congr_except (fun y _ hy => hq y hy) hx hf hb

theorem Inv.recycle {s : BCache} (h : Inv s) {pid dev blockno lru : Nat} {lru_idx : Option Nat}
    (hm : findCached s (BCACHE_HASH s.BUCKETSZ dev blockno) dev blockno = none)
    (hs : scanAll s s.bucket_head 0 none none = (some lru, lru_idx)) :
    Inv (Bio.recycle s pid dev blockno (BCACHE_HASH s.BUCKETSZ dev blockno) lru lru_idx) := by
  obtain ⟨li, rfl, hl, hr⟩ := scanAll_some hs
  have hidx : BCACHE_HASH s.BUCKETSZ dev blockno < s.BUCKETSZ := BCACHE_HASH_lt h.buckets _ _
  have hlru : lru < s.NBUF := (h.hashed li lru hl).1
  set idx := BCACHE_HASH s.BUCKETSZ dev blockno with hidxdef
  set t := Bio.recycle s pid dev blockno idx lru (some li) with ht
  have hat_ne : ∀ c, c ≠ lru → t.at c = s.at c := by
    intro c hc; rw [ht, recycle_at]; simp [hc]
  have hat_self : t.at lru =
      { s.at lru with dev := dev, blockno := blockno, valid := 0, refcnt := 1,
                      lock := some pid } := by
    rw [ht, recycle_at]; simp [hlru]
  have hhome_ne : ∀ c, c ≠ lru → t.home c = s.home c := by
    intro c hc
    exact home_congr (recycle_BUCKETSZ ..) (by rw [hat_ne c hc]) (by rw [hat_ne c hc])
  have hhome_self : t.home lru = idx := by
    unfold BCache.home
    rw [hat_self, ht, recycle_BUCKETSZ]
  have hmem := fun j y => @recycle_mem s h pid dev blockno idx lru li hidx hl j y
  have hnokey : ∀ c, c < s.NBUF → ¬ ((s.at c).dev = dev ∧ (s.at c).blockno = blockno) :=
    fun c hc => h.no_key_of_miss hm hc
  refine ⟨?_, ?_, ?_, ?_, ?_, ?_⟩
  · rw [ht, recycle_BUCKETSZ]; exact h.buckets
  · intro b hb
    rw [ht, recycle_NBUF] at hb
    by_cases e : b = lru
    · subst e
      rw [hhome_self]
      exact (hmem idx b).mpr (Or.inl ⟨rfl, rfl⟩)
    · rw [hhome_ne b e]
      exact (hmem _ b).mpr (Or.inr ⟨e, h.cover b hb⟩)
  · intro i b hb
    rw [ht, recycle_NBUF]
    rcases (hmem i b).mp hb with ⟨rfl, rfl⟩ | ⟨e, hy⟩
    · exact ⟨hlru, hhome_self⟩
    · rw [hhome_ne b e]
      exact h.hashed i b hy
  · intro i
    exact recycle_nodup h hidx hl i
  · intro b hb hrv
    rw [ht, recycle_NBUF] at hb
    unfold findCached
    by_cases e : b = lru
    · subst e
      rw [hhome_self, hat_self]
      apply find?_eq_some_of_unique ((hmem idx b).mpr (Or.inl ⟨rfl, rfl⟩))
      · simp [hat_self]
      · intro y hy hpy
        by_contra hne
        rcases (hmem idx y).mp hy with ⟨e, _⟩ | ⟨_, hy2⟩
        · exact hne e
        · rw [hat_ne y hne] at hpy
          exact hnokey y (h.hashed _ y hy2).1 (by simpa using hpy)
    · rw [hhome_ne b e, hat_ne b e]
      rw [hat_ne b e] at hrv
      have hfs := h.first b hb hrv
      unfold findCached at hfs
      refine recycle_find hidx hl ?_ ?_ hfs e
      · intro y hy
        rw [hat_ne y hy]
      · rw [hat_self]
        have := hnokey b hb
        simp only [decide_eq_false_iff_not]
        intro hk
        exact this ⟨hk.1.symm, hk.2.symm⟩
  · intro b hb
    rw [ht, recycle_NBUF] at hb
    by_cases e : b = lru
    · subst e; rw [hat_self]; simp
    · rw [hat_ne b e]; exact h.valid01 b hb

end Bio

namespace Bio

/-- The three ways through `bget`: a hit, a miss that recycles a buffer, a miss that finds
no buffer to recycle. -/
theorem bget_cases (s : BCache) (pid dev blockno : Nat) :
    (∃ b, findCached s (BCACHE_HASH s.BUCKETSZ dev blockno) dev blockno = some b ∧
      bget s pid dev blockno = .ok (b, bgetHit s pid b)) ∨
    (findCached s (BCACHE_HASH s.BUCKETSZ dev blockno) dev blockno = none ∧
      ∃ lru lru_idx, scanAll s s.bucket_head 0 none none = (some lru, lru_idx) ∧
        bget s pid dev blockno =
          .ok (lru, recycle s pid dev blockno (BCACHE_HASH s.BUCKETSZ dev blockno) lru lru_idx)) ∨
    (findCached s (BCACHE_HASH s.BUCKETSZ dev blockno) dev blockno = none ∧
      (scanAll s s.bucket_head 0 none none).1 = none ∧
      bget s pid dev blockno = .error "bget: no buffers") := by
  cases hf : findCached s (BCACHE_HASH s.BUCKETSZ dev blockno) dev blockno with
  | some b => exact Or.inl ⟨b, rfl, by unfold bget; simp only [hf]⟩
  | none =>
    right
    rcases hs : scanAll s s.bucket_head 0 none none with ⟨lru, lru_idx⟩
    cases lru with
    | none => exact Or.inr ⟨rfl, rfl, by unfold bget; simp only [hf, hs]⟩
    | some lru => exact Or.inl ⟨rfl, lru, lru_idx, rfl, by unfold bget; simp only [hf, hs]⟩

/-- What `bget` returns: a buffer of the array that carries the key, is referenced and is
locked by the caller; the invariant is kept. -/
theorem bget_spec {s s1 : BCache} (h : Inv s) {pid dev blockno b : Nat}
    (hg : bget s pid dev blockno = .ok (b, s1)) :
    Inv s1 ∧ s1.NBUF = s.NBUF ∧ b < s.NBUF ∧ (s1.at b).dev = dev ∧ (s1.at b).blockno = blockno ∧
      1 ≤ (s1.at b).refcnt ∧ (s1.at b).lock = some pid ∧ s1.disk = s.disk ∧ s1.io = s.io := by
  rcases bget_cases s pid dev blockno with ⟨c, hf, he⟩ | ⟨hm, lru, lru_idx, hs, he⟩ | ⟨_, _, he⟩
  · rw [he] at hg
    simp only [Except.ok.injEq, Prod.mk.injEq] at hg
    obtain ⟨rfl, rfl⟩ := hg
    obtain ⟨hmem, hd, hbk⟩ := findCached_some hf
    have hb := (h.hashed _ c hmem).1
    refine ⟨h.bgetHit pid hf, bgetHit_NBUF .., hb, ?_, ?_, ?_, ?_, rfl, rfl⟩ <;>
      rw [bgetHit_at] <;> simp [hb, hd, hbk]
  · rw [he] at hg
    simp only [Except.ok.injEq, Prod.mk.injEq] at hg
    obtain ⟨rfl, rfl⟩ := hg
    obtain ⟨li, _, hl, _⟩ := scanAll_some hs
    have hb := (h.hashed _ lru hl).1
    refine ⟨h.recycle hm hs, recycle_NBUF .., hb, ?_, ?_, ?_, ?_, recycle_disk .., recycle_io ..⟩ <;>
      rw [recycle_at] <;> simp [hb]
  · rw [he] at hg
    cases hg

theorem bread_eq (s : BCache) (pid dev blockno : Nat) :
    bread s pid dev blockno =
      match bget s pid dev blockno with
      | .error e => .error e
      | .ok (b, s1) => .ok (b, breadTail s1 b) := by
  unfold bread breadTail
  cases bget s pid dev blockno with
  | error e => rfl
  | ok r =>
    obtain ⟨b, s1⟩ := r
    simp only
    split <;> rfl

theorem bread_ok {s s2 : BCache} {pid dev blockno b : Nat}
    (hr : bread s pid dev blockno = .ok (b, s2)) :
    ∃ s1, bget s pid dev blockno = .ok (b, s1) ∧ s2 = breadTail s1 b := by
  rw [bread_eq] at hr
  cases hg : bget s pid dev blockno with
  | error e => rw [hg] at hr; cases hr
  | ok r =>
    obtain ⟨c, s1⟩ := r
    rw [hg] at hr
    simp only [Except.ok.injEq, Prod.mk.injEq] at hr
    obtain ⟨rfl, rfl⟩ := hr
    exact ⟨s1, rfl, rfl⟩

theorem virtio_read_at (s : BCache) (b c : Nat) :
    (virtio_disk_rw s b false).at c =
      (s.setBuf b { s.at b with data := s.disk (s.at b).dev (s.at b).blockno }).at c := rfl

theorem virtio_read_NBUF (s : BCache) (b : Nat) : (virtio_disk_rw s b false).NBUF = s.NBUF := by
  simp [virtio_disk_rw, BCache.NBUF, BCache.setBuf]

theorem breadTail_at (s1 : BCache) (b c : Nat) :
    (breadTail s1 b).at c =
      if c = b ∧ b < s1.NBUF ∧ (s1.at b).valid = 0 then
        { s1.at b with data := s1.disk (s1.at b).dev (s1.at b).blockno, valid := 1 }
      else s1.at c := by
  unfold breadTail
  by_cases hv : (s1.at b).valid = 0
  · rw [if_pos hv, at_setBuf, virtio_read_NBUF, virtio_read_at, virtio_read_at, at_setBuf,
      at_setBuf]
    by_cases hc : c = b <;> by_cases hb : b < s1.NBUF <;> simp [hc, hb, hv]
  · simp [hv]

@[simp] theorem breadTail_bucket_head (s1 : BCache) (b : Nat) :
    (breadTail s1 b).bucket_head = s1.bucket_head := by
  unfold breadTail virtio_disk_rw
  split <;> simp

@[simp] theorem breadTail_NBUF (s1 : BCache) (b : Nat) : (breadTail s1 b).NBUF = s1.NBUF := by
  unfold breadTail virtio_disk_rw
  split
  · simp [BCache.NBUF, BCache.setBuf]
  · rfl

@[simp] theorem breadTail_disk (s1 : BCache) (b : Nat) : (breadTail s1 b).disk = s1.disk := by
  unfold breadTail virtio_disk_rw
  split <;> simp

theorem breadTail_io (s1 : BCache) (b : Nat) :
    (breadTail s1 b).io =
      if (s1.at b).valid = 0 then (false, (s1.at b).dev, (s1.at b).blockno) :: s1.io
      else s1.io := by
  unfold breadTail virtio_disk_rw
  split <;> simp

theorem Inv.breadTail {s1 : BCache} (h : Inv s1) {b : Nat} (hr : (s1.at b).refcnt ≠ 0) :
    Inv (Bio.breadTail s1 b) := by
  apply h.frame (breadTail_bucket_head s1 b) (breadTail_NBUF s1 b)
  · intro c
    rw [breadTail_at]
    split <;> rename_i hc
    · rw [hc.1]; exact ⟨rfl, rfl⟩
    · exact ⟨rfl, rfl⟩
  · intro c hc
    rw [breadTail_at]
    split
    · simp
    · exact h.valid01 c hc
  · intro c hc
    rw [breadTail_at]
    split <;> rename_i hcb
    · intro _
      rw [hcb.1]
      exact h.first b hcb.2.1 (Or.inl hr)
    · exact h.first c hc

theorem Inv.bread {s s2 : BCache} (h : Inv s) {pid dev blockno b : Nat}
    (hr : bread s pid dev blockno = .ok (b, s2)) : Inv s2 := by
  obtain ⟨s1, hg, rfl⟩ := bread_ok hr
  obtain ⟨h1, _, _, _, _, hpos, _⟩ := bget_spec h hg
  exact h1.breadTail (by omega)

end Bio

namespace Bio

theorem at_eq_default_of_le (s : BCache) (b : Nat) (h : s.NBUF ≤ b) : s.at b = default := by
  unfold BCache.at BCache.NBUF at *
  simp [List.getD_eq_getElem?_getD, List.getElem?_eq_none h]

theorem lt_NBUF_of_refcnt_pos {s : BCache} {b : Nat} (h : 0 < (s.at b).refcnt) : b < s.NBUF := by
  by_contra hn
  rw [at_eq_default_of_le s b (not_lt.mp hn)] at h
  exact absurd h (by decide)

theorem lt_NBUF_of_holdingsleep {s : BCache} {pid b : Nat} (h : holdingsleep s pid b = true) :
    b < s.NBUF := by
  by_contra hn
  unfold holdingsleep at h
  rw [at_eq_default_of_le s b (not_lt.mp hn)] at h
  simp [default, Buf.zero] at h

/-- What a successful `brelse` does to the state. -/
theorem brelse_ok {s t : BCache} {pid b ticks : Nat} (h : brelse s pid b ticks = .ok t) :
    holdingsleep s pid b = true ∧ b < s.NBUF ∧ t.bucket_head = s.bucket_head ∧
      t.NBUF = s.NBUF ∧ t.disk = s.disk ∧ t.io = s.io ∧
      t.at b = { s.at b with
                 lock := none, refcnt := (s.at b).refcnt - 1,
                 lastuse := if (s.at b).refcnt - 1 = 0 then ticks else (s.at b).lastuse } ∧
      ∀ c, c ≠ b → t.at c = s.at c := by
  unfold brelse at h
  cases hh : holdingsleep s pid b with
  | false => rw [hh] at h; cases h
  | true =>
    have hb := lt_NBUF_of_holdingsleep hh
    rw [hh] at h
    simp only [Bool.not_true, Bool.false_eq_true, if_false, releasesleep] at h
    have e1 : ((s.setBuf b { s.at b with lock := none }).setBuf b
        { (s.setBuf b { s.at b with lock := none }).at b with
          refcnt := ((s.setBuf b { s.at b with lock := none }).at b).refcnt - 1 }).at b =
        { s.at b with lock := none, refcnt := (s.at b).refcnt - 1 } := by
      simp [hb]
    rw [e1] at h
    refine ⟨rfl, hb, ?_⟩
    by_cases hz : (s.at b).refcnt - 1 = 0
    · simp only [hz, if_true, Except.ok.injEq] at h
      subst h
      refine ⟨rfl, by simp, rfl, rfl, by simp [hb, hz], ?_⟩
      intro c hc
      simp [hc]
    · simp only [hz, if_false, Except.ok.injEq] at h
      subst h
      refine ⟨rfl, by simp, rfl, rfl, by simp [hb, hz], ?_⟩
      intro c hc
      simp [hc]

theorem Inv.brelse {s t : BCache} (h : Inv s) {pid b ticks : Nat}
    (hr : brelse s pid b ticks = .ok t) : Inv t := by
  obtain ⟨_, hb, hbh, hn, _, _, hat, hne⟩ := brelse_ok hr
  have hcases : ∀ c, c = b ∨ t.at c = s.at c := fun c => by
    by_cases e : c = b
    · exact Or.inl e
    · exact Or.inr (hne c e)
  apply h.frame hbh hn
  · intro c
    rcases hcases c with rfl | e
    · rw [hat]; exact ⟨rfl, rfl⟩
    · rw [e]; exact ⟨rfl, rfl⟩
  · intro c hc
    rcases hcases c with rfl | e
    · rw [hat]; exact h.valid01 c hc
    · rw [e]; exact h.valid01 c hc
  · intro c hc
    rcases hcases c with rfl | e
    · rw [hat]
      intro hrv
      apply h.first c hc
      rcases hrv with hrv | hrv
      · left
        simp only at hrv
        omega
      · exact Or.inr hrv
    · rw [e]; exact h.first c hc

theorem Inv.bpin {s : BCache} (h : Inv s) {b : Nat} (hp : 0 < (s.at b).refcnt) :
    Inv (Bio.bpin s b) := by
  have hb := lt_NBUF_of_refcnt_pos hp
  unfold Bio.bpin
  apply h.frame (setBuf_bucket_head ..) (setBuf_NBUF ..)
  · intro c
    rw [at_setBuf]
    split <;> rename_i hc
    · rw [hc.1]; exact ⟨rfl, rfl⟩
    · exact ⟨rfl, rfl⟩
  · intro c hc
    rw [at_setBuf]
    split <;> rename_i hcb
    · rw [← hcb.1]; exact h.valid01 c hc
    · exact h.valid01 c hc
  · intro c hc
    rw [at_setBuf]
    split <;> rename_i hcb
    · intro _
      rw [hcb.1]
      exact h.first b hb (Or.inl (by omega))
    · exact h.first c hc

theorem Inv.bunpin {s : BCache} (h : Inv s) (b : Nat) : Inv (Bio.bunpin s b) := by
  unfold Bio.bunpin
  apply h.frame (setBuf_bucket_head ..) (setBuf_NBUF ..)
  · intro c
    rw [at_setBuf]
    split <;> rename_i hc
    · rw [hc.1]; exact ⟨rfl, rfl⟩
    · exact ⟨rfl, rfl⟩
  · intro c hc
    rw [at_setBuf]
    split <;> rename_i hcb
    · rw [← hcb.1]; exact h.valid01 c hc
    · exact h.valid01 c hc
  · intro c hc
    rw [at_setBuf]
    split <;> rename_i hcb
    · intro hrv
      rw [hcb.1]
      apply h.first b hcb.2
      rcases hrv with hrv | hrv
      · left
        simp only at hrv
        omega
      · exact Or.inr hrv
    · exact h.first c hc

theorem Inv.setData {s : BCache} (h : Inv s) (b : Nat) (d : List Nat) :
    Inv (Bio.setData s b d) := by
  unfold Bio.setData
  apply h.frame (setBuf_bucket_head ..) (setBuf_NBUF ..)
  · intro c
    rw [at_setBuf]
    split <;> rename_i hc
    · rw [hc.1]; exact ⟨rfl, rfl⟩
    · exact ⟨rfl, rfl⟩
  · intro c hc
    rw [at_setBuf]
    split <;> rename_i hcb
    · rw [← hcb.1]; exact h.valid01 c hc
    · exact h.valid01 c hc
  · intro c hc
    rw [at_setBuf]
    split <;> rename_i hcb
    · intro hrv
      rw [hcb.1]
      exact h.first b hcb.2 hrv
    · exact h.first c hc

theorem bwrite_ok {s t : BCache} {pid b : Nat} (h : bwrite s pid b = .ok t) :
    holdingsleep s pid b = true ∧ t = virtio_disk_rw s b true := by
  unfold bwrite at h
  cases hh : holdingsleep s pid b with
  | false => rw [hh] at h; cases h
  | true =>
    rw [hh] at h
    simp only [Bool.not_true, Bool.false_eq_true, if_false, Except.ok.injEq] at h
    exact ⟨rfl, h.symm⟩

theorem virtio_write_buf (s : BCache) (b : Nat) : (virtio_disk_rw s b true).buf = s.buf := rfl

theorem virtio_write_at (s : BCache) (b c : Nat) : (virtio_disk_rw s b true).at c = s.at c := rfl

theorem virtio_write_bucket_head (s : BCache) (b : Nat) :
    (virtio_disk_rw s b true).bucket_head = s.bucket_head := rfl

theorem Inv.bwrite {s t : BCache} (h : Inv s) {pid b : Nat} (hw : bwrite s pid b = .ok t) :
    Inv t := by
  obtain ⟨_, rfl⟩ := bwrite_ok hw
  exact h.frame rfl rfl (fun _ => ⟨rfl, rfl⟩) (fun c hc => h.valid01 c hc)
    (fun c hc hrv => h.first c hc hrv)

end Bio

namespace Bio

/-! ## The initial state -/

theorem set_replicate_self {α : Type} (n m : Nat) (z : α) :
    (List.replicate n z).set m z = List.replicate n z := by
  apply List.ext_getElem?
  intro i
  rw [List.getElem?_set]
  by_cases h : m = i
  · subst h
    by_cases hm : m < n
    · simp [hm]
    · simp [hm]
      omega
  · simp [h]

theorem binit_loop (n k B : Nat) (d : Nat → Nat → List Nat) (hk : 0 < k) :
    ∀ m, m ≤ n →
      (List.range m).foldl binitStep
        { buf := List.replicate n (Buf.zero B), bucket_head := List.replicate k [],
          disk := d, io := [] } =
        { buf := List.replicate n (Buf.zero B),
          bucket_head := (List.replicate k []).set 0 (List.range m).reverse,
          disk := d, io := [] }
  | 0, _ => by
    simp only [List.range_zero, List.foldl_nil, List.reverse_nil]
    rw [set_replicate_self]
  | m + 1, hm => by
    rw [List.range_succ, List.foldl_append, binit_loop n k B d hk m (by omega)]
    simp only [List.foldl_cons, List.foldl_nil, binitStep, BCache.setBuf, BCache.setChain,
      BCache.at, BCache.chain]
    have h1 : (List.replicate n (Buf.zero B)).getD m default = Buf.zero B := by
      rw [List.getD_eq_getElem _ _ (by simpa using hm)]
      simp
    have h2 : ((List.replicate k ([] : List Nat)).set 0 (List.range m).reverse).getD 0 [] =
        (List.range m).reverse := by
      rw [List.getD_eq_getElem _ _ (by simpa using hk)]
      simp
    rw [h1, h2, List.set_set, List.reverse_append]
    have h3 : ({ Buf.zero B with lastuse := 0, refcnt := 0, lock := none } : Buf) = Buf.zero B :=
      rfl
    rw [h3, set_replicate_self]
    rfl

/-- The state after `binit`: every buffer is zero and on the chain of bucket 0, the last
buffer of the array first; the other chains are empty. -/
theorem binit_bss (n k B : Nat) (d : Nat → Nat → List Nat) (hk : 0 < k) :
    binit (bss n k B d) =
      { buf := List.replicate n (Buf.zero B),
        bucket_head := (List.replicate k []).set 0 (List.range n).reverse,
        disk := d, io := [] } := by
  unfold binit bss BCache.NBUF
  simp only [List.length_replicate, List.map_replicate]
  exact binit_loop n k B d hk n (le_refl n)

theorem binit_at (n k B : Nat) (d : Nat → Nat → List Nat) (hk : 0 < k) (b : Nat) (hb : b < n) :
    (binit (bss n k B d)).at b = Buf.zero B := by
  rw [binit_bss n k B d hk]
  unfold BCache.at
  simp only
  rw [List.getD_eq_getElem _ _ (by simpa using hb)]
  simp

theorem binit_chain (n k B : Nat) (d : Nat → Nat → List Nat) (hk : 0 < k) (i : Nat) :
    (binit (bss n k B d)).chain i = if i = 0 then (List.range n).reverse else [] := by
  rw [binit_bss n k B d hk]
  unfold BCache.chain
  simp only [List.getD_eq_getElem?_getD, List.getElem?_set]
  by_cases hi : i = 0
  · subst hi
    simp [hk]
  · have : ¬ 0 = i := fun e => hi e.symm
    simp only [this, hi, if_false]
    by_cases hik : i < k
    · simp [List.getElem?_replicate, hik]
    · simp [List.getElem?_replicate, hik]

theorem binit_NBUF (n k B : Nat) (d : Nat → Nat → List Nat) (hk : 0 < k) :
    (binit (bss n k B d)).NBUF = n := by
  rw [binit_bss n k B d hk]
  simp [BCache.NBUF]

theorem binit_BUCKETSZ (n k B : Nat) (d : Nat → Nat → List Nat) (hk : 0 < k) :
    (binit (bss n k B d)).BUCKETSZ = k := by
  rw [binit_bss n k B d hk]
  simp [BCache.BUCKETSZ]

theorem Inv.binit (n k B : Nat) (d : Nat → Nat → List Nat) (hk : 0 < k) :
    Inv (Bio.binit (bss n k B d)) := by
  have hhome : ∀ b, b < n → (Bio.binit (bss n k B d)).home b = 0 := by
    intro b hb
    unfold BCache.home
    rw [binit_at n k B d hk b hb, binit_BUCKETSZ n k B d hk]
    simp [Buf.zero, BCACHE_HASH]
  refine ⟨?_, ?_, ?_, ?_, ?_, ?_⟩
  · rw [binit_BUCKETSZ n k B d hk]; exact hk
  · intro b hb
    rw [binit_NBUF n k B d hk] at hb
    rw [hhome b hb, binit_chain n k B d hk]
    simpa using hb
  · intro i b hb
    rw [binit_chain n k B d hk] at hb
    rw [binit_NBUF n k B d hk]
    by_cases hi : i = 0
    · subst hi
      have hb2 : b < n := by simpa using hb
      exact ⟨hb2, hhome b hb2⟩
    · simp [hi] at hb
  · intro i
    rw [binit_chain n k B d hk]
    split
    · exact List.nodup_reverse.mpr (List.nodup_range n)
    · exact List.nodup_nil
  · intro b hb hrv
    rw [binit_NBUF n k B d hk] at hb
    rw [binit_at n k B d hk b hb] at hrv
    simp [Buf.zero] at hrv
  · intro b hb
    rw [binit_NBUF n k B d hk] at hb
    rw [binit_at n k B d hk b hb]
    simp [Buf.zero]

/-- Every reachable state satisfies the structural invariant. -/
theorem Reachable.inv {s : BCache} (h : Reachable s) : Inv s := by
  induction h with
  | init n k B d hk => exact Inv.binit n k B d hk
  | bget _ hg ih => exact (bget_spec ih hg).1
  | bread _ hr ih => exact ih.bread hr
  | bwrite _ hw ih => exact ih.bwrite hw
  | brelse _ _ hr ih => exact ih.brelse hr
  | bpin _ hp ih => exact ih.bpin hp
  | bunpin _ _ ih => exact ih.bunpin _
  | setData _ _ ih => exact ih.setData _ _

end Bio

namespace Bio

/-! ## C1: `bread` -/

/-- C1. In every reachable state, when `bget(dev, blockno)` does not panic but returns the
buffer `b` in the state `s1`, `bread(dev, blockno)` returns the same buffer `b` with
`b.dev = dev`, `b.blockno = blockno`, `b.valid = 1` and `b.refcnt ≥ 1`. The block device is
read exactly when `bget` returned `b` with `valid = 0`: then one read of `(dev, blockno)` is
logged and the content of `b` is the content of the device for that block; otherwise nothing
is logged and the state is the one `bget` left. In particular, when a buffer `c` of the
cache carries the key and is valid, `bread` returns `c` without a device read, with the
reference count of `c` one higher, its content unchanged and every other buffer untouched. -/
theorem bread_returns_valid_buffer {s s1 : BCache} (hs : Reachable s) {pid dev blockno b : Nat}
    (hg : bget s pid dev blockno = .ok (b, s1)) :
    ∃ s2, bread s pid dev blockno = .ok (b, s2) ∧
      b < s.NBUF ∧ (s2.at b).dev = dev ∧ (s2.at b).blockno = blockno ∧
      (s2.at b).valid = 1 ∧ 1 ≤ (s2.at b).refcnt ∧ s2.disk = s.disk ∧
      ((s1.at b).valid = 0 →
        s2.io = (false, dev, blockno) :: s.io ∧ (s2.at b).data = s.disk dev blockno) ∧
      ((s1.at b).valid ≠ 0 → s2.io = s.io ∧ s2 = s1) ∧
      (∀ c, c < s.NBUF → (s.at c).dev = dev → (s.at c).blockno = blockno →
        (s.at c).valid = 1 →
          b = c ∧ s2.io = s.io ∧ (s2.at c).refcnt = (s.at c).refcnt + 1 ∧
          (s2.at c).data = (s.at c).data ∧ (s2.at c).valid = 1 ∧
          s2.bucket_head = s.bucket_head ∧ ∀ c2, c2 ≠ c → s2.at c2 = s.at c2) := by
  have h := hs.inv
  obtain ⟨h1, hn, hb, hd, hbk, hpos, _, hdisk, hio⟩ := bget_spec h hg
  have hb1 : b < s1.NBUF := by rw [hn]; exact hb
  have hv := h1.valid01 b hb1
  refine ⟨breadTail s1 b, ?_, hb, ?_, ?_, ?_, ?_, ?_, ?_, ?_, ?_⟩
  · rw [bread_eq, hg]
  · rw [breadTail_at]; split <;> simp [hd]
  · rw [breadTail_at]; split <;> simp [hbk]
  · rw [breadTail_at]
    split
    · rfl
    · rename_i hc
      have : (s1.at b).valid ≠ 0 := fun e => hc ⟨rfl, hb1, e⟩
      omega
  · rw [breadTail_at]; split <;> simpa using hpos
  · rw [breadTail_disk, hdisk]
  · intro hv0
    rw [breadTail_io, if_pos hv0, breadTail_at, if_pos ⟨rfl, hb1, hv0⟩, hd, hbk, hio, hdisk]
    exact ⟨rfl, rfl⟩
  · intro hv0
    rw [breadTail_io, if_neg hv0, hio]
    refine ⟨rfl, ?_⟩
    unfold breadTail
    rw [if_neg hv0]
  · intro c hc hcd hcb hcv
    have hfirst := h.first c hc (Or.inr (by omega))
    have hhome : s.home c = BCACHE_HASH s.BUCKETSZ dev blockno := by
      unfold BCache.home; rw [hcd, hcb]
    rw [hhome, hcd, hcb] at hfirst
    rcases bget_cases s pid dev blockno with ⟨c2, hf, he⟩ | ⟨hm, _⟩ | ⟨hm, _⟩
    · rw [hfirst] at hf
      simp only [Option.some.injEq] at hf
      subst hf
      rw [he] at hg
      simp only [Except.ok.injEq, Prod.mk.injEq] at hg
      obtain ⟨rfl, rfl⟩ := hg
      have hvc : ((bgetHit s pid c).at c).valid ≠ 0 := by
        rw [bgetHit_at]; simp [hc, hcv]
      have e : breadTail (bgetHit s pid c) c = bgetHit s pid c := by
        unfold breadTail; rw [if_neg hvc]
      rw [e]
      refine ⟨rfl, rfl, ?_, ?_, ?_, rfl, ?_⟩
      · rw [bgetHit_at]; simp [hc]
      · rw [bgetHit_at]; simp [hc]
      · rw [bgetHit_at]; simp [hc, hcv]
      · intro c2 hc2
        rw [bgetHit_at]; simp [hc2]
    · rw [hm] at hfirst; cases hfirst
    · rw [hm] at hfirst; cases hfirst

/-- Witness for C1: the first `bread(0, 1)` on a fresh cache of 4 buffers and 2 buckets. -/
theorem bread_returns_valid_buffer_witness :
    Reachable fresh42 ∧
    bget fresh42 7 0 1 = .ok (3, stateOf fresh42 (bget fresh42 7 0 1)) ∧
    ∃ s2, bread fresh42 7 0 1 = .ok (3, s2) ∧ (s2.at 3).valid = 1 ∧ 1 ≤ (s2.at 3).refcnt :=
  ⟨Reachable.init 4 2 0 _ (by decide), rfl,
    (bread_returns_valid_buffer (Reachable.init 4 2 0 _ (by decide))
      (show bget fresh42 7 0 1 = .ok (3, stateOf fresh42 (bget fresh42 7 0 1)) from rfl)).imp
      (fun _ h => ⟨h.1, h.2.2.2.2.1, h.2.2.2.2.2.1⟩)⟩

end Bio

namespace Bio

/-! ## C2: referenced buffers have distinct keys -/

/-- C2. In every state reachable from `binit` by calls of `bget`/`bread`, `brelse`, `bpin` and
`bunpin` (the last three on buffers with `refcnt > 0`), and also by `bwrite` and by writes
to the content of a locked buffer, two buffers with `refcnt > 0` and the same
`(dev, blockno)` are the same buffer. -/
theorem referenced_keys_unique {s : BCache} (hs : Reachable s) {b1 b2 : Nat}
    (h1 : 0 < (s.at b1).refcnt) (h2 : 0 < (s.at b2).refcnt)
    (hd : (s.at b1).dev = (s.at b2).dev) (hb : (s.at b1).blockno = (s.at b2).blockno) :
    b1 = b2 := by
  have h := hs.inv
  have f1 := h.first b1 (lt_NBUF_of_refcnt_pos h1) (Or.inl (by omega))
  have f2 := h.first b2 (lt_NBUF_of_refcnt_pos h2) (Or.inl (by omega))
  have hhome : s.home b1 = s.home b2 := by
    unfold BCache.home; rw [hd, hb]
  rw [hhome, hd, hb, f2] at f1
  exact (Option.some.inj f1).symm

/-- Witness for C2: after `bread(0, 1)` on a fresh cache the buffer 3 is referenced. -/
theorem referenced_keys_unique_witness :
    0 < ((stateOf fresh42 (bread fresh42 7 0 1)).at 3).refcnt ∧ (3 : Nat) = 3 :=
  ⟨by decide,
    @referenced_keys_unique _
      (Reachable.bread (Reachable.init 4 2 0 _ (by decide))
        (show bread fresh42 7 0 1 = .ok (3, stateOf fresh42 (bread fresh42 7 0 1)) from rfl))
      3 3 (by decide) (by decide) rfl rfl⟩

/-! ## C3: the buffer that a miss recycles -/

/-- C3. When `bget(dev, blockno)` misses (no buffer of the bucket of the key carries the
key) and returns the buffer `b`, then `b` had `refcnt = 0` before the call, its `lastuse`
was at most the `lastuse` of every buffer with `refcnt = 0` on the chain of any bucket,
and every buffer that had `refcnt > 0` is unchanged (`dev`, `blockno`, `valid`, `refcnt`,
content and all other fields). In a reachable state the chains hold all `NBUF` buffers, so
the `lastuse` of `b` was minimal among all buffers of the cache with `refcnt = 0`. -/
theorem bget_miss_recycles_lru {s s1 : BCache} {pid dev blockno b : Nat}
    (hm : findCached s (BCACHE_HASH s.BUCKETSZ dev blockno) dev blockno = none)
    (hg : bget s pid dev blockno = .ok (b, s1)) :
    (s.at b).refcnt = 0 ∧
    (∀ l ∈ s.bucket_head, ∀ c ∈ l, (s.at c).refcnt = 0 →
      (s.at b).lastuse ≤ (s.at c).lastuse) ∧
    (∀ c, 0 < (s.at c).refcnt → s1.at c = s.at c) ∧
    (Reachable s →
      ∀ c, c < s.NBUF → (s.at c).refcnt = 0 → (s.at b).lastuse ≤ (s.at c).lastuse) := by
  rcases bget_cases s pid dev blockno with ⟨c, hf, _⟩ | ⟨_, lru, lru_idx, hsc, he⟩ | ⟨_, _, he⟩
  · rw [hm] at hf; cases hf
  · rw [he] at hg
    simp only [Except.ok.injEq, Prod.mk.injEq] at hg
    obtain ⟨rfl, rfl⟩ := hg
    obtain ⟨li, _, hl, hr⟩ := scanAll_some hsc
    have hmin := (scanAll_min s s.bucket_head 0 none none lru (by rw [hsc])).2
    refine ⟨hr, hmin, ?_, ?_⟩
    · intro c hc
      rw [recycle_at]
      have : c ≠ lru := by
        rintro rfl
        omega
      simp [this]
    · intro hs c hc hrc
      have h := hs.inv
      exact hmin (s.chain (s.home c)) (chain_mem_bucket_head (lt_BUCKETSZ_of_mem_chain
        (h.cover c hc))) c (h.cover c hc) hrc
  · rw [he] at hg; cases hg

/-- Witness for C3: the first `bget(0, 1)` on a fresh cache misses and recycles buffer 3. -/
theorem bget_miss_recycles_lru_witness :
    findCached fresh42 (BCACHE_HASH fresh42.BUCKETSZ 0 1) 0 1 = none ∧
    (fresh42.at 3).refcnt = 0 ∧
    (∀ c, c < fresh42.NBUF → (fresh42.at c).refcnt = 0 →
      (fresh42.at 3).lastuse ≤ (fresh42.at c).lastuse) :=
  ⟨by decide,
    (bget_miss_recycles_lru (by decide)
      (show bget fresh42 7 0 1 = .ok (3, stateOf fresh42 (bget fresh42 7 0 1)) from rfl)).1,
    (bget_miss_recycles_lru (by decide)
      (show bget fresh42 7 0 1 = .ok (3, stateOf fresh42 (bget fresh42 7 0 1)) from rfl)).2.2.2
      (Reachable.init 4 2 0 _ (by decide))⟩

/-! ## C6: when `bget` panics -/

/-- C6. In every reachable state, `bget(dev, blockno)` panics, with the message
"bget: no buffers", if and only if no buffer of the bucket `BCACHE_HASH(dev, blockno)` has
the key `(dev, blockno)` and every one of the `NBUF` buffers has `refcnt ≠ 0`; in every
other case it returns a buffer. -/
theorem bget_panics_iff {s : BCache} (hs : Reachable s) (pid dev blockno : Nat) :
    (bget s pid dev blockno = .error "bget: no buffers" ↔
      (∀ b ∈ s.chain (BCACHE_HASH s.BUCKETSZ dev blockno),
        ¬ ((s.at b).dev = dev ∧ (s.at b).blockno = blockno)) ∧
      (∀ b, b < s.NBUF → (s.at b).refcnt ≠ 0)) ∧
    (bget s pid dev blockno ≠ .error "bget: no buffers" →
      ∃ b s1, bget s pid dev blockno = .ok (b, s1)) := by
  have h := hs.inv
  rcases bget_cases s pid dev blockno with ⟨c, hf, he⟩ | ⟨hm, lru, lru_idx, hsc, he⟩ |
    ⟨hm, hsc, he⟩
  · refine ⟨⟨fun e => (by rw [he] at e; cases e), ?_⟩, fun _ => ⟨_, _, he⟩⟩
    rintro ⟨hno, _⟩
    obtain ⟨hmem, hk⟩ := findCached_some hf
    exact absurd hk (hno c hmem)
  · refine ⟨⟨fun e => (by rw [he] at e; cases e), ?_⟩, fun _ => ⟨_, _, he⟩⟩
    rintro ⟨_, hall⟩
    obtain ⟨li, _, hl, hr⟩ := scanAll_some hsc
    exact absurd hr (hall lru (h.hashed li lru hl).1)
  · refine ⟨⟨fun _ => ⟨findCached_none.mp hm, ?_⟩, fun _ => he⟩, fun hne => absurd he hne⟩
    intro b hb
    have hnone := (scanAll_none s s.bucket_head 0 none none hsc).2
    exact hnone (s.chain (s.home b)) (chain_mem_bucket_head (lt_BUCKETSZ_of_mem_chain
      (h.cover b hb))) b (h.cover b hb)

/-- Witness for C6: a fresh cache has unreferenced buffers, so `bget(0, 1)` returns. -/
theorem bget_panics_iff_witness :
    ∃ b s1, bget fresh42 7 0 1 = .ok (b, s1) :=
  (bget_panics_iff (Reachable.init 4 2 0 _ (by decide)) 7 0 1).2
    (fun e => by
      have h : bget fresh42 7 0 1 = .ok (3, stateOf fresh42 (bget fresh42 7 0 1)) := rfl
      cases h.symm.trans e)

end Bio

namespace Bio

/-! ## C4: the round trip through the device -/

theorem bget_at_ne {s s1 : BCache} {pid dev blockno b : Nat}
    (hg : bget s pid dev blockno = .ok (b, s1)) {c : Nat} (hc : c ≠ b) : s1.at c = s.at c := by
  rcases bget_cases s pid dev blockno with ⟨c2, _, he⟩ | ⟨_, lru, lru_idx, _, he⟩ | ⟨_, _, he⟩
  · rw [he] at hg
    simp only [Except.ok.injEq, Prod.mk.injEq] at hg
    obtain ⟨rfl, rfl⟩ := hg
    rw [bgetHit_at]; simp [hc]
  · rw [he] at hg
    simp only [Except.ok.injEq, Prod.mk.injEq] at hg
    obtain ⟨rfl, rfl⟩ := hg
    rw [recycle_at]; simp [hc]
  · rw [he] at hg; cases hg

/-- A `bread` of another block keeps the stored content of the block. -/
theorem Stored.after_bread_other {s s2 : BCache} {dev blockno : Nat} {D : List Nat}
    (h : Inv s) (hst : Stored s dev blockno D) {pid d n b : Nat}
    (hne : ¬ (d = dev ∧ n = blockno)) (hr : bread s pid d n = .ok (b, s2)) :
    Stored s2 dev blockno D := by
  obtain ⟨s1, hg, rfl⟩ := bread_ok hr
  obtain ⟨_, hn, hb, hd, hbk, _, _, hdisk, _⟩ := bget_spec h hg
  refine ⟨by rw [breadTail_disk, hdisk]; exact hst.1, ?_⟩
  intro c hc hcd hcb hcv
  rw [breadTail_NBUF, hn] at hc
  by_cases e : c = b
  · subst e
    exfalso
    apply hne
    have hkey : ((breadTail s1 c).at c).dev = d ∧ ((breadTail s1 c).at c).blockno = n := by
      rw [breadTail_at]; split <;> simp [hd, hbk]
    exact ⟨hkey.1.symm.trans hcd, hkey.2.symm.trans hcb⟩
  · have e1 : (breadTail s1 b).at c = s.at c := by
      rw [breadTail_at, if_neg (fun x => e x.1), bget_at_ne hg e]
    rw [e1] at hcd hcb hcv ⊢
    exact hst.2 c hc hcd hcb hcv

/-- A `brelse` keeps the stored content of the block. -/
theorem Stored.after_brelse {s t : BCache} {dev blockno : Nat} {D : List Nat}
    (hst : Stored s dev blockno D) {pid b ticks : Nat} (hr : brelse s pid b ticks = .ok t) :
    Stored t dev blockno D := by
  obtain ⟨_, _, _, hn, hdisk, _, hat, hne⟩ := brelse_ok hr
  refine ⟨by rw [hdisk]; exact hst.1, ?_⟩
  intro c hc hcd hcb hcv
  rw [hn] at hc
  by_cases e : c = b
  · subst e
    rw [hat] at hcd hcb hcv ⊢
    exact hst.2 c hc hcd hcb hcv
  · rw [hne c e] at hcd hcb hcv ⊢
    exact hst.2 c hc hcd hcb hcv

/-- A `bread` of the block returns its stored content. -/
theorem Stored.read_back {s s2 : BCache} {dev blockno : Nat} {D : List Nat}
    (h : Inv s) (hst : Stored s dev blockno D) {pid b : Nat}
    (hr : bread s pid dev blockno = .ok (b, s2)) : (s2.at b).data = D := by
  obtain ⟨s1, hg, rfl⟩ := bread_ok hr
  obtain ⟨_, hn, hb, hd, hbk, _, _, hdisk, _⟩ := bget_spec h hg
  have hb1 : b < s1.NBUF := by rw [hn]; exact hb
  rw [breadTail_at]
  by_cases hv : (s1.at b).valid = 0
  · rw [if_pos ⟨rfl, hb1, hv⟩]
    simp only
    rw [hd, hbk, hdisk]
    exact hst.1
  · rw [if_neg (fun x => hv x.2.2)]
    rcases bget_cases s pid dev blockno with ⟨c, hf, he⟩ | ⟨_, lru, lru_idx, _, he⟩ | ⟨_, _, he⟩
    · rw [he] at hg
      simp only [Except.ok.injEq, Prod.mk.injEq] at hg
      obtain ⟨rfl, rfl⟩ := hg
      obtain ⟨_, hcd, hcb⟩ := findCached_some hf
      rw [bgetHit_at] at hv ⊢
      simp only [hb, and_self, if_true] at hv ⊢
      exact hst.2 c hb hcd hcb hv
    · rw [he] at hg
      simp only [Except.ok.injEq, Prod.mk.injEq] at hg
      obtain ⟨rfl, rfl⟩ := hg
      rw [recycle_at] at hv
      simp [hb] at hv
    · rw [he] at hg; cases hg

/-- A sequence of calls that does not read the block keeps the invariant and the stored
content of the block. -/
theorem Stored.after_run {dev blockno : Nat} {D : List Nat} :
    ∀ (calls : List Call) {s t : BCache}, Inv s → Stored s dev blockno D →
      (∀ c ∈ calls, ¬ c.readsBlock dev blockno) → run s calls = .ok t →
      Inv t ∧ Stored t dev blockno D
  | [], s, t, h, hst, _, hrun => by
    simp only [Bio.run, Except.ok.injEq] at hrun
    subst hrun
    exact ⟨h, hst⟩
  | c :: cs, s, t, h, hst, hno, hrun => by
    unfold Bio.run at hrun
    cases hc : c.apply s with
    | error e => rw [hc] at hrun; cases hrun
    | ok u =>
      rw [hc] at hrun
      simp only at hrun
      have hno2 : ∀ c2 ∈ cs, ¬ c2.readsBlock dev blockno :=
        fun c2 h2 => hno c2 (List.mem_cons_of_mem _ h2)
      have hc1 := hno c (List.mem_cons_self _ _)
      cases c with
      | bread pid d n =>
        simp only [Call.apply] at hc
        cases hr : bread s pid d n with
        | error e => rw [hr] at hc; cases hc
        | ok r =>
          obtain ⟨b, s2⟩ := r
          rw [hr] at hc
          simp only [Except.ok.injEq] at hc
          subst hc
          exact Stored.after_run cs (h.bread hr) (hst.after_bread_other h hc1 hr) hno2 hrun
      | brelse pid b ticks =>
        simp only [Call.apply] at hc
        exact Stored.after_run cs (h.brelse hc) (hst.after_brelse hc) hno2 hrun

/-- C4. In a reachable state, let a caller obtain the block `(dev, blockno)` with `bread`, set
its content to `D`, call `bwrite` and then `brelse`: both calls succeed, and after any
sequence of `bread` and `brelse` calls that does not read the block (it may evict the
buffer), the next `bread(dev, blockno)` returns a buffer whose content is `D`. -/
theorem write_read_round_trip {s0 s1 : BCache} (hs : Reachable s0) {pid dev blockno b : Nat}
    (hr : bread s0 pid dev blockno = .ok (b, s1)) (D : List Nat) (ticks : Nat) :
    ∃ s3 s4, bwrite (setData s1 b D) pid b = .ok s3 ∧ brelse s3 pid b ticks = .ok s4 ∧
      ∀ calls : List Call, (∀ c ∈ calls, ¬ c.readsBlock dev blockno) →
        ∀ s5, run s4 calls = .ok s5 →
          ∀ pid2 b2 s6, bread s5 pid2 dev blockno = .ok (b2, s6) → (s6.at b2).data = D := by
  have h0 := hs.inv
  have h1 : Inv s1 := h0.bread hr
  obtain ⟨sg, hg, hs1⟩ := bread_ok hr
  obtain ⟨hg1, hn, hb, hd, hbk, hpos, hlock, _, _⟩ := bget_spec h0 hg
  have hbg : b < sg.NBUF := by rw [hn]; exact hb
  have hb1 : b < s1.NBUF := by rw [hs1, breadTail_NBUF]; exact hbg
  have hat1 : (s1.at b).dev = dev ∧ (s1.at b).blockno = blockno ∧ (s1.at b).lock = some pid ∧
      1 ≤ (s1.at b).refcnt := by
    rw [hs1, breadTail_at]
    split <;> simp [hd, hbk, hlock, hpos]
  -- the state after the content has been set and written
  have h2 : Inv (setData s1 b D) := h1.setData b D
  have hat2 : (setData s1 b D).at b = { s1.at b with data := D } := by
    unfold setData; simp [hb1]
  have hat2ne : ∀ c, c ≠ b → (setData s1 b D).at c = s1.at c := by
    intro c hc; unfold setData; simp [hc]
  have hhold : holdingsleep (setData s1 b D) pid b = true := by
    unfold holdingsleep; rw [hat2]; simp [hat1.2.2.1]
  have hw : bwrite (setData s1 b D) pid b = .ok (virtio_disk_rw (setData s1 b D) b true) := by
    unfold bwrite; simp [hhold]
  have h3 : Inv (virtio_disk_rw (setData s1 b D) b true) := h2.bwrite hw
  have hhold3 : holdingsleep (virtio_disk_rw (setData s1 b D) b true) pid b = true := hhold
  have hst3 : Stored (virtio_disk_rw (setData s1 b D) b true) dev blockno D := by
    constructor
    · unfold virtio_disk_rw
      simp [hat2, hat1.1, hat1.2.1]
    · intro c hc hcd hcb hcv
      rw [virtio_write_at] at hcd hcb hcv ⊢
      by_cases e : c = b
      · subst e; rw [hat2]
      · exfalso
        rw [hat2ne c e] at hcd hcb hcv
        have hc1 : c < s1.NBUF := by
          have : (virtio_disk_rw (setData s1 b D) b true).NBUF = s1.NBUF := by
            unfold setData; simp [BCache.NBUF, virtio_write_buf, BCache.setBuf]
          rw [this] at hc; exact hc
        have f1 := h1.first c hc1 (Or.inr hcv)
        have f2 := h1.first b hb1 (Or.inl (by omega))
        have hhome : s1.home c = s1.home b := by
          unfold BCache.home; rw [hcd, hcb, hat1.1, hat1.2.1]
        rw [hhome, hcd, hcb, ← hat1.1, ← hat1.2.1, f2] at f1
        exact e (Option.some.inj f1).symm
  cases hrel : brelse (virtio_disk_rw (setData s1 b D) b true) pid b ticks with
  | error e =>
    exfalso
    unfold brelse at hrel
    rw [hhold3] at hrel
    simp only [Bool.not_true, Bool.false_eq_true, if_false] at hrel
    split at hrel <;> cases hrel
  | ok s4 =>
    refine ⟨_, s4, hw, hrel, ?_⟩
    have h4 : Inv s4 := h3.brelse hrel
    have hst4 : Stored s4 dev blockno D := hst3.after_brelse hrel
    intro calls hno s5 hrun pid2 b2 s6 hr2
    obtain ⟨h5, hst5⟩ := Stored.after_run calls h4 hst4 hno hrun
    exact hst5.read_back h5 hr2

end Bio

namespace Bio

/-- Witness for C4: the block `(0, 1)` read on a fresh cache, set to `[42]`, written and
released. -/
theorem write_read_round_trip_witness :
    ∃ s3 s4, bwrite (setData (stateOf fresh42 (bread fresh42 7 0 1)) 3 [42]) 7 3 = .ok s3 ∧
      brelse s3 7 3 5 = .ok s4 ∧
      ∀ calls : List Call, (∀ c ∈ calls, ¬ c.readsBlock 0 1) →
        ∀ s5, run s4 calls = .ok s5 →
          ∀ pid2 b2 s6, bread s5 pid2 0 1 = .ok (b2, s6) → (s6.at b2).data = [42] :=
  write_read_round_trip (Reachable.init 4 2 0 _ (by decide))
    (show bread fresh42 7 0 1 = .ok (3, stateOf fresh42 (bread fresh42 7 0 1)) from rfl) [42] 5

end Bio

namespace Bio

/-! ## C5: the scenario with 4 buffers and 2 buckets -/

/-- C5. On a cache of 4 buffers and 2 buckets, fresh from `binit`, read the blocks `(0, 1)`,
`(0, 2)`, `(0, 3)`, `(0, 4)`, `(0, 5)` in this order, each read followed at once by its
`brelse`, the tick counter growing strictly from one `brelse` to the next. Then the first
read is served by buffer 3, which still holds block 1 before the fifth read; the fifth
read misses and recycles buffer 3; afterwards the blocks 2, 3 and 4 are still cached and
valid, and `bread(0, 1)` misses, gets from `bget` a buffer with `valid = 0` and reads the
block from the device. -/
theorem lru_scenario (B pid t1 t2 t3 t4 t5 : Nat) (d : Nat → Nat → List Nat)
    (h12 : t1 < t2) (h23 : t2 < t3) (h34 : t3 < t4) (h45 : t4 < t5) :
    ∃ s1 s2 s3 s4 s5 : BCache,
      readRelease (binit (bss 4 2 B d)) pid 0 1 t1 = .ok (3, s1) ∧
      readRelease s1 pid 0 2 t2 = .ok (2, s2) ∧
      readRelease s2 pid 0 3 t3 = .ok (1, s3) ∧
      readRelease s3 pid 0 4 t4 = .ok (0, s4) ∧
      ((s4.at 3).dev = 0 ∧ (s4.at 3).blockno = 1) ∧
      findCached s4 (BCACHE_HASH s4.BUCKETSZ 0 5) 0 5 = none ∧
      readRelease s4 pid 0 5 t5 = .ok (3, s5) ∧
      (findCached s5 (BCACHE_HASH s5.BUCKETSZ 0 2) 0 2 = some 2 ∧ (s5.at 2).valid = 1) ∧
      (findCached s5 (BCACHE_HASH s5.BUCKETSZ 0 3) 0 3 = some 1 ∧ (s5.at 1).valid = 1) ∧
      (findCached s5 (BCACHE_HASH s5.BUCKETSZ 0 4) 0 4 = some 0 ∧ (s5.at 0).valid = 1) ∧
      findCached s5 (BCACHE_HASH s5.BUCKETSZ 0 1) 0 1 = none ∧
      ∃ b g s6, bget s5 pid 0 1 = .ok (b, g) ∧ (g.at b).valid = 0 ∧
        bread s5 pid 0 1 = .ok (b, s6) ∧ s6.io = (false, 0, 1) :: s5.io := by
  have p2 : 0 < t2 := by omega
  have p3 : 0 < t3 := by omega
  have p4 : 0 < t4 := by omega
  have n21 : ¬ t2 < t1 := by omega
  have n32 : ¬ t3 < t2 := by omega
  have n42 : ¬ t4 < t2 := by omega
  have n31 : ¬ t3 < t1 := by omega
  have n41 : ¬ t4 < t1 := by omega
  have n43 : ¬ t4 < t3 := by omega
  have n52 : ¬ t5 < t2 := by omega
  have l12 : t1 < t2 := h12
  have l13 : t1 < t3 := by omega
  have l14 : t1 < t4 := by omega
  rw [binit_bss 4 2 B d (by decide)]
  refine ⟨
    { buf := [Buf.zero B, Buf.zero B, Buf.zero B, ⟨1, 0, 1, none, 0, t1, d 0 1⟩],
      bucket_head := [[2, 1, 0], [3]], disk := d, io := [(false, 0, 1)] },
    { buf := [Buf.zero B, Buf.zero B, ⟨1, 0, 2, none, 0, t2, d 0 2⟩, ⟨1, 0, 1, none, 0, t1, d 0 1⟩],
      bucket_head := [[2, 1, 0], [3]], disk := d, io := [(false, 0, 2), (false, 0, 1)] },
    { buf := [Buf.zero B, ⟨1, 0, 3, none, 0, t3, d 0 3⟩, ⟨1, 0, 2, none, 0, t2, d 0 2⟩,
              ⟨1, 0, 1, none, 0, t1, d 0 1⟩],
      bucket_head := [[2, 0], [1, 3]], disk := d,
      io := [(false, 0, 3), (false, 0, 2), (false, 0, 1)] },
    { buf := [⟨1, 0, 4, none, 0, t4, d 0 4⟩, ⟨1, 0, 3, none, 0, t3, d 0 3⟩,
              ⟨1, 0, 2, none, 0, t2, d 0 2⟩, ⟨1, 0, 1, none, 0, t1, d 0 1⟩],
      bucket_head := [[2, 0], [1, 3]], disk := d,
      io := [(false, 0, 4), (false, 0, 3), (false, 0, 2), (false, 0, 1)] },
    { buf := [⟨1, 0, 4, none, 0, t4, d 0 4⟩, ⟨1, 0, 3, none, 0, t3, d 0 3⟩,
              ⟨1, 0, 2, none, 0, t2, d 0 2⟩, ⟨1, 0, 5, none, 0, t5, d 0 5⟩],
      bucket_head := [[2, 0], [1, 3]], disk := d,
      io := [(false, 0, 5), (false, 0, 4), (false, 0, 3), (false, 0, 2), (false, 0, 1)] },
    ?_, ?_, ?_, ?_, ?_, ?_, ?_, ?_, ?_, ?_, ?_, ?_⟩
  all_goals simp [readRelease, bread, bget, findCached, BCACHE_HASH, BCache.chain, BCache.at,
      BCache.BUCKETSZ, Buf.zero, scanAll, scanBucket, improves, recycle, acquiresleep,
      BCache.setBuf, BCache.setChain, virtio_disk_rw, brelse, holdingsleep, releasesleep,
      List.range, List.range.loop, p2, p3, p4, n21, n32, n42, n31, n41, n43, n52, l12, l13, l14]
  exact ⟨2, _, ⟨rfl, rfl⟩, rfl, _, ⟨rfl, rfl⟩, rfl⟩

/-- Witness for C5: the scenario over an empty disk with the ticks 1, 2, 3, 4, 5. -/
theorem lru_scenario_witness :
    ∃ s1 s2 s3 s4 s5 : BCache,
      readRelease (binit (bss 4 2 0 (fun _ _ => []))) 7 0 1 1 = .ok (3, s1) ∧
      readRelease s1 7 0 2 2 = .ok (2, s2) ∧
      readRelease s2 7 0 3 3 = .ok (1, s3) ∧
      readRelease s3 7 0 4 4 = .ok (0, s4) ∧
      ((s4.at 3).dev = 0 ∧ (s4.at 3).blockno = 1) ∧
      findCached s4 (BCACHE_HASH s4.BUCKETSZ 0 5) 0 5 = none ∧
      readRelease s4 7 0 5 5 = .ok (3, s5) ∧
      (findCached s5 (BCACHE_HASH s5.BUCKETSZ 0 2) 0 2 = some 2 ∧ (s5.at 2).valid = 1) ∧
      (findCached s5 (BCACHE_HASH s5.BUCKETSZ 0 3) 0 3 = some 1 ∧ (s5.at 1).valid = 1) ∧
      (findCached s5 (BCACHE_HASH s5.BUCKETSZ 0 4) 0 4 = some 0 ∧ (s5.at 0).valid = 1) ∧
      findCached s5 (BCACHE_HASH s5.BUCKETSZ 0 1) 0 1 = none ∧
      ∃ b g s6, bget s5 7 0 1 = .ok (b, g) ∧ (g.at b).valid = 0 ∧
        bread s5 7 0 1 = .ok (b, s6) ∧ s6.io = (false, 0, 1) :: s5.io :=
  lru_scenario 0 7 1 2 3 4 5 (fun _ _ => []) (by decide) (by decide) (by decide) (by decide)

end Bio

namespace Kalloc

/-! ## Lists of free lists -/

theorem getD_set_self (fl : List (List Nat)) (i : Nat) (l : List Nat) (h : i < fl.length) :
    (fl.set i l).getD i [] = l := by
  rw [List.getD_eq_getElem?_getD, List.getElem?_set]
  simp [h]

theorem getD_set_ne (fl : List (List Nat)) (i j : Nat) (l : List Nat) (h : i ≠ j) :
    (fl.set i l).getD j [] = fl.getD j [] := by
  rw [List.getD_eq_getElem?_getD, List.getD_eq_getElem?_getD, List.getElem?_set]
  simp [h]

theorem set_getD_self (fl : List (List Nat)) (i : Nat) : fl.set i (fl.getD i []) = fl := by
  apply List.ext_getElem?
  intro j
  rw [List.getElem?_set]
  by_cases h : i = j
  · subst h
    by_cases hi : i < fl.length
    · simp [hi, List.getD_eq_getElem?_getD]
    · simp [hi]
      omega
  · simp [h]

/-- The pages of all lists, with the list `i` replaced by `l`. -/
theorem flatten_set_perm :
    ∀ (fl : List (List Nat)) (i : Nat) (l : List Nat), i < fl.length →
      (l ++ fl.flatten).Perm (fl.getD i [] ++ (fl.set i l).flatten)
  | [], i, l, h => by simp at h
  | a :: fl, 0, l, _ => by
    simp only [List.getD_cons_zero, List.set_cons_zero, List.flatten_cons]
    rw [← List.append_assoc, ← List.append_assoc]
    exact List.Perm.append_right _ List.perm_append_comm
  | a :: fl, i + 1, l, h => by
    simp only [List.getD_cons_succ, List.set_cons_succ, List.flatten_cons]
    have ih := flatten_set_perm fl i l (by simpa using h)
    have e1 : (l ++ (a ++ fl.flatten)).Perm (a ++ (l ++ fl.flatten)) := by
      rw [← List.append_assoc, ← List.append_assoc]
      exact List.Perm.append_right _ List.perm_append_comm
    have e2 : (a ++ (fl.getD i [] ++ (fl.set i l).flatten)).Perm
        (fl.getD i [] ++ (a ++ (fl.set i l).flatten)) := by
      rw [← List.append_assoc, ← List.append_assoc]
      exact List.Perm.append_right _ List.perm_append_comm
    exact e1.trans ((List.Perm.append_left _ ih).trans e2)

end Kalloc

namespace Kalloc

/-! ## The stealing loops -/

/-- The inner loop moves pages from the list to `steal_freelist` and loses none. -/
theorem stealWhile_perm :
    ∀ (l steal : List Nat) (sp : Int),
      ((stealWhile l steal sp).2.1 ++ (stealWhile l steal sp).1).Perm (steal ++ l)
  | [], steal, sp => by simp [stealWhile]
  | r :: rest, steal, sp => by
    unfold stealWhile
    split
    · exact (stealWhile_perm rest (r :: steal) (sp - 1)).trans List.perm_middle.symm
    · exact List.Perm.refl _

/-- The closed form of the inner loop: entered with `steal_pages = k + 1` it moves the first
`k` pages of the list, or all of them when there are fewer. -/
theorem stealWhile_eq :
    ∀ (l steal : List Nat) (k : Nat),
      stealWhile l steal ((k : Int) + 1) =
        (l.drop k, (l.take k).reverse ++ steal,
          if k < l.length then 0 else ((k - l.length : Nat) : Int) + 1)
  | [], steal, k => by simp [stealWhile]
  | r :: rest, steal, 0 => by simp [stealWhile]
  | r :: rest, steal, k + 1 => by
    unfold stealWhile
    have h1 : ((k + 1 : Nat) : Int) + 1 - 1 ≠ 0 := by omega
    have h2 : ((k + 1 : Nat) : Int) + 1 - 1 = (k : Int) + 1 := by omega
    rw [if_pos h1, h2, stealWhile_eq rest (r :: steal) k]
    simp

/-- One iteration of the outer loop. -/
theorem stealFor_succ (id n i : Nat) (fl : List (List Nat)) (steal : List Nat) (sp : Int) :
    stealFor id (n + 1) i fl steal sp =
      if i = id then stealFor id n (i + 1) fl steal sp
      else if (stealWhile (fl.getD i []) steal sp).2.2 = 0 then
        (fl.set i (stealWhile (fl.getD i []) steal sp).1,
          (stealWhile (fl.getD i []) steal sp).2.1, (stealWhile (fl.getD i []) steal sp).2.2)
      else
        stealFor id n (i + 1) (fl.set i (stealWhile (fl.getD i []) steal sp).1)
          (stealWhile (fl.getD i []) steal sp).2.1 (stealWhile (fl.getD i []) steal sp).2.2 := rfl

theorem stealFor_length (id : Nat) :
    ∀ (n i : Nat) (fl : List (List Nat)) (steal : List Nat) (sp : Int),
      (stealFor id n i fl steal sp).1.length = fl.length
  | 0, _, _, _, _ => rfl
  | n + 1, i, fl, steal, sp => by
    rw [stealFor_succ]
    split
    · exact stealFor_length id n (i + 1) fl steal sp
    · split
      · simp
      · rw [stealFor_length id n (i + 1)]
        simp

/-- The outer loop never touches the list of the calling core. -/
theorem stealFor_getD_id (id : Nat) :
    ∀ (n i : Nat) (fl : List (List Nat)) (steal : List Nat) (sp : Int),
      (stealFor id n i fl steal sp).1.getD id [] = fl.getD id []
  | 0, _, _, _, _ => rfl
  | n + 1, i, fl, steal, sp => by
    rw [stealFor_succ]
    split
    · exact stealFor_getD_id id n (i + 1) fl steal sp
    · rename_i hi
      split
      · exact getD_set_ne fl i id _ hi
      · rw [stealFor_getD_id id n (i + 1)]
        exact getD_set_ne fl i id _ hi

/-- The outer loop moves pages to `steal_freelist` and loses none. -/
theorem stealFor_perm (id : Nat) :
    ∀ (n i : Nat) (fl : List (List Nat)) (steal : List Nat) (sp : Int), i + n ≤ fl.length →
      ((stealFor id n i fl steal sp).2.1 ++ (stealFor id n i fl steal sp).1.flatten).Perm
        (steal ++ fl.flatten)
  | 0, _, _, _, _, _ => List.Perm.refl _
  | n + 1, i, fl, steal, sp, h => by
    rw [stealFor_succ]
    split
    · exact stealFor_perm id n (i + 1) fl steal sp (by omega)
    · have hA := stealWhile_perm (fl.getD i []) steal sp
      have hB := flatten_set_perm fl i (stealWhile (fl.getD i []) steal sp).1 (by omega)
      have hstep : ((stealWhile (fl.getD i []) steal sp).2.1 ++
          (fl.set i (stealWhile (fl.getD i []) steal sp).1).flatten).Perm (steal ++ fl.flatten) := by
        rw [List.perm_iff_count] at hA hB ⊢
        intro a
        have ha := hA a
        have hb := hB a
        simp only [List.count_append] at ha hb ⊢
        omega
      split
      · exact hstep
      · refine (stealFor_perm id n (i + 1) _ _ _ ?_).trans hstep
        simp only [List.length_set]
        omega

/-- When every other core has an empty list the outer loop changes nothing. -/
theorem stealFor_all_empty (id : Nat) :
    ∀ (n i : Nat) (fl : List (List Nat)) (steal : List Nat) (sp : Int),
      (∀ j, j ≠ id → fl.getD j [] = []) → stealFor id n i fl steal sp = (fl, steal, sp)
  | 0, _, _, _, _, _ => rfl
  | n + 1, i, fl, steal, sp, h => by
    rw [stealFor_succ]
    split
    · exact stealFor_all_empty id n (i + 1) fl steal sp h
    · rename_i hi
      have hset : fl.set i [] = fl := by
        have := set_getD_self fl i
        rw [h i hi] at this
        exact this
      rw [h i hi]
      simp only [stealWhile, hset]
      split
      · rfl
      · exact stealFor_all_empty id n (i + 1) fl steal sp h

/-- When some other core among those still to visit has a page and the budget allows one
more page, or a page has been stolen already, the outer loop ends with a stolen page. -/
theorem stealFor_ne_nil (id : Nat) :
    ∀ (n i : Nat) (fl : List (List Nat)) (steal : List Nat) (k : Nat),
      (steal ≠ [] ∨ (1 ≤ k ∧ ∃ j, i ≤ j ∧ j < i + n ∧ j ≠ id ∧ fl.getD j [] ≠ [])) →
      (stealFor id n i fl steal ((k : Int) + 1)).2.1 ≠ []
  | 0, i, fl, steal, k, h => by
    rcases h with h | ⟨_, j, h1, h2, _⟩
    · exact h
    · omega
  | n + 1, i, fl, steal, k, h => by
    rw [stealFor_succ]
    split
    · rename_i hi
      apply stealFor_ne_nil id n (i + 1) fl steal k
      rcases h with h | ⟨hk, j, h1, h2, h3, h4⟩
      · exact Or.inl h
      · refine Or.inr ⟨hk, j, ?_, by omega, h3, h4⟩
        have : j ≠ i := by rw [hi]; exact h3
        omega
    · rename_i hi
      rw [stealWhile_eq]
      simp only
      by_cases hs1 : ((fl.getD i []).take k).reverse ++ steal = []
      · -- nothing stolen so far: the list of core `i` is empty
        have hsteal : steal = [] := (List.append_eq_nil.mp hs1).2
        have htake : (fl.getD i []).take k = [] := by
          simpa using (List.append_eq_nil.mp hs1).1
        rcases h with h | ⟨hk, j, h1, h2, h3, h4⟩
        · exact absurd hsteal h
        · have hnil : fl.getD i [] = [] := by
            cases hl : fl.getD i [] with
            | nil => rfl
            | cons a l =>
              rw [hl] at htake
              obtain ⟨k2, rfl⟩ : ∃ k2, k = k2 + 1 := ⟨k - 1, by omega⟩
              simp at htake
          have hji : j ≠ i := by
            rintro rfl
            exact h4 hnil
          rw [hnil]
          simp only [List.length_nil, Nat.not_lt_zero, if_false, Nat.sub_zero, List.drop_nil,
            List.take_nil, List.reverse_nil, List.nil_append]
          rw [if_neg (by omega)]
          apply stealFor_ne_nil id n (i + 1) _ steal k
          refine Or.inr ⟨hk, j, by omega, by omega, h3, ?_⟩
          rw [getD_set_ne fl i j _ (fun e => hji e.symm)]
          exact h4
      · by_cases hlt : k < (fl.getD i []).length
        · rw [if_pos hlt, if_pos rfl]
          exact hs1
        · rw [if_neg hlt, if_neg (by omega)]
          exact stealFor_ne_nil id n (i + 1) _ _ _ (Or.inl hs1)

end Kalloc

namespace Kalloc

/-! ## `kalloc` -/

/-- The fast path of `kalloc`: the list of the calling core has a page. -/
theorem kalloc_local {s : Kmem} {id r : Nat} {rest : List Nat}
    (h : s.freelist.getD id [] = r :: rest) :
    kalloc s id = (some r, memset { s with freelist := s.freelist.set id rest } r 5) := by
  unfold kalloc
  rw [h]

/-- The slow path of `kalloc`: the list of the calling core is empty. -/
theorem kalloc_steal {s : Kmem} {id : Nat} (h : s.freelist.getD id [] = []) :
    kalloc s id =
      match (stealFor id s.NCPU 0 s.freelist [] 64).2.1 with
      | [] => (none, { s with freelist := (stealFor id s.NCPU 0 s.freelist [] 64).1.set id [] })
      | r :: rest =>
        (some r,
          memset { s with freelist := (stealFor id s.NCPU 0 s.freelist [] 64).1.set id rest } r 5) := by
  unfold kalloc
  rw [h]

@[simp] theorem memset_freelist (s : Kmem) (pa c : Nat) : (memset s pa c).freelist = s.freelist :=
  rfl

/-- `kalloc` takes the returned page out of the free lists and keeps every other page. -/
theorem kalloc_perm {s t : Kmem} {id p : Nat} (hid : id < s.NCPU)
    (h : kalloc s id = (some p, t)) : s.freelist.flatten.Perm (p :: t.freelist.flatten) := by
  cases hl : s.freelist.getD id [] with
  | cons r rest =>
    rw [kalloc_local hl] at h
    simp only [Prod.mk.injEq, Option.some.injEq] at h
    obtain ⟨rfl, rfl⟩ := h
    have := flatten_set_perm s.freelist id rest hid
    rw [hl] at this
    simp only [memset_freelist]
    have e : (rest ++ s.freelist.flatten).Perm (r :: rest ++ (s.freelist.set id rest).flatten) :=
      this
    rw [List.perm_iff_count] at e ⊢
    intro a
    have := e a
    simp only [List.count_append, List.count_cons, List.cons_append] at this ⊢
    omega
  | nil =>
    rw [kalloc_steal hl] at h
    have hperm := stealFor_perm id s.NCPU 0 s.freelist [] 64 (by simp [Kmem.NCPU])
    have hlen := stealFor_length id s.NCPU 0 s.freelist [] 64
    have hown := stealFor_getD_id id s.NCPU 0 s.freelist [] 64
    rw [hl] at hown
    cases hst : (stealFor id s.NCPU 0 s.freelist [] 64).2.1 with
    | nil => rw [hst] at h; simp at h
    | cons r rest =>
      rw [hst] at h hperm
      simp only [Prod.mk.injEq, Option.some.injEq] at h
      obtain ⟨rfl, rfl⟩ := h
      have hB := flatten_set_perm (stealFor id s.NCPU 0 s.freelist [] 64).1 id rest
        (by rw [hlen]; exact hid)
      rw [hown] at hB
      simp only [memset_freelist]
      rw [List.perm_iff_count] at hperm hB ⊢
      intro a
      have h1 := hperm a
      have h2 := hB a
      simp only [List.count_append, List.count_cons, List.cons_append, List.nil_append,
        List.count_nil] at h1 h2 ⊢
      omega

theorem disjoint_iff_nodup_flatten (s : Kmem) : s.Disjoint ↔ s.freelist.flatten.Nodup := by
  unfold Kmem.Disjoint
  exact List.nodup_flatten.symm

theorem total_eq_length_flatten (s : Kmem) : s.total = s.freelist.flatten.length := by
  unfold Kmem.total
  exact (List.length_flatten _).symm

theorem kalloc_NCPU (s : Kmem) (id : Nat) : (kalloc s id).2.NCPU = s.NCPU := by
  unfold Kmem.NCPU
  cases hl : s.freelist.getD id [] with
  | cons r rest =>
    rw [kalloc_local hl]
    simp
  | nil =>
    rw [kalloc_steal hl]
    have hlen := stealFor_length id s.NCPU 0 s.freelist [] 64
    split <;> simp [hlen]

end Kalloc

namespace Kalloc

/-! ## C7: page conservation in `kalloc` -/

/-- C7. For every allocator state whose free lists are duplicate-free and pairwise disjoint and
every calling core `id`, if `kalloc` returns the page `p`, then `p` was on exactly one free
list before the call, the pages on the free lists after the call are the pages before
the call without `p`, the lists are still duplicate-free and pairwise disjoint, and the
number of free pages over all cores has gone down by exactly one. This covers the
stealing path. -/
theorem kalloc_conserves_pages {s t : Kmem} {id p : Nat} (hd : s.Disjoint) (hid : id < s.NCPU)
    (h : kalloc s id = (some p, t)) :
    (∃ i, i < s.NCPU ∧ p ∈ s.freelist.getD i [] ∧
      ∀ j, j < s.NCPU → p ∈ s.freelist.getD j [] → j = i) ∧
    (∀ q, (∃ l ∈ t.freelist, q ∈ l) ↔ ((∃ l ∈ s.freelist, q ∈ l) ∧ q ≠ p)) ∧
    t.Disjoint ∧ t.total + 1 = s.total ∧ t.NCPU = s.NCPU := by
  have hperm := kalloc_perm hid h
  have hnd : s.freelist.flatten.Nodup := (disjoint_iff_nodup_flatten s).mp hd
  have hnd2 : (p :: t.freelist.flatten).Nodup := hperm.nodup_iff.mp hnd
  have hpnot : p ∉ t.freelist.flatten := (List.nodup_cons.mp hnd2).1
  have hpin : p ∈ s.freelist.flatten := hperm.mem_iff.mpr (List.mem_cons_self _ _)
  refine ⟨?_, ?_, ?_, ?_, ?_⟩
  · obtain ⟨l, hl, hpl⟩ := List.mem_flatten.mp hpin
    obtain ⟨i, hi, rfl⟩ := List.getElem_of_mem hl
    refine ⟨i, hi, ?_, ?_⟩
    · rw [List.getD_eq_getElem _ _ hi]; exact hpl
    · intro j hj hpj
      rw [List.getD_eq_getElem _ _ hj] at hpj
      by_contra hne
      have hpw := List.pairwise_iff_getElem.mp hd.2
      rcases Nat.lt_or_gt_of_ne hne with hlt | hgt
      · exact hpw j i hj hi hlt hpj hpl
      · exact hpw i j hi hj hgt hpl hpj
  · intro q
    rw [← List.mem_flatten, ← List.mem_flatten, hperm.mem_iff, List.mem_cons]
    constructor
    · intro hq
      refine ⟨Or.inr hq, ?_⟩
      rintro rfl
      exact hpnot hq
    · rintro ⟨hq | hq, hne⟩
      · exact absurd hq hne
      · exact hq
  · exact (disjoint_iff_nodup_flatten t).mpr (List.nodup_cons.mp hnd2).2
  · rw [total_eq_length_flatten, total_eq_length_flatten, hperm.length_eq]
    simp
  · have := kalloc_NCPU s id
    rw [h] at this
    exact this

/-- Witness for C7: core 0 has no page and steals the two pages of core 1. -/
theorem kalloc_conserves_pages_witness :
    twoCores.Disjoint ∧ kalloc twoCores 0 = (some 2264928256, (kalloc twoCores 0).2) ∧
    (kalloc twoCores 0).2.total + 1 = twoCores.total :=
  ⟨(disjoint_iff_nodup_flatten twoCores).mpr (by decide), rfl,
    (@kalloc_conserves_pages twoCores _ 0 _
      ((disjoint_iff_nodup_flatten twoCores).mpr (by decide)) (by decide)
      (show kalloc twoCores 0 = (some 2264928256, (kalloc twoCores 0).2) from rfl)).2.2.2.1⟩

/-! ## C8: when `kalloc` fails -/

/-- C8. For every allocator state and every calling core, `kalloc` returns the null pointer if
and only if every free list is empty, and then it leaves the state as it was. `kalloc` has
no panic: in the embedding it is a total function that returns a pointer and a state. -/
theorem kalloc_fails_iff_all_empty (s : Kmem) (id : Nat) :
    ((kalloc s id).1 = none ↔ ∀ l ∈ s.freelist, l = []) ∧
    ((kalloc s id).1 = none → (kalloc s id).2 = s) := by
  have hempty : (∀ l ∈ s.freelist, l = []) → ∀ j, s.freelist.getD j [] = [] := by
    intro hall j
    by_cases hj : j < s.freelist.length
    · rw [List.getD_eq_getElem _ _ hj]
      exact hall _ (List.getElem_mem hj)
    · rw [List.getD_eq_getElem?_getD, List.getElem?_eq_none (not_lt.mp hj)]
      rfl
  have hback : (∀ l ∈ s.freelist, l = []) → kalloc s id = (none, s) := by
    intro hall
    have hg := hempty hall
    rw [kalloc_steal (hg id), stealFor_all_empty id _ _ _ _ _ (fun j _ => hg j)]
    simp only
    have := set_getD_self s.freelist id
    rw [hg id] at this
    rw [this]
  have hforw : (kalloc s id).1 = none → ∀ l ∈ s.freelist, l = [] := by
    intro hnone l hl
    cases hown : s.freelist.getD id [] with
    | cons r rest => rw [kalloc_local hown] at hnone; cases hnone
    | nil =>
      rw [kalloc_steal hown] at hnone
      have hsteal : (stealFor id s.NCPU 0 s.freelist [] 64).2.1 = [] := by
        cases hst : (stealFor id s.NCPU 0 s.freelist [] 64).2.1 with
        | nil => rfl
        | cons r rest => rw [hst] at hnone; cases hnone
      obtain ⟨j, hj, rfl⟩ := List.getElem_of_mem hl
      by_contra hne
      have hjd : s.freelist.getD j [] = s.freelist[j] := List.getD_eq_getElem _ _ hj
      by_cases hji : j = id
      · subst hji
        rw [hjd] at hown
        exact hne hown
      · have := stealFor_ne_nil id s.NCPU 0 s.freelist [] 63
          (Or.inr ⟨by decide, j, by omega, by simpa [Kmem.NCPU] using hj, hji,
            by rw [hjd]; exact hne⟩)
        exact this hsteal
  refine ⟨⟨hforw, fun hall => by rw [hback hall]⟩, fun hnone => ?_⟩
  rw [hback (hforw hnone)]

/-! ## C9: the number of pages that `kalloc` steals -/

/-- C9, evaluation at the failing input. The calling core 0 has no free page and the only
other core has 64: `kalloc` returns a page, leaves one page on the list of core 1 and
62 on the list of core 0, so it has removed 63 pages from the other core, not 64. -/
theorem kalloc_steals_63_of_64 :
    sixtyFour.freelist.getD 0 [] = [] ∧ (sixtyFour.freelist.getD 1 []).length = 64 ∧
    (kalloc sixtyFour 0).1 = some 2265178112 ∧
    (kalloc sixtyFour 0).2.freelist.getD 1 [] = [2265182208] ∧
    ((kalloc sixtyFour 0).2.freelist.getD 0 []).length = 62 := by
  decide

end Kalloc

namespace Kalloc

/-- The number of pages that the outer loop steals when the calling core has no page:
entered with `steal_pages = k + 1`, it takes `k` pages from the cores still to visit, or
all of their pages when they have fewer. -/
theorem stealFor_count (id : Nat) :
    ∀ (n i : Nat) (fl : List (List Nat)) (steal : List Nat) (k : Nat),
      fl.getD id [] = [] → i + n = fl.length →
      (stealFor id n i fl steal ((k : Int) + 1)).2.1.length =
        steal.length + min (fl.drop i).flatten.length k
  | 0, i, fl, steal, k, _, h => by
    have : fl.drop i = [] := List.drop_eq_nil_of_le (by omega)
    simp [stealFor, this]
  | n + 1, i, fl, steal, k, hown, h => by
    have hi : i < fl.length := by omega
    have hdrop : fl.drop i = fl.getD i [] :: fl.drop (i + 1) := by
      rw [List.getD_eq_getElem _ _ hi]
      exact List.drop_eq_getElem_cons hi
    rw [stealFor_succ, hdrop, List.flatten_cons, List.length_append]
    split
    · rename_i hid
      rw [stealFor_count id n (i + 1) fl steal k hown (by omega), hid, hown]
      simp
    · rename_i hid
      rw [stealWhile_eq]
      simp only
      by_cases hlt : k < (fl.getD i []).length
      · rw [if_pos hlt, if_pos rfl]
        simp only [List.length_append, List.length_reverse, List.length_take]
        omega
      · rw [if_neg hlt, if_neg (by omega)]
        have hown2 : (fl.set i ((fl.getD i []).drop k)).getD id [] = [] := by
          rw [getD_set_ne fl i id _ hid]; exact hown
        rw [stealFor_count id n (i + 1) _ _ _ hown2 (by simp only [List.length_set]; omega)]
        rw [List.drop_set_of_lt _ _ (by omega : i < i + 1)]
        simp only [List.length_append, List.length_reverse, List.length_take]
        omega

/-- What the code does where C9 asks for 64: when the calling core has no free page and the
cores together hold `N` pages, `kalloc` steals `min N 63` pages; one of them is returned
and the others are left on the list of the calling core. -/
theorem kalloc_steals_min_63 (s : Kmem) {id : Nat} (hid : id < s.NCPU)
    (hown : s.freelist.getD id [] = []) :
    (stealFor id s.NCPU 0 s.freelist [] 64).2.1.length = min s.total 63 ∧
    ((kalloc s id).2.freelist.getD id []).length = min s.total 63 - 1 := by
  have hc := stealFor_count id s.NCPU 0 s.freelist [] 63 hown (by simp [Kmem.NCPU])
  have e : ((63 : Nat) : Int) + 1 = 64 := by norm_num
  rw [e] at hc
  simp only [List.drop_zero, List.length_nil, Nat.zero_add] at hc
  rw [← total_eq_length_flatten] at hc
  refine ⟨hc, ?_⟩
  rw [kalloc_steal hown]
  have hlen := stealFor_length id s.NCPU 0 s.freelist [] 64
  cases hst : (stealFor id s.NCPU 0 s.freelist [] 64).2.1 with
  | nil =>
    simp only
    rw [getD_set_self _ _ _ (by rw [hlen]; exact hid)]
    rw [hst] at hc
    simp only [List.length_nil] at hc ⊢
    omega
  | cons r rest =>
    simp only [memset_freelist]
    rw [getD_set_self _ _ _ (by rw [hlen]; exact hid)]
    rw [hst] at hc
    simp only [List.length_cons] at hc
    omega

end Kalloc

namespace Bio

/-! ## C12: what `brelse` changes -/

/-- C12. `brelse(b)` panics if and only if the caller does not hold the sleep lock of `b`. When
the caller holds it and `b.refcnt > 0`, `brelse(b)` releases the sleep lock, lowers
`b.refcnt` by exactly one, sets `b.lastuse` to the current tick if the new `refcnt` is 0
and leaves it alone otherwise, and changes nothing else: `dev`, `blockno`, `valid` and the
content of `b`, the bucket lists, every other buffer, the device and its log are as
before. -/
theorem brelse_effect (s : BCache) (pid b ticks : Nat) :
    (brelse s pid b ticks = .error "brelse" ↔ holdingsleep s pid b = false) ∧
    (holdingsleep s pid b = true → 0 < (s.at b).refcnt →
      ∃ t, brelse s pid b ticks = .ok t ∧
        (t.at b).lock = none ∧ (t.at b).refcnt + 1 = (s.at b).refcnt ∧
        ((t.at b).refcnt = 0 → (t.at b).lastuse = ticks) ∧
        ((t.at b).refcnt ≠ 0 → (t.at b).lastuse = (s.at b).lastuse) ∧
        (t.at b).dev = (s.at b).dev ∧ (t.at b).blockno = (s.at b).blockno ∧
        (t.at b).valid = (s.at b).valid ∧ (t.at b).data = (s.at b).data ∧
        t.bucket_head = s.bucket_head ∧ (∀ c, c ≠ b → t.at c = s.at c) ∧
        t.NBUF = s.NBUF ∧ t.disk = s.disk ∧ t.io = s.io) := by
  constructor
  · constructor
    · intro h
      cases hh : holdingsleep s pid b with
      | false => rfl
      | true =>
        exfalso
        unfold brelse at h
        rw [hh] at h
        simp only [Bool.not_true, Bool.false_eq_true, if_false] at h
        split at h <;> cases h
    · intro h
      unfold brelse
      rw [h]
      rfl
  · intro hh hpos
    cases hr : brelse s pid b ticks with
    | error e =>
      exfalso
      unfold brelse at hr
      rw [hh] at hr
      simp only [Bool.not_true, Bool.false_eq_true, if_false] at hr
      split at hr <;> cases hr
    | ok t =>
      obtain ⟨_, _, hbh, hn, hdisk, hio, hat, hne⟩ := brelse_ok hr
      refine ⟨t, rfl, ?_, ?_, ?_, ?_, ?_, ?_, ?_, ?_, hbh, hne, hn, hdisk, hio⟩ <;> rw [hat]
      · simp only
        omega
      · intro h0
        simp only at h0 ⊢
        rw [if_pos h0]
      · intro h0
        simp only at h0 ⊢
        rw [if_neg h0]

/-- Witness for C12: the buffer that `bread(0, 1)` returned on a fresh cache is released. -/
theorem brelse_effect_witness :
    holdingsleep (stateOf fresh42 (bread fresh42 7 0 1)) 7 3 = true ∧
    0 < ((stateOf fresh42 (bread fresh42 7 0 1)).at 3).refcnt ∧
    ∃ t, brelse (stateOf fresh42 (bread fresh42 7 0 1)) 7 3 9 = .ok t ∧
      (t.at 3).lock = none ∧
      (t.at 3).refcnt + 1 = ((stateOf fresh42 (bread fresh42 7 0 1)).at 3).refcnt ∧
      ((t.at 3).refcnt = 0 → (t.at 3).lastuse = 9) :=
  ⟨by decide, by decide,
    ((brelse_effect (stateOf fresh42 (bread fresh42 7 0 1)) 7 3 9).2 (by decide)
      (by decide)).imp (fun _ h => ⟨h.1, h.2.1, h.2.2.1, h.2.2.2.1⟩)⟩

end Bio

namespace Bio

/-! ## C13: `bpin` and `bunpin` -/

theorem set_getD_eq (l : List Buf) (b : Nat) : l.set b (l.getD b default) = l := by
  apply List.ext_getElem?
  intro j
  rw [List.getElem?_set]
  by_cases h : b = j
  · subst h
    by_cases hb : b < l.length
    · simp [hb, List.getD_eq_getElem?_getD]
    · simp [hb]
      omega
  · simp [h]

/-- C13. For a buffer `b` of the cache, `bpin(b)` raises `b.refcnt` by exactly one and
`bunpin(b)` lowers it by exactly one (`refcnt` counts references, so for `bunpin` the
buffer is referenced); neither touches the sleep lock, key, `valid`, `lastuse` or content
of `b`, the bucket lists, any other buffer or the device, so `bunpin(b)` after `bpin(b)`
restores the state exactly. While `b` has `refcnt > 0` (as after an unmatched `bpin`), a
`bget` that misses returns another buffer and leaves `b` as it is. -/
theorem bpin_bunpin_effect (s : BCache) {b : Nat} (hb : b < s.NBUF) :
    ((bpin s b).at b = { s.at b with refcnt := (s.at b).refcnt + 1 } ∧
      (∀ c, c ≠ b → (bpin s b).at c = s.at c) ∧ (bpin s b).bucket_head = s.bucket_head ∧
      (bpin s b).disk = s.disk ∧ (bpin s b).io = s.io) ∧
    ((bunpin s b).at b = { s.at b with refcnt := (s.at b).refcnt - 1 } ∧
      (0 < (s.at b).refcnt → ((bunpin s b).at b).refcnt + 1 = (s.at b).refcnt) ∧
      (∀ c, c ≠ b → (bunpin s b).at c = s.at c) ∧ (bunpin s b).bucket_head = s.bucket_head ∧
      (bunpin s b).disk = s.disk ∧ (bunpin s b).io = s.io) ∧
    bunpin (bpin s b) b = s ∧
    0 < ((bpin s b).at b).refcnt ∧
    (∀ (t t1 : BCache) (pid dev blockno c : Nat), 0 < (t.at b).refcnt →
      findCached t (BCACHE_HASH t.BUCKETSZ dev blockno) dev blockno = none →
      bget t pid dev blockno = .ok (c, t1) → c ≠ b ∧ t1.at b = t.at b) := by
  have hpin : (bpin s b).at b = { s.at b with refcnt := (s.at b).refcnt + 1 } := by
    unfold bpin; simp [hb]
  have hunpin : (bunpin s b).at b = { s.at b with refcnt := (s.at b).refcnt - 1 } := by
    unfold bunpin; simp [hb]
  refine ⟨⟨hpin, ?_, rfl, rfl, rfl⟩, ⟨hunpin, ?_, ?_, rfl, rfl, rfl⟩, ?_, ?_, ?_⟩
  · intro c hc
    unfold bpin; simp [hc]
  · intro hpos
    rw [hunpin]
    simp only
    omega
  · intro c hc
    unfold bunpin; simp [hc]
  · unfold bunpin
    rw [hpin]
    unfold bpin BCache.setBuf
    simp only [List.set_set, Nat.add_sub_cancel]
    have e : ({ s.at b with refcnt := (s.at b).refcnt } : Buf) = s.buf.getD b default := rfl
    rw [e, set_getD_eq]
  · rw [hpin]
    simp
  · intro t t1 pid dev blockno c hpos hm hg
    rcases bget_cases t pid dev blockno with ⟨c2, hf, _⟩ | ⟨_, lru, lru_idx, hsc, he⟩ |
      ⟨_, _, he⟩
    · rw [hm] at hf; cases hf
    · rw [he] at hg
      simp only [Except.ok.injEq, Prod.mk.injEq] at hg
      obtain ⟨rfl, rfl⟩ := hg
      obtain ⟨li, _, hl, hr⟩ := scanAll_some hsc
      have hne : lru ≠ b := by
        rintro rfl
        omega
      refine ⟨hne, ?_⟩
      rw [recycle_at, if_neg (fun e => hne e.1.symm)]
    · rw [he] at hg; cases hg

/-- Witness for C13: buffer 3 of a fresh cache is pinned and unpinned. -/
theorem bpin_bunpin_effect_witness :
    bunpin (bpin fresh42 3) 3 = fresh42 ∧ 0 < ((bpin fresh42 3).at 3).refcnt :=
  ⟨(@bpin_bunpin_effect fresh42 3 (by decide)).2.2.1,
    (@bpin_bunpin_effect fresh42 3 (by decide)).2.2.2.1⟩

end Bio

namespace Bio

/-! ## C14: the tie-break of the eviction scan -/

theorem scanBucket_fst_flag (s : BCache) :
    ∀ (l : List Nat) (lru : Option Nat) (f g : Bool),
      (scanBucket s l lru f).1 = (scanBucket s l lru g).1
  | [], _, _, _ => rfl
  | b :: rest, lru, f, g => by
    unfold scanBucket
    split
    · rfl
    · exact scanBucket_fst_flag s rest lru f g

theorem scanBucket_cons_pos (s : BCache) {b : Nat} {lru : Option Nat}
    (h : (s.at b).refcnt = 0 ∧ improves s lru b = true) (rest : List Nat) (f : Bool) :
    scanBucket s (b :: rest) lru f = scanBucket s rest (some b) true := by
  rw [scanBucket, if_pos h]

theorem scanBucket_cons_neg (s : BCache) {b : Nat} {lru : Option Nat}
    (h : ¬ ((s.at b).refcnt = 0 ∧ improves s lru b = true)) (rest : List Nat) (f : Bool) :
    scanBucket s (b :: rest) lru f = scanBucket s rest lru f := by
  rw [scanBucket, if_neg h]

theorem scanBucket_append (s : BCache) :
    ∀ (l1 l2 : List Nat) (lru : Option Nat) (f g : Bool),
      (scanBucket s (l1 ++ l2) lru f).1 = (scanBucket s l2 (scanBucket s l1 lru f).1 g).1
  | [], l2, lru, f, g => scanBucket_fst_flag s l2 lru f g
  | b :: rest, l2, lru, f, g => by
    rw [List.cons_append]
    by_cases hc : (s.at b).refcnt = 0 ∧ improves s lru b = true
    · rw [scanBucket_cons_pos s hc, scanBucket_cons_pos s hc]
      exact scanBucket_append s rest l2 (some b) true g
    · rw [scanBucket_cons_neg s hc, scanBucket_cons_neg s hc]
      exact scanBucket_append s rest l2 lru f g

/-- The candidate that the eviction scan ends with is the one that a single pass over
all chains in scan order ends with. -/
theorem scanAll_fst_eq (s : BCache) :
    ∀ (L : List (List Nat)) (i : Nat) (lru lru_idx : Option Nat),
      (scanAll s L i lru lru_idx).1 = (scanBucket s L.flatten lru false).1
  | [], _, _, _ => rfl
  | chain :: rest, i, lru, lru_idx => by
    rw [List.flatten_cons, scanBucket_append s chain rest.flatten lru false false]
    unfold scanAll
    rcases hsb : scanBucket s chain lru false with ⟨lru1, found_new⟩
    simp only
    split
    · exact scanAll_fst_eq s rest (i + 1) lru1 (some i)
    · exact scanAll_fst_eq s rest (i + 1) lru1 lru_idx

/-- Where the candidate of a pass comes from: either it is the candidate the pass started
with, and no unreferenced buffer of the list is older; or it is a buffer of the list
that is strictly older than the initial candidate and than every unreferenced buffer
before it, and at least as old as every unreferenced buffer after it. -/
theorem scanBucket_first (s : BCache) :
    ∀ (l : List Nat) (lru : Option Nat) (f : Bool) (x : Nat),
      (scanBucket s l lru f).1 = some x →
      (lru = some x ∧ ∀ c ∈ l, (s.at c).refcnt = 0 → (s.at x).lastuse ≤ (s.at c).lastuse) ∨
      (∃ pre post, l = pre ++ x :: post ∧ (s.at x).refcnt = 0 ∧
        (∀ y, lru = some y → (s.at x).lastuse < (s.at y).lastuse) ∧
        (∀ c ∈ pre, (s.at c).refcnt = 0 → (s.at x).lastuse < (s.at c).lastuse) ∧
        (∀ c ∈ post, (s.at c).refcnt = 0 → (s.at x).lastuse ≤ (s.at c).lastuse))
  | [], lru, f, x, h => by
    simp only [scanBucket] at h
    left
    exact ⟨h, by simp⟩
  | b :: rest, lru, f, x, h => by
    unfold scanBucket at h
    split at h
    · rename_i hc
      have himp : ∀ y, lru = some y → (s.at b).lastuse < (s.at y).lastuse := by
        intro y hy
        subst hy
        simpa [improves] using hc.2
      rcases scanBucket_first s rest (some b) true x h with ⟨h1, h2⟩ | ⟨pre, post, h1, h2, h3, h4, h5⟩
      · obtain rfl : b = x := Option.some.inj h1
        right
        exact ⟨[], rest, rfl, hc.1, himp, by simp, h2⟩
      · right
        have hxb := h3 b rfl
        refine ⟨b :: pre, post, by rw [h1]; rfl, h2, ?_, ?_, h5⟩
        · intro y hy
          exact lt_trans hxb (himp y hy)
        · intro c hcm hr
          rcases List.mem_cons.mp hcm with e | e
          · subst e; exact hxb
          · exact h4 c e hr
    · rename_i hc
      rcases scanBucket_first s rest lru f x h with ⟨h1, h2⟩ | ⟨pre, post, h1, h2, h3, h4, h5⟩
      · left
        refine ⟨h1, ?_⟩
        intro c hcm hr
        rcases List.mem_cons.mp hcm with e | e
        · subst e
          subst h1
          have : ¬ (s.at x).lastuse > (s.at c).lastuse := by
            intro hgt
            exact hc ⟨hr, by simp [improves, hgt]⟩
          omega
        · exact h2 c e hr
      · right
        refine ⟨b :: pre, post, by rw [h1]; rfl, h2, h3, ?_, h5⟩
        intro c hcm hr
        rcases List.mem_cons.mp hcm with e | e
        · subst e
          cases lru with
          | none => exact absurd ⟨hr, rfl⟩ hc
          | some y =>
            have hy := h3 y rfl
            have : ¬ (s.at y).lastuse > (s.at c).lastuse := by
              intro hgt
              exact hc ⟨hr, by simp [improves, hgt]⟩
            omega
        · exact h4 c e hr

theorem head?_filter_of_split {P : Nat → Bool} {l pre post : List Nat} {x : Nat}
    (h : l = pre ++ x :: post) (hpre : pre.filter P = []) (hx : P x = true) :
    (l.filter P).head? = some x := by
  subst h
  rw [List.filter_append, hpre, List.nil_append, List.filter_cons_of_pos hx]
  rfl

/-- C14, as amended. Among the buffers with `refcnt = 0` that share the minimum `lastuse`, the
eviction scan of `bget` (buckets in index order, each chain from head to tail, the
candidate replaced on a strictly-greater-than comparison) selects the one that the
scan order visits first; it selects none when no buffer has `refcnt = 0`. This is the
buffer that a `bget` miss recycles. -/
theorem eviction_scan_keeps_first_tie (s : BCache) :
    (scanAll s s.bucket_head 0 none none).1 = (lruTies s).head? ∧
    (∀ pid dev blockno b s1,
      findCached s (BCACHE_HASH s.BUCKETSZ dev blockno) dev blockno = none →
      bget s pid dev blockno = .ok (b, s1) → (lruTies s).head? = some b) := by
  have key : (scanAll s s.bucket_head 0 none none).1 = (lruTies s).head? := by
    rw [scanAll_fst_eq]
    unfold lruTies scanOrder
    cases hx : (scanBucket s s.bucket_head.flatten none false).1 with
    | none =>
      have hn := (scanBucket_none s _ none false hx).2
      symm
      rw [List.head?_eq_none_iff, List.filter_eq_nil_iff]
      intro b hb
      simp [hn b hb]
    | some x =>
      rcases scanBucket_first s _ none false x hx with ⟨h1, _⟩ | ⟨pre, post, h1, h2, _, h4, h5⟩
      · cases h1
      · have hmin : ∀ c ∈ s.bucket_head.flatten, (s.at c).refcnt = 0 →
            (s.at x).lastuse ≤ (s.at c).lastuse := by
          intro c hc hr
          rw [h1] at hc
          rcases List.mem_append.mp hc with e | e
          · exact le_of_lt (h4 c e hr)
          · rcases List.mem_cons.mp e with e | e
            · subst e; exact le_refl _
            · exact h5 c e hr
        have hxmem : x ∈ s.bucket_head.flatten := by rw [h1]; simp
        have hpre : pre.filter (fun b =>
            decide ((s.at b).refcnt = 0) &&
              (s.bucket_head.flatten).all (fun c =>
                decide ((s.at c).refcnt = 0 → (s.at b).lastuse ≤ (s.at c).lastuse))) = [] := by
          rw [List.filter_eq_nil_iff]
          intro b hb
          simp only [Bool.and_eq_true, decide_eq_true_eq, List.all_eq_true, not_and]
          intro hr hall
          have := hall x hxmem h2
          have := h4 b hb hr
          omega
        have hxin : (decide ((s.at x).refcnt = 0) &&
              (s.bucket_head.flatten).all (fun c =>
                decide ((s.at c).refcnt = 0 → (s.at x).lastuse ≤ (s.at c).lastuse))) = true := by
          simp only [Bool.and_eq_true, decide_eq_true_eq, List.all_eq_true]
          exact ⟨h2, hmin⟩
        exact (head?_filter_of_split h1 hpre hxin).symm
  refine ⟨key, ?_⟩
  intro pid dev blockno b s1 hm hg
  rcases bget_cases s pid dev blockno with ⟨c2, hf, _⟩ | ⟨_, lru, lru_idx, hsc, he⟩ | ⟨_, _, he⟩
  · rw [hm] at hf; cases hf
  · rw [he] at hg
    simp only [Except.ok.injEq, Prod.mk.injEq] at hg
    obtain ⟨rfl, rfl⟩ := hg
    rw [← key, hsc]
  · rw [he] at hg; cases hg

/-- C14, counterexample to the claim as stated. On a fresh cache of 4 buffers the buffers 3, 2,
1, 0 all have `refcnt = 0` and `lastuse = 0` and are visited in this order; the scan, and
the `bget` miss that runs it, select buffer 3, the first one visited, not buffer 0, the
last one visited. -/
theorem eviction_scan_not_last_tie :
    lruTies fresh42 = [3, 2, 1, 0] ∧
    (scanAll fresh42 fresh42.bucket_head 0 none none).1 = some 3 ∧
    (scanAll fresh42 fresh42.bucket_head 0 none none).1 ≠ (lruTies fresh42).getLast? ∧
    findCached fresh42 (BCACHE_HASH fresh42.BUCKETSZ 0 1) 0 1 = none ∧
    bget fresh42 7 0 1 = .ok (3, stateOf fresh42 (bget fresh42 7 0 1)) :=
  ⟨by decide, by decide, by decide, by decide, rfl⟩

end Bio

namespace Bio

/-! ## The linking invariant in every reachable state -/

theorem Inv.toLinked {s : BCache} (h : Inv s) : Linked s :=
  ⟨h.buckets, h.cover, h.hashed, h.nodup⟩

/-- A step that leaves the chains and the keys alone keeps the linking invariant. -/
theorem Linked.keep {s t : BCache} (h : Linked s)
    (hh : t.bucket_head = s.bucket_head) (hn : t.NBUF = s.NBUF)
    (hk : ∀ b, (t.at b).dev = (s.at b).dev ∧ (t.at b).blockno = (s.at b).blockno) :
    Linked t := by
  have hz : t.BUCKETSZ = s.BUCKETSZ := by unfold BCache.BUCKETSZ; rw [hh]
  have hc : ∀ i, t.chain i = s.chain i := by intro i; unfold BCache.chain; rw [hh]
  have hhome : ∀ b, t.home b = s.home b := fun b => home_congr hz (hk b).1 (hk b).2
  refine ⟨?_, ?_, ?_, ?_⟩
  · rw [hz]; exact h.buckets
  · intro b hb
    rw [hn] at hb
    rw [hhome, hc]
    exact h.cover b hb
  · intro i b hb
    rw [hc] at hb
    rw [hn, hhome]
    exact h.hashed i b hb
  · intro i
    rw [hc]
    exact h.nodup i

/-- The chains after recycling `lru` from the bucket `li` into the bucket `idx`, under the
linking invariant. -/
theorem recycle_mem_linked {s : BCache} (h : Linked s) {pid dev blockno idx lru li : Nat}
    (hidx : idx < s.BUCKETSZ) (hl : lru ∈ s.chain li) (j y : Nat) :
    y ∈ (recycle s pid dev blockno idx lru (some li)).chain j ↔
      (y = lru ∧ j = idx) ∨ (y ≠ lru ∧ y ∈ s.chain j) := by
  have hli := lt_BUCKETSZ_of_mem_chain hl
  have hhome := (h.hashed li lru hl).2
  by_cases hne : li = idx
  · subst hne
    rw [recycle_chain_same]
    constructor
    · intro hy
      by_cases e : y = lru
      · subst e
        exact Or.inl ⟨rfl, ((h.hashed j y hy).2.symm.trans hhome)⟩
      · exact Or.inr ⟨e, hy⟩
    · rintro (⟨rfl, rfl⟩ | ⟨_, hy⟩)
      · exact hl
      · exact hy
  · rw [recycle_chain_move s pid dev blockno idx lru li hne hli hidx]
    by_cases hj : j = idx
    · subst hj
      simp only [if_true, List.mem_cons]
      constructor
      · rintro (e | hy)
        · exact Or.inl ⟨e, trivial⟩
        · refine Or.inr ⟨?_, hy⟩
          rintro rfl
          exact hne (hhome.symm.trans (h.hashed j y hy).2)
      · rintro (⟨e, _⟩ | ⟨_, hy⟩)
        · exact Or.inl e
        · exact Or.inr hy
    · rw [if_neg hj]
      by_cases hj2 : j = li
      · subst hj2
        rw [if_pos rfl, (h.nodup j).mem_erase_iff]
        constructor
        · rintro ⟨e, hy⟩; exact Or.inr ⟨e, hy⟩
        · rintro (⟨_, e⟩ | ⟨e, hy⟩)
          · exact absurd e hj
          · exact ⟨e, hy⟩
      · rw [if_neg hj2]
        constructor
        · intro hy
          refine Or.inr ⟨?_, hy⟩
          rintro rfl
          exact hj2 ((h.hashed j y hy).2.symm.trans hhome)
        · rintro (⟨_, e⟩ | ⟨_, hy⟩)
          · exact absurd e hj
          · exact hy

theorem recycle_nodup_linked {s : BCache} (h : Linked s) {pid dev blockno idx lru li : Nat}
    (hidx : idx < s.BUCKETSZ) (hl : lru ∈ s.chain li) (j : Nat) :
    ((recycle s pid dev blockno idx lru (some li)).chain j).Nodup := by
  have hli := lt_BUCKETSZ_of_mem_chain hl
  have hhome := (h.hashed li lru hl).2
  by_cases hne : li = idx
  · subst hne
    rw [recycle_chain_same]
    exact h.nodup j
  · rw [recycle_chain_move s pid dev blockno idx lru li hne hli hidx]
    split
    · rw [List.nodup_cons]
      refine ⟨?_, h.nodup idx⟩
      intro hy
      exact hne (hhome.symm.trans (h.hashed idx lru hy).2)
    · split
      · exact (h.nodup li).erase lru
      · exact h.nodup j

/-- Eviction keeps the linking invariant, whatever the reference counts are. -/
theorem Linked.evict {s : BCache} (h : Linked s) {pid dev blockno lru : Nat}
    {lru_idx : Option Nat} (hs : scanAll s s.bucket_head 0 none none = (some lru, lru_idx)) :
    Linked (recycle s pid dev blockno (BCACHE_HASH s.BUCKETSZ dev blockno) lru lru_idx) := by
  obtain ⟨li, rfl, hl, _⟩ := scanAll_some hs
  have hidx : BCACHE_HASH s.BUCKETSZ dev blockno < s.BUCKETSZ := BCACHE_HASH_lt h.buckets _ _
  have hlru : lru < s.NBUF := (h.hashed li lru hl).1
  set idx := BCACHE_HASH s.BUCKETSZ dev blockno with hidxdef
  set t := recycle s pid dev blockno idx lru (some li) with ht
  have hat_ne : ∀ c, c ≠ lru → t.at c = s.at c := by
    intro c hc; rw [ht, recycle_at]; simp [hc]
  have hat_self : t.at lru =
      { s.at lru with dev := dev, blockno := blockno, valid := 0, refcnt := 1,
                      lock := some pid } := by
    rw [ht, recycle_at]; simp [hlru]
  have hhome_ne : ∀ c, c ≠ lru → t.home c = s.home c := by
    intro c hc
    exact home_congr (recycle_BUCKETSZ ..) (by rw [hat_ne c hc]) (by rw [hat_ne c hc])
  have hhome_self : t.home lru = idx := by
    unfold BCache.home
    rw [hat_self, ht, recycle_BUCKETSZ]
  have hmem := fun j y => @recycle_mem_linked s h pid dev blockno idx lru li hidx hl j y
  refine ⟨?_, ?_, ?_, ?_⟩
  · rw [ht, recycle_BUCKETSZ]; exact h.buckets
  · intro b hb
    rw [ht, recycle_NBUF] at hb
    by_cases e : b = lru
    · subst e
      rw [hhome_self]
      exact (hmem idx b).mpr (Or.inl ⟨rfl, rfl⟩)
    · rw [hhome_ne b e]
      exact (hmem _ b).mpr (Or.inr ⟨e, h.cover b hb⟩)
  · intro i b hb
    rw [ht, recycle_NBUF]
    rcases (hmem i b).mp hb with ⟨rfl, rfl⟩ | ⟨e, hy⟩
    · exact ⟨hlru, hhome_self⟩
    · rw [hhome_ne b e]
      exact h.hashed i b hy
  · intro i
    exact recycle_nodup_linked h hidx hl i

theorem Linked.after_bget {s s1 : BCache} (h : Linked s) {pid dev blockno b : Nat}
    (hg : bget s pid dev blockno = .ok (b, s1)) : Linked s1 := by
  rcases bget_cases s pid dev blockno with ⟨c, _, he⟩ | ⟨_, lru, lru_idx, hs, he⟩ | ⟨_, _, he⟩
  · rw [he] at hg
    simp only [Except.ok.injEq, Prod.mk.injEq] at hg
    obtain ⟨rfl, rfl⟩ := hg
    apply h.keep (bgetHit_bucket_head s pid c) (bgetHit_NBUF s pid c)
    intro d
    rw [bgetHit_at]
    split <;> rename_i hc
    · rw [hc.1]; exact ⟨rfl, rfl⟩
    · exact ⟨rfl, rfl⟩
  · rw [he] at hg
    simp only [Except.ok.injEq, Prod.mk.injEq] at hg
    obtain ⟨rfl, rfl⟩ := hg
    exact h.evict hs
  · rw [he] at hg; cases hg

theorem Linked.after_breadTail {s1 : BCache} (h : Linked s1) (b : Nat) :
    Linked (breadTail s1 b) := by
  apply h.keep (breadTail_bucket_head s1 b) (breadTail_NBUF s1 b)
  intro c
  rw [breadTail_at]
  split <;> rename_i hc
  · rw [hc.1]; exact ⟨rfl, rfl⟩
  · exact ⟨rfl, rfl⟩

theorem Linked.after_setBuf {s : BCache} (h : Linked s) (b : Nat) (v : Buf)
    (hd : v.dev = (s.at b).dev) (hbk : v.blockno = (s.at b).blockno) :
    Linked (s.setBuf b v) := by
  apply h.keep (setBuf_bucket_head ..) (setBuf_NBUF ..)
  intro c
  rw [at_setBuf]
  split <;> rename_i hc
  · rw [hc.1]; exact ⟨hd, hbk⟩
  · exact ⟨rfl, rfl⟩

theorem Linked.released {s t : BCache} (h : Linked s) {pid b ticks : Nat}
    (hr : brelse s pid b ticks = .ok t) : Linked t := by
  obtain ⟨_, _, hbh, hn, _, _, hat, hne⟩ := brelse_ok hr
  apply h.keep hbh hn
  intro c
  by_cases e : c = b
  · subst e; rw [hat]; exact ⟨rfl, rfl⟩
  · rw [hne c e]; exact ⟨rfl, rfl⟩

/-- Every state reachable by calls on any buffer satisfies the linking invariant. -/
theorem ReachableAny.linked {s : BCache} (h : ReachableAny s) : Linked s := by
  induction h with
  | init n k B d hk => exact (Inv.binit n k B d hk).toLinked
  | bget _ hg ih => exact ih.after_bget hg
  | bread _ hr ih =>
    obtain ⟨s1, hg, rfl⟩ := bread_ok hr
    exact (ih.after_bget hg).after_breadTail _
  | bwrite _ hw ih =>
    obtain ⟨_, rfl⟩ := bwrite_ok hw
    exact ih.keep rfl rfl (fun _ => ⟨rfl, rfl⟩)
  | brelse _ hr ih => exact ih.released hr
  | bpin b _ ih => exact ih.after_setBuf b _ rfl rfl
  | bunpin b _ ih => exact ih.after_setBuf b _ rfl rfl
  | setData b d _ ih => exact ih.after_setBuf b _ rfl rfl

theorem Reachable.any {s : BCache} (h : Reachable s) : ReachableAny s := by
  induction h with
  | init n k B d hk => exact ReachableAny.init n k B d hk
  | bget _ hg ih => exact ih.bget hg
  | bread _ hr ih => exact ih.bread hr
  | bwrite _ hw ih => exact ih.bwrite hw
  | brelse _ _ hr ih => exact ih.brelse hr
  | bpin _ _ ih => exact ih.bpin _
  | bunpin _ _ ih => exact ih.bunpin _
  | setData _ _ ih => exact ih.setData _ _

end Bio

namespace Bio

/-! ## C15: the chains hold every buffer exactly once -/

theorem Linked.mem_flatten_iff {s : BCache} (h : Linked s) (b : Nat) :
    b ∈ s.bucket_head.flatten ↔ b < s.NBUF := by
  rw [List.mem_flatten]
  constructor
  · rintro ⟨l, hl, hb⟩
    obtain ⟨i, _, rfl⟩ := exists_chain_of_mem_bucket_head hl
    exact (h.hashed i b hb).1
  · intro hb
    have hc := h.cover b hb
    exact ⟨_, chain_mem_bucket_head (lt_BUCKETSZ_of_mem_chain hc), hc⟩

theorem Linked.nodup_flatten {s : BCache} (h : Linked s) : s.bucket_head.flatten.Nodup := by
  rw [List.nodup_flatten]
  constructor
  · intro l hl
    obtain ⟨i, _, rfl⟩ := exists_chain_of_mem_bucket_head hl
    exact h.nodup i
  · rw [List.pairwise_iff_getElem]
    intro i j hi hj hij b hbi hbj
    have e1 : s.chain i = s.bucket_head[i] := List.getD_eq_getElem _ _ hi
    have e2 : s.chain j = s.bucket_head[j] := List.getD_eq_getElem _ _ hj
    rw [← e1] at hbi
    rw [← e2] at hbj
    have := (h.hashed i b hbi).2.symm.trans (h.hashed j b hbj).2
    omega

/-- C15. In every state reachable from `binit` by `bget`/`bread`, `brelse`, `bpin` and `bunpin`
(on any buffer; also by `bwrite` and content writes), the bucket chains together hold each
of the `NBUF` buffers exactly once: the concatenation of the chains is a permutation of
`0, ..., NBUF - 1`, so no chain repeats a buffer (a chain is a finite list, and a chain
without repetition is an acyclic one) and every buffer is on exactly one chain. Right after
`binit` the chain of bucket 0 holds all `NBUF` buffers, the other chains are empty and
every buffer has `refcnt = 0` and `lastuse = 0`. -/
theorem chains_hold_each_buffer_once :
    (∀ s, ReachableAny s →
      s.bucket_head.flatten.Perm (List.range s.NBUF) ∧
      (∀ i, (s.chain i).Nodup) ∧
      (∀ b, b < s.NBUF → ∃ i, i < s.BUCKETSZ ∧ b ∈ s.chain i ∧ ∀ j, b ∈ s.chain j → j = i) ∧
      (∀ i b, b ∈ s.chain i → b < s.NBUF)) ∧
    (∀ (n k B : Nat) (d : Nat → Nat → List Nat), 0 < k →
      (binit (bss n k B d)).NBUF = n ∧ (binit (bss n k B d)).BUCKETSZ = k ∧
      (binit (bss n k B d)).chain 0 = (List.range n).reverse ∧
      (∀ b, b < n → b ∈ (binit (bss n k B d)).chain 0) ∧
      (∀ i, i ≠ 0 → (binit (bss n k B d)).chain i = []) ∧
      (∀ b, b < n → ((binit (bss n k B d)).at b).refcnt = 0 ∧
        ((binit (bss n k B d)).at b).lastuse = 0)) := by
  constructor
  · intro s hs
    have h := hs.linked
    refine ⟨?_, h.nodup, ?_, fun i b hb => (h.hashed i b hb).1⟩
    · rw [List.perm_ext_iff_of_nodup h.nodup_flatten (List.nodup_range _)]
      intro b
      rw [h.mem_flatten_iff, List.mem_range]
    · intro b hb
      have hc := h.cover b hb
      exact ⟨s.home b, lt_BUCKETSZ_of_mem_chain hc, hc, fun j hj => ((h.hashed j b hj).2).symm⟩
  · intro n k B d hk
    refine ⟨binit_NBUF n k B d hk, binit_BUCKETSZ n k B d hk, ?_, ?_, ?_, ?_⟩
    · rw [binit_chain n k B d hk]; rfl
    · intro b hb
      rw [binit_chain n k B d hk]
      simpa using hb
    · intro i hi
      rw [binit_chain n k B d hk, if_neg hi]
    · intro b hb
      rw [binit_at n k B d hk b hb]
      exact ⟨rfl, rfl⟩

/-- Witness for C15: after `bread(0, 1)` on a fresh cache buffer 3 has moved from bucket 0 to
bucket 1 and the chains still hold the four buffers once each. -/
theorem chains_hold_each_buffer_once_witness :
    (stateOf fresh42 (bread fresh42 7 0 1)).bucket_head = [[2, 1, 0], [3]] ∧
    (stateOf fresh42 (bread fresh42 7 0 1)).bucket_head.flatten.Perm
      (List.range (stateOf fresh42 (bread fresh42 7 0 1)).NBUF) :=
  ⟨by decide,
    (chains_hold_each_buffer_once.1 _
      (ReachableAny.bread (ReachableAny.init 4 2 0 _ (by decide))
        (show bread fresh42 7 0 1 = .ok (3, stateOf fresh42 (bread fresh42 7 0 1)) from rfl))).1⟩

/-! ## C17: every buffer is on the chain of the bucket of its key -/

/-- C17. In every state reachable from `binit` (where every buffer has `dev = 0` and
`blockno = 0`), every buffer `b` is on the chain of the bucket
`BCACHE_HASH(b.dev, b.blockno)` and on no other chain, and with 13 buckets this index is
`(((dev << 27) | blockno) mod 2^32) mod 13`. Hence the bucket that `brelse`, `bpin` and
`bunpin` compute from the key of `b` is the one whose chain holds `b`, and the lookup of
`bget` in the bucket of a key finds a buffer with the key whenever some buffer of the
cache carries it. -/
theorem buffer_on_chain_of_its_hash :
    (∀ s, ReachableAny s →
      (∀ b, b < s.NBUF →
        b ∈ s.chain (BCACHE_HASH s.BUCKETSZ (s.at b).dev (s.at b).blockno) ∧
        ∀ i, b ∈ s.chain i → i = BCACHE_HASH s.BUCKETSZ (s.at b).dev (s.at b).blockno) ∧
      (s.BUCKETSZ = 13 → ∀ dev blockno,
        BCACHE_HASH s.BUCKETSZ dev blockno = (((dev <<< 27) ||| blockno) % 2 ^ 32) % 13) ∧
      (∀ dev blockno b, b < s.NBUF → (s.at b).dev = dev → (s.at b).blockno = blockno →
        ∃ c, findCached s (BCACHE_HASH s.BUCKETSZ dev blockno) dev blockno = some c ∧
          (s.at c).dev = dev ∧ (s.at c).blockno = blockno)) ∧
    (∀ (n k B : Nat) (d : Nat → Nat → List Nat), 0 < k → ∀ b, b < n →
      ((binit (bss n k B d)).at b).dev = 0 ∧ ((binit (bss n k B d)).at b).blockno = 0) := by
  constructor
  · intro s hs
    have h := hs.linked
    refine ⟨?_, ?_, ?_⟩
    · intro b hb
      exact ⟨h.cover b hb, fun i hi => ((h.hashed i b hi).2).symm⟩
    · intro h13 dev blockno
      rw [h13]
      rfl
    · intro dev blockno b hb hd hbk
      cases hf : findCached s (BCACHE_HASH s.BUCKETSZ dev blockno) dev blockno with
      | none =>
        exfalso
        have hc := h.cover b hb
        have : s.home b = BCACHE_HASH s.BUCKETSZ dev blockno := by
          unfold BCache.home; rw [hd, hbk]
        rw [this] at hc
        exact findCached_none.mp hf b hc ⟨hd, hbk⟩
      | some c =>
        obtain ⟨_, hcd, hcb⟩ := findCached_some hf
        exact ⟨c, rfl, hcd, hcb⟩
  · intro n k B d hk b hb
    rw [binit_at n k B d hk b hb]
    exact ⟨rfl, rfl⟩

/-- Witness for C17: after `bread(0, 1)` on a fresh cache with 2 buckets, buffer 3 carries the
key `(0, 1)` and is on the chain of bucket 1. -/
theorem buffer_on_chain_of_its_hash_witness :
    BCACHE_HASH 2 0 1 = 1 ∧
    3 ∈ (stateOf fresh42 (bread fresh42 7 0 1)).chain
      (BCACHE_HASH (stateOf fresh42 (bread fresh42 7 0 1)).BUCKETSZ
        ((stateOf fresh42 (bread fresh42 7 0 1)).at 3).dev
        ((stateOf fresh42 (bread fresh42 7 0 1)).at 3).blockno) :=
  ⟨by decide,
    ((buffer_on_chain_of_its_hash.1 _
      (ReachableAny.bread (ReachableAny.init 4 2 0 _ (by decide))
        (show bread fresh42 7 0 1 = .ok (3, stateOf fresh42 (bread fresh42 7 0 1)) from rfl))).1
      3 (by decide)).1⟩

end Bio

namespace Bio

/-! ## C18: what `lastuse` records -/

theorem bread_lastuse {s s2 : BCache} {pid dev blockno b : Nat}
    (hr : bread s pid dev blockno = .ok (b, s2)) (c : Nat) :
    (s2.at c).lastuse = (s.at c).lastuse := by
  obtain ⟨s1, hg, rfl⟩ := bread_ok hr
  have h1 : (s1.at c).lastuse = (s.at c).lastuse := by
    rcases bget_cases s pid dev blockno with ⟨c2, _, he⟩ | ⟨_, lru, lru_idx, _, he⟩ | ⟨_, _, he⟩
    · rw [he] at hg
      simp only [Except.ok.injEq, Prod.mk.injEq] at hg
      obtain ⟨rfl, rfl⟩ := hg
      rw [bgetHit_at]
      split <;> rename_i hc
      · rw [hc.1]
      · rfl
    · rw [he] at hg
      simp only [Except.ok.injEq, Prod.mk.injEq] at hg
      obtain ⟨rfl, rfl⟩ := hg
      rw [recycle_at]
      split <;> rename_i hc
      · rw [hc.1]
      · rfl
    · rw [he] at hg; cases hg
  rw [breadTail_at]
  split <;> rename_i hc
  · rw [← h1, hc.1]
  · exact h1

/-- One call of a history keeps `lastuse` equal to the record of the releases. -/
theorem Step.keeps_release {s t : BCache} {ticks : Nat} {f : Nat → Nat} (c : Step)
    (hinv : ∀ b, (s.at b).lastuse = f b) (ha : c.apply s ticks = some t) :
    ∀ b, (t.at b).lastuse = c.releaseTick s ticks f b := by
  intro b
  cases c with
  | bread pid dev blockno =>
    simp only [Step.apply] at ha
    cases hr : Bio.bread s pid dev blockno with
    | error e => rw [hr] at ha; cases ha
    | ok r =>
      obtain ⟨b2, s2⟩ := r
      rw [hr] at ha
      simp only [Option.some.injEq] at ha
      subst ha
      rw [bread_lastuse hr b]
      exact hinv b
  | brelse pid b2 =>
    simp only [Step.apply] at ha
    split at ha
    · rename_i hpos
      cases hr : Bio.brelse s pid b2 ticks with
      | error e => rw [hr] at ha; cases ha
      | ok t2 =>
        rw [hr] at ha
        simp only [Option.some.injEq] at ha
        subst ha
        obtain ⟨_, _, _, _, _, _, hat, hne⟩ := brelse_ok hr
        simp only [Step.releaseTick]
        by_cases e : b = b2
        · subst e
          rw [hat]
          simp only
          by_cases h1 : (s.at b).refcnt = 1
          · rw [if_pos (by omega), if_pos ⟨trivial, h1⟩]
          · rw [if_neg (by omega), if_neg (fun x => h1 x.2)]
            exact hinv b
        · rw [hne b e, if_neg (fun x => e x.1)]
          exact hinv b
    · cases ha
  | bpin b2 =>
    simp only [Step.apply] at ha
    split at ha
    · simp only [Option.some.injEq] at ha
      subst ha
      simp only [Step.releaseTick]
      rw [← hinv b]
      unfold Bio.bpin
      rw [at_setBuf]
      split <;> rename_i hc
      · rw [hc.1]
      · rfl
    · cases ha
  | bunpin b2 =>
    simp only [Step.apply] at ha
    split at ha
    · simp only [Option.some.injEq] at ha
      subst ha
      simp only [Step.releaseTick]
      rw [← hinv b]
      unfold Bio.bunpin
      rw [at_setBuf]
      split <;> rename_i hc
      · rw [hc.1]
      · rfl
    · cases ha

theorem Hist.run_release :
    ∀ (calls : List (Nat × Step)) (h g : Hist), (∀ b, (h.s.at b).lastuse = h.release b) →
      Hist.run h calls = some g → ∀ b, (g.s.at b).lastuse = g.release b
  | [], h, g, hinv, hrun => by
    simp only [Hist.run, Option.some.injEq] at hrun
    subst hrun
    exact hinv
  | (ticks, c) :: rest, h, g, hinv, hrun => by
    rw [Hist.run] at hrun
    cases ha : c.apply h.s ticks with
    | none => rw [ha] at hrun; cases hrun
    | some t =>
      rw [ha] at hrun
      exact Hist.run_release rest _ g (c.keeps_release hinv ha) hrun

/-- C18, as amended. In every state reached from `binit` by a history of `bread`, `brelse`,
`bpin` and `bunpin` calls (the last three on buffers with `refcnt > 0`), every buffer, and
so every buffer whose `refcnt` is 0, has `lastuse` equal to the tick at the moment a
`brelse` most recently dropped its `refcnt` to 0, or 0 if no `brelse` has done so. A
`bunpin` that performs the decrement to 0 leaves `lastuse` as it was. -/
theorem lastuse_is_tick_of_last_brelse_drop (n k B : Nat) (d : Nat → Nat → List Nat)
    (hk : 0 < k) (calls : List (Nat × Step)) (g : Hist)
    (hrun : Hist.run (Hist.start (binit (bss n k B d))) calls = some g) :
    (∀ b, (g.s.at b).lastuse = g.release b) ∧
    (∀ b, b < g.s.NBUF → (g.s.at b).refcnt = 0 → (g.s.at b).lastuse = g.release b) := by
  have hinit : ∀ b, ((Hist.start (binit (bss n k B d))).s.at b).lastuse =
      (Hist.start (binit (bss n k B d))).release b := by
    intro b
    simp only [Hist.start]
    by_cases hb : b < n
    · rw [binit_at n k B d hk b hb]; rfl
    · rw [at_eq_default_of_le _ b (by rw [binit_NBUF n k B d hk]; omega)]
      rfl
  have h := Hist.run_release calls _ g hinit hrun
  exact ⟨h, fun b _ _ => h b⟩

/-- Witness for C18 as amended: in the history `pinnedHistory` the `brelse` at tick 3 leaves
`refcnt = 1`, so no `brelse` has dropped buffer 3 to 0 and its `lastuse` is 0. -/
theorem lastuse_is_tick_of_last_brelse_drop_witness :
    (((Hist.run (Hist.start fresh42) pinnedHistory).getD (Hist.start fresh42)).s.at 3).lastuse
      = ((Hist.run (Hist.start fresh42) pinnedHistory).getD (Hist.start fresh42)).release 3 :=
  (lastuse_is_tick_of_last_brelse_drop 4 2 0 (fun _ _ => []) (by decide) pinnedHistory
    ((Hist.run (Hist.start fresh42) pinnedHistory).getD (Hist.start fresh42)) rfl).1 3

/-- C18, counterexample to the claim as stated. In the history `pinnedHistory` (ticks 1, 2, 3,
4) the `refcnt` of buffer 3 drops to 0 at tick 4, by `bunpin`; afterwards buffer 3 has
`refcnt = 0` and `lastuse = 0`, not 4. -/
theorem lastuse_not_tick_of_bunpin_drop :
    (Hist.run (Hist.start fresh42) pinnedHistory).map
      (fun g => ((g.s.at 3).refcnt, g.drop 3, (g.s.at 3).lastuse)) = some (0, 4, 0) := by
  decide

end Bio

namespace Bio

/-! ## C19: the lock discipline of `bget` -/

theorem Locks.step_held (k : Locks) (op : LockOp) (sc : Option (Option Nat × Nat)) :
    (k.step op sc).held = LockStep.after { op := op, held := k.held, scan := sc } := rfl

theorem Locks.step_log (k : Locks) (op : LockOp) (sc : Option (Option Nat × Nat)) :
    (k.step op sc).log = k.log ++ [{ op := op, held := k.held, scan := sc }] := rfl

theorem Locks.step_ok {k : Locks} (h : ∀ e ∈ k.log, e.Disciplined) (op : LockOp)
    (sc : Option (Option Nat × Nat))
    (he : LockStep.Disciplined { op := op, held := k.held, scan := sc }) :
    ∀ e ∈ (k.step op sc).log, e.Disciplined := by
  intro e hmem
  rw [Locks.step_log, List.mem_append, List.mem_singleton] at hmem
  rcases hmem with hmem | rfl
  · exact h e hmem
  · exact he

theorem ok_scan_acquire (lru_idx : Option Nat) (i : Nat) (h : ∀ j, lru_idx = some j → j < i) :
    LockStep.Disciplined
      { op := .acquire (.bucket i), held := heldIn lru_idx, scan := some (lru_idx, i) } := by
  cases lru_idx with
  | none =>
    constructor <;> simp [LockStep.after, heldIn, Lock.isBucket]
  | some j =>
    have hj := h j rfl
    constructor <;> simp [LockStep.after, heldIn, Lock.isBucket]
    omega

theorem ok_scan_release_scanned (lru_idx : Option Nat) (i : Nat)
    (h : ∀ j, lru_idx = some j → j < i) :
    LockStep.Disciplined
      { op := .release (.bucket i), held := .bucket i :: heldIn lru_idx,
        scan := some (lru_idx, i) } := by
  cases lru_idx with
  | none =>
    constructor <;> simp [LockStep.after, heldIn, Lock.isBucket]
  | some j =>
    have hj := h j rfl
    constructor <;> simp [LockStep.after, heldIn, Lock.isBucket]

theorem ok_scan_release_candidate (j i : Nat) (h : j < i) :
    LockStep.Disciplined
      { op := .release (.bucket j), held := [.bucket i, .bucket j, .global],
        scan := some (some j, i) } := by
  have hne : ¬ i = j := by omega
  constructor <;> simp [LockStep.after, Lock.isBucket, hne]
  intro j2 hj2
  rcases hj2 with e | e
  · rcases e with e | e
    · exact Or.inl e
    · exact Or.inr e.symm
  · exact Or.inl e

/-- The eviction scan with its locking operations: it computes what `scanAll` computes, it
ends holding `bcache.lock` and the lock of the bucket `lru_idx`, and every one of its
locking operations keeps the discipline. -/
theorem scanAllL_spec (s : BCache) :
    ∀ (L : List (List Nat)) (i : Nat) (lru lru_idx : Option Nat) (k : Locks),
      k.held = heldIn lru_idx → (∀ j, lru_idx = some j → j < i) →
      (∀ e ∈ k.log, e.Disciplined) →
      (scanAllL s L i lru lru_idx k).1 = scanAll s L i lru lru_idx ∧
      (scanAllL s L i lru lru_idx k).2.held = heldIn (scanAll s L i lru lru_idx).2 ∧
      (∀ e ∈ (scanAllL s L i lru lru_idx k).2.log, e.Disciplined)
  | [], i, lru, lru_idx, k, hk, _, hok => ⟨rfl, hk, hok⟩
  | chain :: rest, i, lru, lru_idx, k, hk, hlt, hok => by
    unfold scanAllL scanAll
    rcases hsb : scanBucket s chain lru false with ⟨lru1, found_new⟩
    simp only
    have hacq := Locks.step_ok hok (.acquire (.bucket i)) (some (lru_idx, i))
      (by rw [hk]; exact ok_scan_acquire lru_idx i hlt)
    have hheld1 : (k.step (.acquire (.bucket i)) (some (lru_idx, i))).held =
        .bucket i :: heldIn lru_idx := by
      rw [Locks.step_held, hk]; rfl
    cases found_new with
    | true =>
      simp only [if_true]
      cases lru_idx with
      | none =>
        simp only
        exact scanAllL_spec s rest (i + 1) lru1 (some i) _ hheld1
          (fun j hj => by cases hj; omega) hacq
      | some j =>
        simp only
        have hj := hlt j rfl
        apply scanAllL_spec s rest (i + 1) lru1 (some i) _ _ (fun j2 hj2 => by cases hj2; omega)
        · apply Locks.step_ok hacq
          rw [hheld1]
          exact ok_scan_release_candidate j i hj
        · rw [Locks.step_held, hheld1]
          have hne : ¬ i = j := by omega
          simp [LockStep.after, heldIn, hne]
    | false =>
      simp only [Bool.false_eq_true, if_false]
      apply scanAllL_spec s rest (i + 1) lru1 lru_idx _ _ (fun j hj => by have := hlt j hj; omega)
      · apply Locks.step_ok hacq
        rw [hheld1]
        exact ok_scan_release_scanned lru_idx i hlt
      · rw [Locks.step_held, hheld1]
        simp [LockStep.after]

end Bio

namespace Bio

theorem ok_acquire (l : Lock) (held : List Lock) (h : l ∉ held)
    (hg : l = .global → ∀ j, Lock.bucket j ∉ held) :
    LockStep.Disciplined { op := .acquire l, held := held, scan := none } := by
  constructor <;> simp
  · exact h
  · intro e
    exact hg e

theorem ok_release (l : Lock) (held : List Lock) (h : l ∈ held) :
    LockStep.Disciplined { op := .release l, held := held, scan := none } := by
  constructor <;> simp
  exact h

theorem ok_sleep (b : Nat) :
    LockStep.Disciplined { op := .sleep b, held := [], scan := none } := by
  constructor <;> simp

/-- The locking operations of `bget` up to the eviction scan, when both lookups miss. -/
theorem bgetL_prefix_ok (idx : Nat) :
    (((((Locks.step { held := [], log := [] } (.acquire (.bucket idx)) none).step
      (.release (.bucket idx)) none).step (.acquire .global) none).step
      (.acquire (.bucket idx)) none).step (.release (.bucket idx)) none).held = heldIn none ∧
    ∀ e ∈ (((((Locks.step { held := [], log := [] } (.acquire (.bucket idx)) none).step
      (.release (.bucket idx)) none).step (.acquire .global) none).step
      (.acquire (.bucket idx)) none).step (.release (.bucket idx)) none).log,
      e.Disciplined := by
  constructor
  · simp [Locks.step, LockStep.after, heldIn]
  · apply Locks.step_ok
    · apply Locks.step_ok
      · apply Locks.step_ok
        · apply Locks.step_ok
          · apply Locks.step_ok
            · intro e he
              simp at he
            · exact ok_acquire _ _ (by simp) (by simp)
          · exact ok_release _ _ (by simp [Locks.step, LockStep.after])
        · exact ok_acquire _ _ (by simp [Locks.step, LockStep.after])
            (by simp [Locks.step, LockStep.after])
      · exact ok_acquire _ _ (by simp [Locks.step, LockStep.after])
          (by simp)
    · exact ok_release _ _ (by simp [Locks.step, LockStep.after])

/-- The locking operations of `bget` after the eviction scan has found the victim `lru` in
the bucket `li`. -/
theorem bgetL_suffix_ok (k4 : Locks) (li idx lru : Nat) (hk : k4.held = heldIn (some li))
    (hok : ∀ e ∈ k4.log, e.Disciplined) :
    ((((if some li ≠ some idx then
        (k4.step (.release (.bucket li)) none).step (.acquire (.bucket idx)) none
      else k4).step (.release (.bucket idx)) none).step (.release .global) none).step
        (.sleep lru) none).held = [] ∧
    ((((if some li ≠ some idx then
        (k4.step (.release (.bucket li)) none).step (.acquire (.bucket idx)) none
      else k4).step (.release (.bucket idx)) none).step (.release .global) none).step
        (.sleep lru) none).log.getLast? = some { op := .sleep lru, held := [], scan := none } ∧
    ∀ e ∈ ((((if some li ≠ some idx then
        (k4.step (.release (.bucket li)) none).step (.acquire (.bucket idx)) none
      else k4).step (.release (.bucket idx)) none).step (.release .global) none).step
        (.sleep lru) none).log, e.Disciplined := by
  have h5 : (if some li ≠ some idx then
        (k4.step (.release (.bucket li)) none).step (.acquire (.bucket idx)) none
      else k4).held = [.bucket idx, .global] ∧
      ∀ e ∈ (if some li ≠ some idx then
        (k4.step (.release (.bucket li)) none).step (.acquire (.bucket idx)) none
      else k4).log, e.Disciplined := by
    by_cases hne : some li ≠ some idx
    · rw [if_pos hne]
      have h1 : (k4.step (.release (.bucket li)) none).held = [.global] := by
        rw [Locks.step_held, hk]
        simp [LockStep.after, heldIn]
      constructor
      · rw [Locks.step_held, h1]
        rfl
      · apply Locks.step_ok
        · apply Locks.step_ok hok
          rw [hk]
          exact ok_release _ _ (by simp [heldIn])
        · rw [h1]
          exact ok_acquire _ _ (by simp) (by simp)
    · rw [if_neg hne]
      have : li = idx := by
        by_contra hx
        exact hne (by simpa using hx)
      subst this
      exact ⟨hk, hok⟩
  generalize (if some li ≠ some idx then
        (k4.step (.release (.bucket li)) none).step (.acquire (.bucket idx)) none
      else k4) = k5 at h5 ⊢
  obtain ⟨hk5, hok5⟩ := h5
  have h6 : (k5.step (.release (.bucket idx)) none).held = [.global] := by
    rw [Locks.step_held, hk5]
    simp [LockStep.after]
  have h7 : ((k5.step (.release (.bucket idx)) none).step (.release .global) none).held = [] := by
    rw [Locks.step_held, h6]
    simp [LockStep.after]
  refine ⟨?_, ?_, ?_⟩
  · rw [Locks.step_held, h7]
    rfl
  · rw [Locks.step_log, h7]
    simp
  · apply Locks.step_ok
    · apply Locks.step_ok
      · apply Locks.step_ok hok5
        rw [hk5]
        exact ok_release _ _ (by simp)
      · rw [h6]
        exact ok_release _ _ (by simp)
    · rw [h7]
      exact ok_sleep lru

end Bio

namespace Bio

theorem bgetL_hit {s : BCache} {pid dev blockno b : Nat}
    (hf : findCached s (BCACHE_HASH s.BUCKETSZ dev blockno) dev blockno = some b) :
    bgetL s pid dev blockno =
      (.ok (b, bgetHit s pid b),
        { held := [],
          log := [{ op := .acquire (.bucket (BCACHE_HASH s.BUCKETSZ dev blockno)), held := [],
                    scan := none },
                  { op := .release (.bucket (BCACHE_HASH s.BUCKETSZ dev blockno)),
                    held := [.bucket (BCACHE_HASH s.BUCKETSZ dev blockno)], scan := none },
                  { op := .sleep b, held := [], scan := none }] }) := by
  unfold bgetL
  simp only [hf]
  simp [Locks.step, LockStep.after]

theorem bgetL_miss {s : BCache} {pid dev blockno : Nat}
    (hf : findCached s (BCACHE_HASH s.BUCKETSZ dev blockno) dev blockno = none) :
    bgetL s pid dev blockno =
      match scanAllL s s.bucket_head 0 none none
        (((((Locks.step { held := [], log := [] }
          (.acquire (.bucket (BCACHE_HASH s.BUCKETSZ dev blockno))) none).step
          (.release (.bucket (BCACHE_HASH s.BUCKETSZ dev blockno))) none).step
          (.acquire .global) none).step
          (.acquire (.bucket (BCACHE_HASH s.BUCKETSZ dev blockno))) none).step
          (.release (.bucket (BCACHE_HASH s.BUCKETSZ dev blockno))) none) with
      | ((none, _), k4) => (.error "bget: no buffers", k4)
      | ((some lru, lru_idx), k4) =>
        (.ok (lru, recycle s pid dev blockno (BCACHE_HASH s.BUCKETSZ dev blockno) lru lru_idx),
          ((((if lru_idx ≠ some (BCACHE_HASH s.BUCKETSZ dev blockno) then
              (k4.step (.release (.bucket (lru_idx.getD 0))) none).step
                (.acquire (.bucket (BCACHE_HASH s.BUCKETSZ dev blockno))) none
            else k4).step (.release (.bucket (BCACHE_HASH s.BUCKETSZ dev blockno))) none).step
            (.release .global) none).step (.sleep lru) none)) := by
  unfold bgetL
  simp only [hf]

/-- C19. Over the embedding `bgetL` of `bget` that tracks the spin locks of the caller, which
computes the result of `bget`: every release is of a lock that is held and every acquire of
a lock that is not held; at every locking operation inside the loop of the eviction scan
the bucket locks held, before and after it, are among the locks of the bucket `i` being
scanned and of the bucket `lru_idx` of the candidate, and are at most two; `bcache.lock` is
acquired only while no bucket lock is held, and when the first lookup hits it is neither
acquired nor released nor held; and whenever `bget` returns a buffer, the last operation
is the `acquiresleep` on that buffer, made while no spin lock is held, no spin lock is held
at the return, and (in a reachable state) the sleep lock of the buffer is held by the
caller. -/
theorem bget_lock_discipline (s : BCache) (pid dev blockno : Nat) :
    (bgetL s pid dev blockno).1 = bget s pid dev blockno ∧
    (∀ e ∈ (bgetL s pid dev blockno).2.log,
      (∀ l, e.op = .acquire l → l ∉ e.held) ∧
      (∀ l, e.op = .release l → l ∈ e.held) ∧
      (e.op = .acquire .global → ∀ j, Lock.bucket j ∉ e.held) ∧
      (∀ lru_idx i, e.scan = some (lru_idx, i) →
        (∀ j, Lock.bucket j ∈ e.held ∨ Lock.bucket j ∈ e.after → j = i ∨ lru_idx = some j) ∧
        (e.held.filter Lock.isBucket).length ≤ 2 ∧
        (e.after.filter Lock.isBucket).length ≤ 2) ∧
      (∀ b, e.op = .sleep b → e.held = [])) ∧
    (∀ b, findCached s (BCACHE_HASH s.BUCKETSZ dev blockno) dev blockno = some b →
      ∀ e ∈ (bgetL s pid dev blockno).2.log,
        e.op ≠ .acquire .global ∧ e.op ≠ .release .global ∧ Lock.global ∉ e.held) ∧
    (∀ b s1, bget s pid dev blockno = .ok (b, s1) →
      (bgetL s pid dev blockno).2.held = [] ∧
      (bgetL s pid dev blockno).2.log.getLast? =
        some { op := .sleep b, held := [], scan := none } ∧
      (ReachableAny s → (s1.at b).lock = some pid)) := by
  rcases bget_cases s pid dev blockno with ⟨b, hf, he⟩ | ⟨hm, lru, lru_idx, hsc, he⟩ |
    ⟨hm, hsc, he⟩
  · -- the first lookup hits
    rw [bgetL_hit hf, he]
    refine ⟨rfl, ?_, ?_, ?_⟩
    · intro e hmem
      simp only [List.mem_cons, List.mem_singleton, List.not_mem_nil, or_false] at hmem
      have hd : e.Disciplined := by
        rcases hmem with rfl | rfl | rfl
        · exact ok_acquire _ _ (by simp) (by simp)
        · exact ok_release _ _ (by simp)
        · exact ok_sleep b
      exact ⟨hd.acquire_free, hd.release_held, hd.global_alone, hd.scan_two, hd.sleep_free⟩
    · intro b2 _ e hmem
      simp only [List.mem_cons, List.mem_singleton, List.not_mem_nil, or_false] at hmem
      rcases hmem with rfl | rfl | rfl <;> simp
    · intro b2 s1 hok
      simp only [Except.ok.injEq, Prod.mk.injEq] at hok
      obtain ⟨rfl, rfl⟩ := hok
      refine ⟨rfl, by simp, ?_⟩
      intro hr
      have hb := (hr.linked.hashed _ b (findCached_some hf).1).1
      rw [bgetHit_at]
      simp [hb]
  · -- both lookups miss and the scan finds a victim
    obtain ⟨hk3, hok3⟩ := bgetL_prefix_ok (BCACHE_HASH s.BUCKETSZ dev blockno)
    obtain ⟨h1, h2, h3⟩ := scanAllL_spec s s.bucket_head 0 none none _ hk3
      (fun j hj => by cases hj) hok3
    obtain ⟨li, rfl, hl, _⟩ := scanAll_some hsc
    rw [hsc] at h1 h2
    have hL := @bgetL_miss s pid dev blockno hm
    generalize scanAllL s s.bucket_head 0 none none _ = r at h1 h2 h3 hL
    obtain ⟨⟨r1, r2⟩, k4⟩ := r
    simp only [Prod.mk.injEq] at h1
    obtain ⟨rfl, rfl⟩ := h1
    simp only at hL h2 h3
    obtain ⟨hs1, hs2, hs3⟩ := bgetL_suffix_ok k4 li (BCACHE_HASH s.BUCKETSZ dev blockno) lru
      h2 h3
    simp only [Option.getD_some] at hL
    rw [hL, he]
    refine ⟨rfl, (fun e he2 => ⟨(hs3 e he2).acquire_free, (hs3 e he2).release_held, (hs3 e he2).global_alone, (hs3 e he2).scan_two, (hs3 e he2).sleep_free⟩), ?_, ?_⟩
    · intro b2 hf
      rw [hm] at hf
      cases hf
    · intro b2 s1 hok
      simp only [Except.ok.injEq, Prod.mk.injEq] at hok
      obtain ⟨rfl, rfl⟩ := hok
      refine ⟨hs1, hs2, ?_⟩
      intro hr
      have hb := (hr.linked.hashed _ lru hl).1
      rw [recycle_at]
      simp [hb]
  · -- both lookups miss and no buffer is free
    obtain ⟨hk3, hok3⟩ := bgetL_prefix_ok (BCACHE_HASH s.BUCKETSZ dev blockno)
    obtain ⟨h1, _, h3⟩ := scanAllL_spec s s.bucket_head 0 none none _ hk3
      (fun j hj => by cases hj) hok3
    have hL := @bgetL_miss s pid dev blockno hm
    generalize scanAllL s s.bucket_head 0 none none _ = r at h1 h3 hL
    obtain ⟨⟨r1, r2⟩, k4⟩ := r
    simp only at h1 h3 hL
    have hr1 : r1 = none := by
      have := congrArg Prod.fst h1
      simp only at this
      rw [this]; exact hsc
    subst hr1
    simp only at hL
    rw [hL, he]
    refine ⟨rfl, (fun e he2 => ⟨(h3 e he2).acquire_free, (h3 e he2).release_held, (h3 e he2).global_alone, (h3 e he2).scan_two, (h3 e he2).sleep_free⟩), ?_, ?_⟩
    · intro b2 hf
      rw [hm] at hf
      cases hf
    · intro b2 s1 hok
      cases hok

/-- Witness for C19: the first `bget(0, 1)` on a fresh cache misses twice, scans both buckets and
returns buffer 3 after 13 locking operations, holding no spin lock. -/
theorem bget_lock_discipline_witness :
    (bgetL fresh42 7 0 1).2.held = [] ∧ (bgetL fresh42 7 0 1).2.log.length = 13 ∧
    (bgetL fresh42 7 0 1).2.log.map (fun e => e.scan) =
      [none, none, none, none, none, some (none, 0), some (some 0, 1), some (some 0, 1),
        none, none, none, none, none] :=
  ⟨((bget_lock_discipline fresh42 7 0 1).2.2.2 3 (stateOf fresh42 (bget fresh42 7 0 1)) rfl).1,
    by decide, by decide⟩

end Bio

namespace Kalloc

/-! ## The locking of the allocator -/

theorem CpuStep.disc_push_off (h : List Nat) (n : Nat) :
    CpuStep.Disciplined { op := .push_off, held := h, noff := n } := by
  constructor <;> simp

theorem CpuStep.disc_cpuid (h : List Nat) (n : Nat) (hn : 0 < n) :
    CpuStep.Disciplined { op := .cpuid, held := h, noff := n } := by
  constructor <;> simp [hn]

theorem CpuStep.disc_acquire (i n : Nat) (hn : 0 < n) :
    CpuStep.Disciplined { op := .acquire i, held := [], noff := n } := by
  constructor <;> simp [hn]

theorem CpuStep.disc_release (i n : Nat) (h : List Nat) (hi : i ∈ h) (hn : 0 < n) :
    CpuStep.Disciplined { op := .release i, held := h, noff := n } := by
  constructor <;> simp [hn]
  exact hi

theorem CpuStep.disc_pop_off (h : List Nat) (n : Nat) (hn : 0 < n) :
    CpuStep.Disciplined { op := .pop_off, held := h, noff := n } := by
  constructor <;> simp [hn]

/-- One round `acquire(&kmem[i].lock); ...; release(&kmem[i].lock)` by a caller that holds no
lock inside a `push_off()`. -/
theorem Cpu.round (c : Cpu) (i : Nat) (hh : c.held = []) (hn : 0 < c.noff)
    (hd : ∀ e ∈ c.log, e.Disciplined) :
    ((c.step (.acquire i)).step (.release i)).held = [] ∧
    ((c.step (.acquire i)).step (.release i)).noff = c.noff ∧
    ((c.step (.acquire i)).step (.release i)).log =
      c.log ++ [{ op := .acquire i, held := [], noff := c.noff },
        { op := .release i, held := [i], noff := c.noff }] ∧
    (∀ e ∈ ((c.step (.acquire i)).step (.release i)).log, e.Disciplined) := by
  refine ⟨by simp [Cpu.step, hh], rfl, by simp [Cpu.step, hh], ?_⟩
  intro e he
  simp only [Cpu.step, hh, List.mem_append, List.mem_singleton] at he
  rcases he with (he | rfl) | rfl
  · exact hd e he
  · exact CpuStep.disc_acquire i _ hn
  · exact CpuStep.disc_release i _ _ (by simp) hn

/-- One iteration of the recorded outer loop. -/
theorem stealForL_succ (id n i : Nat) (fl : List (List Nat)) (steal : List Nat) (sp : Int)
    (c : Cpu) :
    stealForL id (n + 1) i fl steal sp c =
      if i = id then stealForL id n (i + 1) fl steal sp c
      else if (stealWhile (fl.getD i []) steal sp).2.2 = 0 then
        ((fl.set i (stealWhile (fl.getD i []) steal sp).1,
          (stealWhile (fl.getD i []) steal sp).2.1, (stealWhile (fl.getD i []) steal sp).2.2),
          (c.step (.acquire i)).step (.release i))
      else
        stealForL id n (i + 1) (fl.set i (stealWhile (fl.getD i []) steal sp).1)
          (stealWhile (fl.getD i []) steal sp).2.1 (stealWhile (fl.getD i []) steal sp).2.2
          ((c.step (.acquire i)).step (.release i)) := rfl

/-- The recorded loop computes what `stealFor` computes, and each of its locking calls is an
`acquire` or `release` of the lock of another core, made in the discipline. -/
theorem stealForL_spec (id : Nat) : ∀ (n i : Nat) (fl : List (List Nat)) (sf : List Nat)
    (sp : Int) (c : Cpu), c.held = [] → 0 < c.noff → (∀ e ∈ c.log, e.Disciplined) →
    (stealForL id n i fl sf sp c).1 = stealFor id n i fl sf sp ∧
    (stealForL id n i fl sf sp c).2.held = [] ∧
    (stealForL id n i fl sf sp c).2.noff = c.noff ∧
    (∀ e ∈ (stealForL id n i fl sf sp c).2.log, e.Disciplined) ∧
    ∃ l, (stealForL id n i fl sf sp c).2.log = c.log ++ l ∧
      ∀ e ∈ l, ∃ j, j ≠ id ∧ (e.op = .acquire j ∨ e.op = .release j) := by
  intro n
  induction n with
  | zero =>
    intro i fl sf sp c hh hn hd
    exact ⟨rfl, hh, rfl, hd, [], by simp [stealForL], by simp⟩
  | succ n ih =>
    intro i fl sf sp c hh hn hd
    rw [stealForL_succ, stealFor_succ]
    by_cases hi : i = id
    · rw [if_pos hi, if_pos hi]
      exact ih (i + 1) fl sf sp c hh hn hd
    · rw [if_neg hi, if_neg hi]
      obtain ⟨r1, r2, r3, r4⟩ := Cpu.round c i hh hn hd
      have hl : ∀ e ∈ [({ op := .acquire i, held := [], noff := c.noff } : CpuStep),
          { op := .release i, held := [i], noff := c.noff }],
          ∃ j, j ≠ id ∧ (e.op = .acquire j ∨ e.op = .release j) := by
        intro e he
        simp only [List.mem_cons, List.mem_singleton, List.not_mem_nil, or_false] at he
        rcases he with rfl | rfl
        · exact ⟨i, hi, Or.inl rfl⟩
        · exact ⟨i, hi, Or.inr rfl⟩
      by_cases hp : (stealWhile (fl.getD i []) sf sp).2.2 = 0
      · rw [if_pos hp, if_pos hp]
        exact ⟨rfl, r1, r2, r4, _, r3, hl⟩
      · rw [if_neg hp, if_neg hp]
        obtain ⟨q1, q2, q3, q4, l, q5, q6⟩ := ih (i + 1) _ _ _ _ r1 (r2 ▸ hn) r4
        refine ⟨q1, q2, q3.trans r2, q4,
          [({ op := .acquire i, held := [], noff := c.noff } : CpuStep),
            { op := .release i, held := [i], noff := c.noff }] ++ l, ?_, ?_⟩
        · rw [q5, r3, List.append_assoc]
        · intro e he
          rcases List.mem_append.1 he with he | he
          · exact hl e he
          · exact q6 e he

end Kalloc

namespace Kalloc

theorem Cpu.opened_held (id : Nat) : (Cpu.opened id).held = [] := by
  simp [Cpu.opened, Cpu.step, Cpu.entry]

theorem Cpu.opened_noff (id : Nat) : (Cpu.opened id).noff = 1 := rfl

theorem Cpu.opened_log (id : Nat) : (Cpu.opened id).log =
    [{ op := .push_off, held := [], noff := 0 }, { op := .cpuid, held := [], noff := 1 },
      { op := .acquire id, held := [], noff := 1 },
      { op := .release id, held := [id], noff := 1 }] := rfl

theorem Cpu.opened_disc (id : Nat) : ∀ e ∈ (Cpu.opened id).log, e.Disciplined := by
  intro e he
  rw [Cpu.opened_log] at he
  simp only [List.mem_cons, List.mem_singleton, List.not_mem_nil, or_false] at he
  rcases he with rfl | rfl | rfl | rfl
  · exact CpuStep.disc_push_off _ _
  · exact CpuStep.disc_cpuid _ _ (by decide)
  · exact CpuStep.disc_acquire _ _ (by decide)
  · exact CpuStep.disc_release _ _ _ (by simp) (by decide)

/-- Closing `pop_off()` by a caller that holds no lock inside one `push_off()`. -/
theorem Cpu.closed (c : Cpu) (hh : c.held = []) (hn : c.noff = 1)
    (hd : ∀ e ∈ c.log, e.Disciplined) :
    (c.step .pop_off).held = [] ∧ (c.step .pop_off).noff = 0 ∧
    (c.step .pop_off).log = c.log ++ [{ op := .pop_off, held := [], noff := 1 }] ∧
    (∀ e ∈ (c.step .pop_off).log, e.Disciplined) := by
  refine ⟨hh, by simp [Cpu.step, hn], by simp [Cpu.step, hh, hn], ?_⟩
  intro e he
  simp only [Cpu.step, List.mem_append, List.mem_singleton] at he
  rcases he with he | rfl
  · exact hd e he
  · exact CpuStep.disc_pop_off _ _ (by omega)

/-- The fast path of `kallocL`. -/
theorem kallocL_fast (s : Kmem) (id r : Nat) (rest : List Nat)
    (h : s.freelist.getD id [] = r :: rest) :
    kallocL s id = (kalloc s id, (Cpu.opened id).step .pop_off) := by
  unfold kallocL kalloc
  simp only [h]
  rfl

/-- The slow path of `kallocL`. -/
theorem kallocL_slow (s : Kmem) (id : Nat) (h : s.freelist.getD id [] = [])
    (hs : (stealForL id s.NCPU 0 s.freelist [] 64 (Cpu.opened id)).1 =
      stealFor id s.NCPU 0 s.freelist [] 64) :
    kallocL s id = (kalloc s id,
      (((stealForL id s.NCPU 0 s.freelist [] 64 (Cpu.opened id)).2.step (.acquire id)).step
        (.release id)).step .pop_off) := by
  unfold kallocL kalloc
  simp only [h]
  rw [show (((Cpu.entry.step .push_off).step .cpuid).step (.acquire id)).step (.release id) =
    Cpu.opened id from rfl, ← hs]
  generalize stealForL id s.NCPU 0 s.freelist [] 64 (Cpu.opened id) = x
  obtain ⟨⟨fl, sf, sp⟩, c3⟩ := x
  cases sf <;> rfl

end Kalloc

namespace Kalloc

/-- C20. Over the embeddings `kallocL` and `kfreeL`, which compute what `kalloc` and `kfree`
compute and record the calls `push_off`, `cpuid`, `acquire`, `release` and `pop_off` in program
order, each with the set of free-list locks held and the count of open `push_off()` calls
before it: every `acquire` is made while no free-list lock is held, every `release` is of a
held lock, the core id is read and every lock operation is made inside the `push_off()`, and
on return no lock is held and the count is back to zero. The calls of `kalloc` are
`push_off, cpuid, acquire id, release id`, then nothing (fast path) or rounds
`acquire j, release j` on other cores `j` followed by `acquire id, release id` (slow path),
then `pop_off`. The calls of a `kfree` that does not panic are
`push_off, cpuid, acquire id, release id, pop_off`; a `kfree` that panics makes none. -/
theorem allocator_lock_discipline (L : Layout) (s : Kmem) (id pa : Nat) :
    ((kallocL s id).1 = kalloc s id ∧
      (∀ e ∈ (kallocL s id).2.log, e.Disciplined) ∧
      (kallocL s id).2.held = [] ∧ (kallocL s id).2.noff = 0 ∧
      ∃ l, (kallocL s id).2.log =
          [{ op := .push_off, held := [], noff := 0 }, { op := .cpuid, held := [], noff := 1 },
            { op := .acquire id, held := [], noff := 1 },
            { op := .release id, held := [id], noff := 1 }] ++ l ++
          [{ op := .pop_off, held := [], noff := 1 }] ∧
        (l = [] ∨ ∃ m, l = m ++ [{ op := .acquire id, held := [], noff := 1 },
            { op := .release id, held := [id], noff := 1 }] ∧
          ∀ e ∈ m, ∃ j, j ≠ id ∧ (e.op = .acquire j ∨ e.op = .release j))) ∧
    ((kfreeL L s id pa).1 = kfree L s id pa ∧
      (∀ e ∈ (kfreeL L s id pa).2.log, e.Disciplined) ∧
      (kfreeL L s id pa).2.held = [] ∧ (kfreeL L s id pa).2.noff = 0 ∧
      (∀ t, kfree L s id pa = .ok t → (kfreeL L s id pa).2.log =
          [{ op := .push_off, held := [], noff := 0 }, { op := .cpuid, held := [], noff := 1 },
            { op := .acquire id, held := [], noff := 1 },
            { op := .release id, held := [id], noff := 1 },
            { op := .pop_off, held := [], noff := 1 }]) ∧
      (∀ m, kfree L s id pa = .error m → (kfreeL L s id pa).2.log = [])) := by
  constructor
  · cases h : s.freelist.getD id [] with
    | cons r rest =>
      rw [kallocL_fast s id r rest h]
      obtain ⟨c1, c2, c3, c4⟩ := Cpu.closed (Cpu.opened id) (Cpu.opened_held id)
        (Cpu.opened_noff id) (Cpu.opened_disc id)
      refine ⟨rfl, c4, c1, c2, [], ?_, Or.inl rfl⟩
      show ((Cpu.opened id).step .pop_off).log = _
      rw [c3, Cpu.opened_log, List.append_nil]
    | nil =>
      obtain ⟨q1, q2, q3, q4, l, q5, q6⟩ :=
        stealForL_spec id s.NCPU 0 s.freelist [] 64 (Cpu.opened id) (Cpu.opened_held id)
          (by rw [Cpu.opened_noff]; decide) (Cpu.opened_disc id)
      rw [kallocL_slow s id h q1]
      rw [Cpu.opened_noff] at q3
      obtain ⟨r1, r2, r3, r4⟩ := Cpu.round _ id q2 (by omega) q4
      obtain ⟨c1, c2, c3, c4⟩ := Cpu.closed _ r1 (r2.trans q3) r4
      refine ⟨rfl, c4, c1, c2, l ++ [{ op := .acquire id, held := [], noff := 1 },
        { op := .release id, held := [id], noff := 1 }], ?_, Or.inr ⟨l, rfl, q6⟩⟩
      show (Cpu.step _ .pop_off).log = _
      rw [c3, r3, q5, q3, Cpu.opened_log]
      simp
  · by_cases hc : pa % L.PGSIZE ≠ 0 ∨ pa < L.endp ∨ pa ≥ L.PHYSTOP
    · have e1 : kfreeL L s id pa = (.error "kfree", Cpu.entry) := by
        unfold kfreeL; rw [if_pos hc]
      have e2 : kfree L s id pa = .error "kfree" := by
        unfold kfree; rw [if_pos hc]
      rw [e1, e2]
      refine ⟨rfl, ?_, rfl, rfl, ?_, fun _ _ => rfl⟩
      · intro e he
        simp [Cpu.entry] at he
      · intro t ht
        cases ht
    · have e1 : kfreeL L s id pa = (kfree L s id pa, (Cpu.opened id).step .pop_off) := by
        unfold kfreeL kfree; rw [if_neg hc, if_neg hc]; rfl
      obtain ⟨c1, c2, c3, c4⟩ := Cpu.closed (Cpu.opened id) (Cpu.opened_held id)
        (Cpu.opened_noff id) (Cpu.opened_disc id)
      rw [e1]
      refine ⟨rfl, c4, c1, c2, fun _ _ => ?_, ?_⟩
      · show ((Cpu.opened id).step .pop_off).log = _
        rw [c3, Cpu.opened_log]
        rfl
      · intro m hm
        unfold kfree at hm
        rw [if_neg hc] at hm
        cases hm

/-- Witness for C20: on three cores, with core 1 out of pages, `kalloc` on core 1 takes and
releases its own lock, then the lock of core 0, then the lock of core 2, then its own lock
again, all inside one `push_off()`; and a `kfree` of a page on core 1 makes five calls. -/
theorem allocator_lock_discipline_witness :
    (kallocL threeCores 1).2.log.map (fun e => e.op) =
      [.push_off, .cpuid, .acquire 1, .release 1, .acquire 0, .release 0, .acquire 2,
        .release 2, .acquire 1, .release 1, .pop_off] ∧
    (kallocL threeCores 1).2.log.map (fun e => e.held) =
      [[], [], [], [1], [], [0], [], [2], [], [1], []] ∧
    (kallocL threeCores 1).1.1 = some 2264932352 ∧
    (kallocL threeCores 1).2.held = [] ∧ (kallocL threeCores 1).2.noff = 0 ∧
    (kfreeL xv6Layout threeCores 1 2264936448).2.log.length = 5 :=
  ⟨by decide, by decide, by decide,
    (allocator_lock_discipline xv6Layout threeCores 1 2264936448).1.2.2.1,
    (allocator_lock_discipline xv6Layout threeCores 1 2264936448).1.2.2.2.1, by decide⟩

end Kalloc

namespace Kalloc

/-! ## The free lists in memory -/

/-- A chain depends on the links of its own pages only. -/
theorem Chain.congr {next next1 : Nat → Nat} : ∀ {l : List Nat} {p : Nat},
    (∀ q ∈ l, next1 q = next q) → Chain next p l → Chain next1 p l
  | [], _, _, h => h
  | q :: l, p, hq, h => by
    obtain ⟨h1, h2, h3⟩ := h
    refine ⟨h1, h2, ?_⟩
    have e : next1 p = next p := by
      rw [h2]
      exact hq q (List.mem_cons_self _ _)
    rw [e]
    exact Chain.congr (fun x hx => hq x (List.mem_cons_of_mem _ hx)) h3

/-- The null pointer is on no chain. -/
theorem Chain.ne_zero {next : Nat → Nat} : ∀ {l : List Nat} {p : Nat},
    Chain next p l → ∀ q ∈ l, q ≠ 0
  | [], _, _, q, hq => by cases hq
  | x :: l, p, h, q, hq => by
    obtain ⟨h1, h2, h3⟩ := h
    rcases List.mem_cons.1 hq with e | hq
    · rw [e, ← h2]
      exact h1
    · exact Chain.ne_zero h3 q hq

/-- The chain from a pointer is one list only. -/
theorem Chain.unique {next : Nat → Nat} : ∀ {l1 l2 : List Nat} {p : Nat},
    Chain next p l1 → Chain next p l2 → l1 = l2
  | [], [], _, _, _ => rfl
  | [], _ :: _, _, h1, h2 => absurd h1 h2.1
  | _ :: _, [], _, h1, h2 => absurd h2 h1.1
  | x :: l1, y :: l2, p, h1, h2 => by
    have e : x = y := h1.2.1.symm.trans h2.2.1
    rw [e, Chain.unique h1.2.2 h2.2.2]

/-- From a page on a chain, the chain goes on through a list that is no longer. -/
theorem Chain.from_mem {next : Nat → Nat} : ∀ {l : List Nat} {p : Nat},
    Chain next p l → ∀ q ∈ l, ∃ l1, Chain next q l1 ∧ l1.length ≤ l.length
  | [], _, _, q, hq => by cases hq
  | x :: l, p, h, q, hq => by
    rcases List.mem_cons.1 hq with e | hq
    · refine ⟨x :: l, ?_, le_refl _⟩
      rw [e]
      have h2 := h.2.1
      rw [h2] at h
      exact h
    · obtain ⟨l1, c1, c2⟩ := Chain.from_mem h.2.2 q hq
      exact ⟨l1, c1, by simp only [List.length_cons]; omega⟩

/-- A chain that ends with the null pointer visits no page twice. -/
theorem Chain.nodup {next : Nat → Nat} : ∀ {l : List Nat} {p : Nat},
    Chain next p l → l.Nodup
  | [], _, _ => List.nodup_nil
  | x :: l, p, h => by
    refine List.nodup_cons.2 ⟨fun hx => ?_, Chain.nodup h.2.2⟩
    obtain ⟨l1, c1, c2⟩ := Chain.from_mem h.2.2 x hx
    have h2 := h.2.1
    rw [h2] at h
    have := Chain.unique c1 h
    rw [this] at c2
    simp only [List.length_cons] at c2
    omega

theorem getD_set_self_nat (hd : List Nat) (i v : Nat) (h : i < hd.length) :
    (hd.set i v).getD i 0 = v := by
  rw [List.getD_eq_getElem?_getD, List.getElem?_set]
  simp [h]

theorem getD_set_ne_nat (hd : List Nat) (i j v : Nat) (h : i ≠ j) :
    (hd.set i v).getD j 0 = hd.getD j 0 := by
  rw [List.getD_eq_getElem?_getD, List.getD_eq_getElem?_getD, List.getElem?_set]
  simp [h]

theorem set_getD_self_nat (hd : List Nat) (i : Nat) : hd.set i (hd.getD i 0) = hd := by
  apply List.ext_getElem?
  intro j
  rw [List.getElem?_set]
  by_cases h : i = j
  · subst h
    by_cases hi : i < hd.length
    · simp [hi, List.getD_eq_getElem?_getD]
    · simp [hi]
      omega
  · simp [h]

/-- The list of the core `i` is a member of the lists. -/
theorem getD_mem_of_lt (fl : List (List Nat)) (i : Nat) (h : i < fl.length) :
    fl.getD i [] ∈ fl := by
  rw [List.getD_eq_getElem _ _ h]
  exact List.getElem_mem _

/-- The lists of two different cores, in lists that are pairwise disjoint. -/
theorem disjoint_of_pairwise (fl : List (List Nat)) (hp : fl.Pairwise List.Disjoint)
    (i j : Nat) (hi : i < fl.length) (hj : j < fl.length) (hne : i ≠ j) :
    List.Disjoint (fl.getD i []) (fl.getD j []) := by
  rw [List.getD_eq_getElem _ _ hi, List.getD_eq_getElem _ _ hj]
  rw [List.pairwise_iff_getElem] at hp
  rcases Nat.lt_or_gt_of_ne hne with h | h
  · exact hp i j hi hj h
  · exact (hp j i hj hi h).symm

/-- What `kfree` writes when the check passes. -/
theorem Mem.kfree_ok (L : Layout) (m : Mem) (id pa : Nat)
    (h : ¬ (pa % L.PGSIZE ≠ 0 ∨ pa < L.endp ∨ pa ≥ L.PHYSTOP)) :
    Mem.kfree L m id pa = .ok
      { head := m.head.set id pa
        next := fun p => if p = pa then m.head.getD id 0 else (m.memset pa 1).next p
        fill := fun p => if p = pa then 1 else m.fill p } := by
  unfold Mem.kfree
  rw [if_neg h]
  rfl

/-- The fast path of `kalloc` on the memory. -/
theorem Mem.kalloc_fast (m : Mem) (id : Nat) (h : m.head.getD id 0 ≠ 0) :
    Mem.kalloc m id = (some (m.head.getD id 0),
      { head := m.head.set id (m.next (m.head.getD id 0))
        next := fun p => if p = m.head.getD id 0 then junk 5 else m.next p
        fill := fun p => if p = m.head.getD id 0 then 5 else m.fill p }) := by
  unfold Mem.kalloc
  simp only [h, ne_eq, not_false_eq_true, if_true]
  rfl

/-- Freeing a page that is on no free list: the list of the calling core gets the page as
its head and no other list changes. -/
theorem Mem.Lists.push {m : Mem} {fl : List (List Nat)} (hl : m.Lists fl) (id pa : Nat)
    (hid : id < m.NCPU) (h0 : pa ≠ 0) (hpa : ∀ l ∈ fl, pa ∉ l) (f : Nat → Nat) :
    Mem.Lists
      { head := m.head.set id pa
        next := fun p => if p = pa then m.head.getD id 0 else (m.memset pa 1).next p
        fill := f } (fl.set id (pa :: fl.getD id [])) := by
  obtain ⟨hlen, hch⟩ := hl
  have hidl : id < fl.length := by rw [← hlen]; exact hid
  refine ⟨by simp [hlen], ?_⟩
  intro i hi
  rw [List.length_set] at hi
  have hkeep : ∀ j, j < fl.length → Chain (fun p => if p = pa then m.head.getD id 0
      else (m.memset pa 1).next p) (m.head.getD j 0) (fl.getD j []) := by
    intro j hj
    refine Chain.congr (fun q hq => ?_) (hch j hj)
    have hne : q ≠ pa := fun e => hpa _ (getD_mem_of_lt fl j hj) (e ▸ hq)
    simp [Mem.memset, hne]
  by_cases e : i = id
  · subst e
    rw [getD_set_self _ _ _ hidl]
    show Chain _ ((m.head.set i pa).getD i 0) _
    rw [getD_set_self_nat _ _ _ (by rw [hlen]; exact hidl)]
    refine ⟨h0, rfl, ?_⟩
    simp only [if_true]
    exact hkeep i hidl
  · rw [getD_set_ne _ _ _ _ (fun h => e h.symm)]
    show Chain _ ((m.head.set id pa).getD i 0) _
    rw [getD_set_ne_nat _ _ _ _ (fun h => e h.symm)]
    exact hkeep i hi

/-- Popping the head of the list of a core, when that page is on no other list: the list
becomes its tail and no other list changes. -/
theorem Mem.Lists.pop {m : Mem} {fl : List (List Nat)} (hl : m.Lists fl) (id r : Nat)
    (rest : List Nat) (hid : id < m.NCPU) (hr : fl.getD id [] = r :: rest)
    (hoth : ∀ j, j < fl.length → j ≠ id → r ∉ fl.getD j []) (f : Nat → Nat) :
    m.head.getD id 0 = r ∧ r ≠ 0 ∧
    Mem.Lists
      { head := m.head.set id (m.next r)
        next := fun p => if p = r then junk 5 else m.next p
        fill := f } (fl.set id rest) := by
  obtain ⟨hlen, hch⟩ := hl
  have hidl : id < fl.length := by rw [← hlen]; exact hid
  have hc := hch id hidl
  rw [hr] at hc
  obtain ⟨c1, c2, c3⟩ := hc
  have hnd : (r :: rest).Nodup := Chain.nodup (show Chain m.next (m.head.getD id 0) (r :: rest)
    from ⟨c1, c2, c3⟩)
  have hrr : r ∉ rest := (List.nodup_cons.1 hnd).1
  refine ⟨c2, c2 ▸ c1, by simp [hlen], ?_⟩
  intro i hi
  rw [List.length_set] at hi
  by_cases e : i = id
  · subst e
    rw [getD_set_self _ _ _ hidl]
    show Chain _ ((m.head.set i (m.next r)).getD i 0) _
    rw [getD_set_self_nat _ _ _ (by rw [hlen]; exact hidl)]
    rw [c2] at c3
    refine Chain.congr (fun q hq => ?_) c3
    have hne : q ≠ r := fun e => hrr (e ▸ hq)
    simp [hne]
  · rw [getD_set_ne _ _ _ _ (fun h => e h.symm)]
    show Chain _ ((m.head.set id (m.next r)).getD i 0) _
    rw [getD_set_ne_nat _ _ _ _ (fun h => e h.symm)]
    refine Chain.congr (fun q hq => ?_) (hch i hi)
    have hne : q ≠ r := fun e1 => hoth i hi e (e1 ▸ hq)
    simp [hne]

end Kalloc

namespace Kalloc

/-! ## C10: `kfree` -/

/-- C10, as amended. `kfree(pa)` panics if and only if `pa` is not a multiple of `PGSIZE`, or
`pa < end`, or `pa ≥ PHYSTOP`. Otherwise, when the free lists end with the null pointer and
`pa` is on none of them (`end` is not the null address, so `pa` is not the null pointer),
it fills the page with the byte 1, makes `pa` the head of the free list of the calling core
with the previous list as its tail, and leaves the free list of every other core, the
link of every other page and the fill of every other page unchanged. -/
theorem kfree_pushes_unlisted_page (L : Layout) (m : Mem) (id pa : Nat) :
    (Mem.kfree L m id pa = .error "kfree" ↔
      (pa % L.PGSIZE ≠ 0 ∨ pa < L.endp ∨ pa ≥ L.PHYSTOP)) ∧
    (¬ (pa % L.PGSIZE ≠ 0 ∨ pa < L.endp ∨ pa ≥ L.PHYSTOP) → 0 < L.endp → id < m.NCPU →
      ∀ fl, m.Lists fl → (∀ l ∈ fl, pa ∉ l) →
        ∃ m1, Mem.kfree L m id pa = .ok m1 ∧ m1.fill pa = 1 ∧
          Chain m1.next (m1.head.getD id 0) (pa :: fl.getD id []) ∧
          (∀ j, j < m.NCPU → j ≠ id → m1.head.getD j 0 = m.head.getD j 0 ∧
            Chain m1.next (m1.head.getD j 0) (fl.getD j [])) ∧
          m1.NCPU = m.NCPU ∧ (∀ q, q ≠ pa → m1.next q = m.next q) ∧
          ∀ q, q ≠ pa → m1.fill q = m.fill q) := by
  constructor
  · unfold Mem.kfree
    constructor
    · intro h
      by_contra hn
      rw [if_neg hn] at h
      cases h
    · intro h
      rw [if_pos h]
  · intro hn hend hid fl hl hpa
    have h0 : pa ≠ 0 := by
      intro e
      apply hn
      right; left
      omega
    have hlen := hl.1
    have hidl : id < fl.length := by rw [← hlen]; exact hid
    have hp := Mem.Lists.push hl id pa hid h0 hpa (fun p => if p = pa then 1 else m.fill p)
    refine ⟨_, Mem.kfree_ok L m id pa hn, by simp, ?_, ?_, by simp [Mem.NCPU], ?_, ?_⟩
    · have := hp.2 id (by rw [List.length_set]; exact hidl)
      rw [getD_set_self _ _ _ hidl] at this
      exact this
    · intro j hj hne
      have hjl : j < fl.length := by rw [← hlen]; exact hj
      have := hp.2 j (by rw [List.length_set]; exact hjl)
      rw [getD_set_ne _ _ _ _ (fun e => hne e.symm)] at this
      exact ⟨getD_set_ne_nat _ _ _ _ (fun e => hne e.symm), this⟩
    · intro q hq
      simp [Mem.memset, hq]
    · intro q hq
      simp [hq]

/-- Witness for C10 as amended: core 0 frees the page `0x87002000`, which is on no list. -/
theorem kfree_pushes_unlisted_page_witness :
    ∃ m1, Mem.kfree xv6Layout twoCoresMem 0 2264932352 = .ok m1 ∧ m1.fill 2264932352 = 1 ∧
      Chain m1.next (m1.head.getD 0 0) (2264932352 :: twoCores.freelist.getD 0 []) ∧
      (∀ j, j < twoCoresMem.NCPU → j ≠ 0 → m1.head.getD j 0 = twoCoresMem.head.getD j 0 ∧
        Chain m1.next (m1.head.getD j 0) (twoCores.freelist.getD j [])) ∧
      m1.NCPU = twoCoresMem.NCPU ∧ (∀ q, q ≠ 2264932352 → m1.next q = twoCoresMem.next q) ∧
      ∀ q, q ≠ 2264932352 → m1.fill q = twoCoresMem.fill q :=
  (kfree_pushes_unlisted_page xv6Layout twoCoresMem 0 2264932352).2 (by decide) (by decide)
    (by decide) twoCores.freelist (by decide) (by decide)

/-- C10, counterexample to the claim as stated. Core 0 has no free page and the list of core 1
is `0x87000000, 0x87001000`. The address `0x87000000` passes the check of `kfree`; freeing it
on core 0 writes the null pointer (the head of the list of core 0) into its link, so the
list of core 1 becomes `0x87000000` alone: the list of another core has changed. -/
theorem kfree_rewires_listed_page :
    twoCoresMem.Lists [[], [2264924160, 2264928256]] ∧
    ¬ (2264924160 % xv6Layout.PGSIZE ≠ 0 ∨ 2264924160 < xv6Layout.endp ∨
      2264924160 ≥ xv6Layout.PHYSTOP) ∧
    Mem.kfree xv6Layout twoCoresMem 0 2264924160 =
      .ok (Mem.afterFree twoCoresMem (Mem.kfree xv6Layout twoCoresMem 0 2264924160)) ∧
    (Mem.afterFree twoCoresMem (Mem.kfree xv6Layout twoCoresMem 0 2264924160)).Lists
      [[2264924160], [2264924160]] ∧
    ¬ Chain (Mem.afterFree twoCoresMem (Mem.kfree xv6Layout twoCoresMem 0 2264924160)).next
      ((Mem.afterFree twoCoresMem (Mem.kfree xv6Layout twoCoresMem 0 2264924160)).head.getD 1 0)
      [2264924160, 2264928256] :=
  ⟨by decide, by decide, rfl, by decide, by decide⟩

end Kalloc

namespace Kalloc

/-! ## C11: the fast path of `kalloc` -/

/-- C11, as amended. When the free lists end with the null pointer and are pairwise disjoint
and the free list of the calling core is not empty, `kalloc` returns the head page of that
list, the list becomes its former tail, the returned page is filled with the byte 5 and
the free list of every other core (and the fill of every other page) is unchanged.
Consequently, for a page `p` that is on no free list (`end` is not the null address, so `p`
is not the null pointer), `kfree(p)` followed at once by `kalloc()` on the same core
returns `p` and leaves every free list as it was before the `kfree`. -/
theorem kalloc_pops_head_of_disjoint_lists (L : Layout) (m : Mem) (id : Nat)
    (fl : List (List Nat)) (hl : m.Lists fl) (hid : id < m.NCPU) :
    (fl.Pairwise List.Disjoint → ∀ r rest, fl.getD id [] = r :: rest →
      ∃ m1, Mem.kalloc m id = (some r, m1) ∧ m1.fill r = 5 ∧
        Chain m1.next (m1.head.getD id 0) rest ∧
        (∀ j, j < m.NCPU → j ≠ id → m1.head.getD j 0 = m.head.getD j 0 ∧
          Chain m1.next (m1.head.getD j 0) (fl.getD j [])) ∧
        m1.NCPU = m.NCPU ∧ ∀ q, q ≠ r → m1.fill q = m.fill q) ∧
    (0 < L.endp → ∀ p, (∀ l ∈ fl, p ∉ l) → ∀ m1, Mem.kfree L m id p = .ok m1 →
      ∃ m2, Mem.kalloc m1 id = (some p, m2) ∧ m2.fill p = 5 ∧ m2.head = m.head ∧
        m2.Lists fl ∧ ∀ q, q ≠ p → m2.next q = m.next q) := by
  have hlen := hl.1
  have hidl : id < fl.length := by rw [← hlen]; exact hid
  constructor
  · intro hdis r rest hr
    have hoth : ∀ j, j < fl.length → j ≠ id → r ∉ fl.getD j [] := by
      intro j hj hne hmem
      have hd := disjoint_of_pairwise fl hdis j id hj hidl hne
      exact hd hmem (by rw [hr]; exact List.mem_cons_self _ _)
    obtain ⟨h1, h2, h3⟩ := Mem.Lists.pop hl id r rest hid hr hoth
      (fun p => if p = r then 5 else m.fill p)
    have hk := Mem.kalloc_fast m id (by rw [h1]; exact h2)
    rw [h1] at hk
    refine ⟨_, hk, by simp, ?_, ?_, by simp [Mem.NCPU], ?_⟩
    · have := h3.2 id (by rw [List.length_set]; exact hidl)
      rw [getD_set_self _ _ _ hidl] at this
      exact this
    · intro j hj hne
      have hjl : j < fl.length := by rw [← hlen]; exact hj
      have := h3.2 j (by rw [List.length_set]; exact hjl)
      rw [getD_set_ne _ _ _ _ (fun e => hne e.symm)] at this
      exact ⟨getD_set_ne_nat _ _ _ _ (fun e => hne e.symm), this⟩
    · intro q hq
      simp [hq]
  · intro hend p hp m1 hf
    have hn : ¬ (p % L.PGSIZE ≠ 0 ∨ p < L.endp ∨ p ≥ L.PHYSTOP) := by
      intro hbad
      unfold Mem.kfree at hf
      rw [if_pos hbad] at hf
      cases hf
    have h0 : p ≠ 0 := by
      intro e
      apply hn
      right; left
      omega
    rw [Mem.kfree_ok L m id p hn] at hf
    simp only [Except.ok.injEq] at hf
    subst hf
    have hh : (m.head.set id p).getD id 0 = p := getD_set_self_nat _ _ _ hid
    have hk := Mem.kalloc_fast
      { head := m.head.set id p
        next := fun q => if q = p then m.head.getD id 0 else (m.memset p 1).next q
        fill := fun q => if q = p then 1 else m.fill q } id (by rw [hh]; exact h0)
    simp only [hh, if_true, List.set_set] at hk
    rw [set_getD_self_nat] at hk
    refine ⟨_, hk, by simp, rfl, ⟨hlen, ?_⟩, ?_⟩
    · intro i hi
      refine Chain.congr (fun q hq => ?_) (hl.2 i hi)
      have hne : q ≠ p := fun e => hp _ (getD_mem_of_lt fl i hi) (e ▸ hq)
      simp [Mem.memset, hne]
    · intro q hq
      simp [Mem.memset, hq]

/-- Witness for C11 as amended: core 1 of two cores has the two free pages `0x87000000` and
`0x87001000`, and the page `0x87002000` is on no list. -/
theorem kalloc_pops_head_of_disjoint_lists_witness :
    (∃ m1, Mem.kalloc twoCoresMem 1 = (some 2264924160, m1) ∧ m1.fill 2264924160 = 5 ∧
      Chain m1.next (m1.head.getD 1 0) [2264928256] ∧
      (∀ j, j < twoCoresMem.NCPU → j ≠ 1 → m1.head.getD j 0 = twoCoresMem.head.getD j 0 ∧
        Chain m1.next (m1.head.getD j 0) (twoCores.freelist.getD j [])) ∧
      m1.NCPU = twoCoresMem.NCPU ∧ ∀ q, q ≠ 2264924160 → m1.fill q = twoCoresMem.fill q) ∧
    ∃ m2, Mem.kalloc
        (Mem.afterFree twoCoresMem (Mem.kfree xv6Layout twoCoresMem 1 2264932352)) 1 =
          (some 2264932352, m2) ∧ m2.fill 2264932352 = 5 ∧ m2.head = twoCoresMem.head ∧
        m2.Lists twoCores.freelist ∧ ∀ q, q ≠ 2264932352 → m2.next q = twoCoresMem.next q :=
  ⟨(kalloc_pops_head_of_disjoint_lists xv6Layout twoCoresMem 1 twoCores.freelist (by decide)
      (by decide)).1 (by simp [twoCores]) 2264924160 [2264928256] rfl,
    (kalloc_pops_head_of_disjoint_lists xv6Layout twoCoresMem 1 twoCores.freelist (by decide)
      (by decide)).2 (by decide) 2264932352 (by decide) _ rfl⟩

/-- C11, counterexample to the claim as stated. Core 0 has no free page and the list of core 1
is `0x87000000, 0x87001000`. `kfree(0x87000000)` on core 0 leaves both lists with the one
page `0x87000000`; the `kalloc()` that follows on core 0, whose list is not empty, returns
`0x87000000` and fills it, link included, with the byte 5. Afterwards the list of core 1
is neither what it was before the `kfree` nor what it was before the `kalloc`. -/
theorem kfree_kalloc_breaks_listed_page :
    twoCoresMem.Lists [[], [2264924160, 2264928256]] ∧
    Mem.kfree xv6Layout twoCoresMem 0 2264924160 =
      .ok (Mem.afterFree twoCoresMem (Mem.kfree xv6Layout twoCoresMem 0 2264924160)) ∧
    (Mem.afterFree twoCoresMem (Mem.kfree xv6Layout twoCoresMem 0 2264924160)).Lists
      [[2264924160], [2264924160]] ∧
    (Mem.kalloc (Mem.afterFree twoCoresMem
      (Mem.kfree xv6Layout twoCoresMem 0 2264924160)) 0).1 = some 2264924160 ∧
    (Mem.kalloc (Mem.afterFree twoCoresMem
      (Mem.kfree xv6Layout twoCoresMem 0 2264924160)) 0).2.head = [0, 2264924160] ∧
    (Mem.kalloc (Mem.afterFree twoCoresMem
      (Mem.kfree xv6Layout twoCoresMem 0 2264924160)) 0).2.next 2264924160 = junk 5 ∧
    ¬ Chain (Mem.kalloc (Mem.afterFree twoCoresMem
        (Mem.kfree xv6Layout twoCoresMem 0 2264924160)) 0).2.next 2264924160
      [2264924160, 2264928256] ∧
    ¬ Chain (Mem.kalloc (Mem.afterFree twoCoresMem
        (Mem.kfree xv6Layout twoCoresMem 0 2264924160)) 0).2.next 2264924160 [2264924160] :=
  ⟨by decide, rfl, by decide, by decide, by decide, by decide, by decide, by decide⟩

end Kalloc

namespace Kalloc

/-! ## The lists of `Kmem` and the memory -/

/-- On a page that is on no free list, `kfree` on the memory does what `kfree` on the lists
does: both panic, or both return and the free lists of the new memory are the new lists. -/
theorem kfree_refines (L : Layout) (m : Mem) (s : Kmem) (id pa : Nat)
    (hl : m.Lists s.freelist) (hf : m.fill = s.fill) (hend : 0 < L.endp) (hid : id < m.NCPU)
    (hpa : ∀ l ∈ s.freelist, pa ∉ l) :
    (Mem.kfree L m id pa = .error "kfree" ∧ kfree L s id pa = .error "kfree") ∨
    ∃ m1 s1, Mem.kfree L m id pa = .ok m1 ∧ kfree L s id pa = .ok s1 ∧
      m1.Lists s1.freelist ∧ m1.fill = s1.fill := by
  by_cases hn : pa % L.PGSIZE ≠ 0 ∨ pa < L.endp ∨ pa ≥ L.PHYSTOP
  · left
    unfold Mem.kfree kfree
    rw [if_pos hn, if_pos hn]
    exact ⟨rfl, rfl⟩
  · right
    have h0 : pa ≠ 0 := by
      intro e
      apply hn
      right; left
      omega
    refine ⟨_, _, Mem.kfree_ok L m id pa hn, by unfold kfree; rw [if_neg hn], ?_, ?_⟩
    · exact Mem.Lists.push hl id pa hid h0 hpa _
    · funext p
      simp [memset, hf]

end Kalloc

namespace Kalloc

/-- One iteration of the inner loop on the memory. -/
theorem Mem.stealWhile_succ (n : Nat) (next : Nat → Nat) (r sf : Nat) (sp : Int) :
    Mem.stealWhile (n + 1) next r sf sp =
      if r = 0 then (next, r, sf, sp)
      else if sp - 1 ≠ 0 then
        Mem.stealWhile n (fun p => if p = r then sf else next p) (next r) r (sp - 1)
      else (next, r, sf, sp - 1) := rfl

/-- The inner loop on the memory moves the pages that the inner loop on the lists moves: the
chain of the other core and the chain of stolen pages are the two lists that `stealWhile`
returns, and only links of pages of the other core are written. -/
theorem stealWhile_refines : ∀ (n : Nat) (next : Nat → Nat) (r sf : Nat) (sp : Int)
    (li lsf : List Nat), Chain next r li → Chain next sf lsf → List.Disjoint li lsf →
    1 ≤ sp → sp ≤ n →
    Chain (Mem.stealWhile n next r sf sp).1 (Mem.stealWhile n next r sf sp).2.1
      (stealWhile li lsf sp).1 ∧
    Chain (Mem.stealWhile n next r sf sp).1 (Mem.stealWhile n next r sf sp).2.2.1
      (stealWhile li lsf sp).2.1 ∧
    (Mem.stealWhile n next r sf sp).2.2.2 = (stealWhile li lsf sp).2.2 ∧
    0 ≤ (stealWhile li lsf sp).2.2 ∧
    (∀ q, q ∉ li → (Mem.stealWhile n next r sf sp).1 q = next q) ∧
    (∀ q ∈ (stealWhile li lsf sp).1, q ∈ li) ∧
    (∀ q ∈ (stealWhile li lsf sp).2.1, q ∈ li ∨ q ∈ lsf) ∧
    List.Disjoint (stealWhile li lsf sp).1 (stealWhile li lsf sp).2.1 := by
  intro n
  induction n with
  | zero =>
    intro next r sf sp li lsf _ _ _ h1 h2
    exfalso
    omega
  | succ n ih =>
    intro next r sf sp li lsf hc hs hd h1 h2
    rw [Mem.stealWhile_succ]
    cases li with
    | nil =>
      have hr : r = 0 := hc
      rw [if_pos hr]
      have e : stealWhile [] lsf sp = ([], lsf, sp) := by simp [stealWhile]
      rw [e]
      exact ⟨hc, hs, rfl, (by show (0 : Int) ≤ sp; omega), fun _ _ => rfl, fun _ h => h,
        fun _ h => Or.inr h, hd⟩
    | cons x rest =>
      obtain ⟨c1, c2, c3⟩ := hc
      subst c2
      have hnd : (r :: rest).Nodup := Chain.nodup (show Chain next r (r :: rest) from ⟨c1, rfl, c3⟩)
      have hrr : r ∉ rest := (List.nodup_cons.1 hnd).1
      have hrs : r ∉ lsf := fun h => hd (List.mem_cons_self _ _) h
      rw [if_neg c1]
      by_cases hsp : sp - 1 ≠ 0
      · rw [if_pos hsp]
        have e : stealWhile (r :: rest) lsf sp = stealWhile rest (r :: lsf) (sp - 1) := by
          rw [stealWhile, if_pos hsp]
        rw [e]
        have k1 : Chain (fun p => if p = r then sf else next p) (next r) rest :=
          Chain.congr (fun q hq => by
            have : q ≠ r := fun e => hrr (e ▸ hq)
            simp [this]) c3
        have k2 : Chain (fun p => if p = r then sf else next p) r (r :: lsf) := by
          refine ⟨c1, rfl, ?_⟩
          simp only [if_true]
          exact Chain.congr (fun q hq => by
            have : q ≠ r := fun e => hrs (e ▸ hq)
            simp [this]) hs
        have k3 : List.Disjoint rest (r :: lsf) := by
          intro q hq hq2
          rcases List.mem_cons.1 hq2 with e | hq2
          · exact hrr (e ▸ hq)
          · exact hd (List.mem_cons_of_mem _ hq) hq2
        obtain ⟨a1, a2, a3, a4, a5, a6, a7, a8⟩ :=
          ih (fun p => if p = r then sf else next p) (next r) r (sp - 1) rest (r :: lsf)
            k1 k2 k3 (by omega) (by omega)
        refine ⟨a1, a2, a3, a4, ?_, ?_, ?_, a8⟩
        · intro q hq
          rw [a5 q (fun h => hq (List.mem_cons_of_mem _ h))]
          have : q ≠ r := fun e => hq (e ▸ List.mem_cons_self _ _)
          simp [this]
        · intro q hq
          exact List.mem_cons_of_mem _ (a6 q hq)
        · intro q hq
          rcases a7 q hq with h | h
          · exact Or.inl (List.mem_cons_of_mem _ h)
          · rcases List.mem_cons.1 h with e | h
            · exact Or.inl (e ▸ List.mem_cons_self _ _)
            · exact Or.inr h
      · rw [if_neg hsp]
        have e : stealWhile (r :: rest) lsf sp = (r :: rest, lsf, sp - 1) := by
          rw [stealWhile, if_neg hsp]
        rw [e]
        exact ⟨⟨c1, rfl, c3⟩, hs, rfl, (by show (0 : Int) ≤ sp - 1; omega), fun _ _ => rfl,
          fun _ h => h,
          fun _ h => Or.inr h, hd⟩

end Kalloc

namespace Kalloc

/-- One iteration of the outer loop on the memory. -/
theorem Mem.stealFor_iter (id n i : Nat) (head : List Nat) (next : Nat → Nat) (sf : Nat)
    (sp : Int) :
    Mem.stealFor id (n + 1) i head next sf sp =
      if i = id then Mem.stealFor id n (i + 1) head next sf sp
      else if (Mem.stealWhile sp.toNat next (head.getD i 0) sf sp).2.2.2 = 0 then
        (head.set i (Mem.stealWhile sp.toNat next (head.getD i 0) sf sp).2.1,
          (Mem.stealWhile sp.toNat next (head.getD i 0) sf sp).1,
          (Mem.stealWhile sp.toNat next (head.getD i 0) sf sp).2.2.1,
          (Mem.stealWhile sp.toNat next (head.getD i 0) sf sp).2.2.2)
      else
        Mem.stealFor id n (i + 1)
          (head.set i (Mem.stealWhile sp.toNat next (head.getD i 0) sf sp).2.1)
          (Mem.stealWhile sp.toNat next (head.getD i 0) sf sp).1
          (Mem.stealWhile sp.toNat next (head.getD i 0) sf sp).2.2.1
          (Mem.stealWhile sp.toNat next (head.getD i 0) sf sp).2.2.2 := rfl

/-- Stealing from one core keeps the memory and the lists in step. -/
theorem Stealing.step {head : List Nat} {next : Nat → Nat} {sf : Nat} {fl : List (List Nat)}
    {lsf : List Nat} (h : Stealing head next sf fl lsf) (i : Nat) (hi : i < fl.length)
    (sp : Int) (h1 : 1 ≤ sp) :
    Stealing (head.set i (Mem.stealWhile sp.toNat next (head.getD i 0) sf sp).2.1)
      (Mem.stealWhile sp.toNat next (head.getD i 0) sf sp).1
      (Mem.stealWhile sp.toNat next (head.getD i 0) sf sp).2.2.1
      (fl.set i (stealWhile (fl.getD i []) lsf sp).1) (stealWhile (fl.getD i []) lsf sp).2.1 ∧
    (Mem.stealWhile sp.toNat next (head.getD i 0) sf sp).2.2.2 =
      (stealWhile (fl.getD i []) lsf sp).2.2 ∧
    0 ≤ (stealWhile (fl.getD i []) lsf sp).2.2 := by
  obtain ⟨w1, w2, w3, w4, w5, w6, w7, w8⟩ :=
    stealWhile_refines sp.toNat next (head.getD i 0) sf sp (fl.getD i []) lsf (h.chain i)
      h.stolen (h.fresh i) h1 (by omega)
  have hih : i < head.length := by rw [h.length]; exact hi
  have hsub : ∀ x q, q ∈ (fl.set i (stealWhile (fl.getD i []) lsf sp).1).getD x [] →
      q ∈ fl.getD x [] := by
    intro x q hq
    by_cases e : x = i
    · subst e
      rw [getD_set_self _ _ _ hi] at hq
      exact w6 q hq
    · rw [getD_set_ne _ _ _ _ (fun h => e h.symm)] at hq
      exact hq
  refine ⟨⟨by simp [h.length], ?_, w2, ?_, ?_⟩, w3, w4⟩
  · intro j
    by_cases e : j = i
    · subst e
      rw [getD_set_self _ _ _ hi, getD_set_self_nat _ _ _ hih]
      exact w1
    · rw [getD_set_ne _ _ _ _ (fun h => e h.symm), getD_set_ne_nat _ _ _ _ (fun h => e h.symm)]
      refine Chain.congr (fun q hq => ?_) (h.chain j)
      exact w5 q (fun hqi => h.apart j i e hq hqi)
  · intro a b hab q hqa hqb
    exact h.apart a b hab (hsub a q hqa) (hsub b q hqb)
  · intro a q hqa hqs
    by_cases e : a = i
    · subst e
      rw [getD_set_self _ _ _ hi] at hqa
      exact w8 hqa hqs
    · rcases w7 q hqs with hq | hq
      · exact h.apart a i e (hsub a q hqa) hq
      · exact h.fresh a (hsub a q hqa) hq

/-- The outer loop on the memory keeps in step with the outer loop on the lists. -/
theorem stealFor_refines (id : Nat) : ∀ (n i : Nat) (head : List Nat) (next : Nat → Nat)
    (sf : Nat) (sp : Int) (fl : List (List Nat)) (lsf : List Nat),
    Stealing head next sf fl lsf → 1 ≤ sp → i + n ≤ fl.length →
    Stealing (Mem.stealFor id n i head next sf sp).1 (Mem.stealFor id n i head next sf sp).2.1
      (Mem.stealFor id n i head next sf sp).2.2.1 (stealFor id n i fl lsf sp).1
      (stealFor id n i fl lsf sp).2.1 := by
  intro n
  induction n with
  | zero =>
    intro i head next sf sp fl lsf h _ _
    exact h
  | succ n ih =>
    intro i head next sf sp fl lsf h h1 hin
    rw [Mem.stealFor_iter, stealFor_succ]
    by_cases hi : i = id
    · rw [if_pos hi, if_pos hi]
      exact ih (i + 1) head next sf sp fl lsf h h1 (by omega)
    · rw [if_neg hi, if_neg hi]
      obtain ⟨s1, s2, s3⟩ := h.step i (by omega) sp h1
      rw [s2]
      by_cases hp : (stealWhile (fl.getD i []) lsf sp).2.2 = 0
      · rw [if_pos hp, if_pos hp]
        exact s1
      · rw [if_neg hp, if_neg hp]
        rw [← s2]
        have := ih (i + 1) _ _ _ (Mem.stealWhile sp.toNat next (head.getD i 0) sf sp).2.2.2
          _ _ s1 (by rw [s2]; omega) (by rw [List.length_set]; omega)
        rw [s2] at this ⊢
        exact this

end Kalloc

namespace Kalloc

/-- The slow path of `kalloc` on the memory. -/
theorem Mem.kalloc_slow (m : Mem) (id : Nat) (h : m.head.getD id 0 = 0) :
    Mem.kalloc m id =
      if (Mem.stealFor id m.NCPU 0 m.head m.next 0 64).2.2.1 ≠ 0 then
        (some (Mem.stealFor id m.NCPU 0 m.head m.next 0 64).2.2.1,
          Mem.memset
            { m with
              head := (Mem.stealFor id m.NCPU 0 m.head m.next 0 64).1.set id
                ((Mem.stealFor id m.NCPU 0 m.head m.next 0 64).2.1
                  (Mem.stealFor id m.NCPU 0 m.head m.next 0 64).2.2.1)
              next := (Mem.stealFor id m.NCPU 0 m.head m.next 0 64).2.1 }
            (Mem.stealFor id m.NCPU 0 m.head m.next 0 64).2.2.1 5)
      else
        (none,
          { m with
            head := (Mem.stealFor id m.NCPU 0 m.head m.next 0 64).1.set id
              (Mem.stealFor id m.NCPU 0 m.head m.next 0 64).2.2.1
            next := (Mem.stealFor id m.NCPU 0 m.head m.next 0 64).2.1 }) := by
  unfold Mem.kalloc
  simp only [h, ne_eq, not_true_eq_false, if_false]

/-- The lists of a memory whose free lists are pairwise disjoint, at the start of the
stealing loops. -/
theorem Stealing.start {m : Mem} {fl : List (List Nat)} (hl : m.Lists fl)
    (hd : fl.Pairwise List.Disjoint) : Stealing m.head m.next 0 fl [] := by
  refine ⟨hl.1, ?_, rfl, ?_, fun _ _ _ h => by cases h⟩
  · intro j
    by_cases hj : j < fl.length
    · exact hl.2 j hj
    · rw [List.getD_eq_default fl [] (by omega),
        List.getD_eq_default m.head 0 (by rw [hl.1]; omega)]
      rfl
  · intro a b hab
    by_cases ha : a < fl.length
    · by_cases hb : b < fl.length
      · exact disjoint_of_pairwise fl hd a b ha hb hab
      · rw [List.getD_eq_default fl [] (show fl.length ≤ b by omega)]
        intro _ _ h
        cases h
    · rw [List.getD_eq_default fl [] (show fl.length ≤ a by omega)]
      intro _ h
      cases h

/-- On free lists that end with the null pointer and are pairwise disjoint, `kalloc` on the
memory does what `kalloc` on the lists does: it returns the same pointer, and the free
lists of the new memory are the new lists. -/
theorem kalloc_refines (m : Mem) (s : Kmem) (id : Nat) (hl : m.Lists s.freelist)
    (hf : m.fill = s.fill) (hd : s.freelist.Pairwise List.Disjoint) :
    (Mem.kalloc m id).1 = (kalloc s id).1 ∧
    (Mem.kalloc m id).2.Lists (kalloc s id).2.freelist ∧
    (Mem.kalloc m id).2.fill = (kalloc s id).2.fill := by
  have hst := Stealing.start hl hd
  cases hown : s.freelist.getD id [] with
  | cons r rest =>
    have hidl : id < s.freelist.length := by
      by_contra hn
      rw [List.getD_eq_default _ _ (by omega)] at hown
      cases hown
    have hid : id < m.NCPU := by
      unfold Mem.NCPU
      rw [hl.1]
      exact hidl
    have hoth : ∀ j, j < s.freelist.length → j ≠ id → r ∉ s.freelist.getD j [] := by
      intro j hj hne hmem
      exact hst.apart j id hne hmem (by rw [hown]; exact List.mem_cons_self _ _)
    obtain ⟨h1, h2, h3⟩ := Mem.Lists.pop hl id r rest hid hown hoth
      (fun p => if p = r then 5 else m.fill p)
    have hk := Mem.kalloc_fast m id (by rw [h1]; exact h2)
    rw [h1] at hk
    rw [hk, kalloc_local hown]
    refine ⟨rfl, h3, ?_⟩
    funext p
    simp [memset, hf]
  | nil =>
    have h0 : m.head.getD id 0 = 0 := by
      have := hst.chain id
      rw [hown] at this
      exact this
    have hn : m.NCPU = s.NCPU := hl.1
    have S := stealFor_refines id m.NCPU 0 m.head m.next 0 64 s.freelist [] hst (by decide)
      (by rw [hn]; simp [Kmem.NCPU])
    rw [hn] at S
    rw [Mem.kalloc_slow m id h0, kalloc_steal hown, hn]
    cases hA : (stealFor id s.NCPU 0 s.freelist [] 64).2.1 with
    | nil =>
      rw [hA] at S
      have hz : (Mem.stealFor id s.NCPU 0 m.head m.next 0 64).2.2.1 = 0 := S.stolen
      simp only [hz, ne_eq, not_true_eq_false, if_false]
      refine ⟨trivial, ⟨by simp [S.length], ?_⟩, hf⟩
      intro j hj
      rw [List.length_set] at hj
      by_cases e : j = id
      · subst e
        rw [getD_set_self _ _ _ hj]
        show Chain _ (((Mem.stealFor j s.NCPU 0 m.head m.next 0 64).1.set j 0).getD j 0) []
        rw [getD_set_self_nat _ _ _ (by rw [S.length]; exact hj)]
        rfl
      · rw [getD_set_ne _ _ _ _ (fun h => e h.symm)]
        show Chain _ (((Mem.stealFor id s.NCPU 0 m.head m.next 0 64).1.set id 0).getD j 0) _
        rw [getD_set_ne_nat _ _ _ _ (fun h => e h.symm)]
        exact S.chain j
    | cons r rest =>
      rw [hA] at S
      obtain ⟨c1, c2, c3⟩ := S.stolen
      have hnd : (r :: rest).Nodup := Chain.nodup S.stolen
      have hrr : r ∉ rest := (List.nodup_cons.1 hnd).1
      simp only [c1, ne_eq, not_false_eq_true, if_true]
      refine ⟨by rw [c2], ⟨by simp [Mem.memset, S.length], ?_⟩, ?_⟩
      · intro j hj
        simp only [memset_freelist, List.length_set] at hj
        simp only [memset_freelist]
        by_cases e : j = id
        · subst e
          rw [getD_set_self _ _ _ hj]
          show Chain _ (((Mem.stealFor j s.NCPU 0 m.head m.next 0 64).1.set j _).getD j 0) rest
          rw [getD_set_self_nat _ _ _ (by rw [S.length]; exact hj)]
          refine Chain.congr (fun q hq => ?_) c3
          have hne : q ≠ (Mem.stealFor j s.NCPU 0 m.head m.next 0 64).2.2.1 := by
            rw [c2]
            exact fun e => hrr (e ▸ hq)
          simp [Mem.memset, hne]
        · rw [getD_set_ne _ _ _ _ (fun h => e h.symm)]
          show Chain _ (((Mem.stealFor id s.NCPU 0 m.head m.next 0 64).1.set id _).getD j 0) _
          rw [getD_set_ne_nat _ _ _ _ (fun h => e h.symm)]
          refine Chain.congr (fun q hq => ?_) (S.chain j)
          have hne : q ≠ (Mem.stealFor id s.NCPU 0 m.head m.next 0 64).2.2.1 := by
            rw [c2]
            exact fun e => S.fresh j hq (e ▸ List.mem_cons_self _ _)
          simp [Mem.memset, hne]
      · funext p
        simp [Mem.memset, memset, hf, c2]

end Kalloc
